import Mathlib

set_option maxHeartbeats 1000000

/-!
Verification of the Slants (Gokigen Naname) puzzle solver and generator.

This file is a shallow embedding of the repository's core Python sources —
`slants_board.py` (board state: cells, vertices, two union-finds, v-bitmap,
exits/border counters, snapshot/restore), `slants_rules.py` (deduction rules),
`solver_PR.py` (production-rule solver), `solver_BF.py` (backtracking solver)
and `gen_puzzles.py` (random solution generation) — together with theorems
about the embedded definitions.

Modelling conventions:
- Python machine-level details are embedded as plain data: strings become
  `List Char`, Python ints become `Nat`/`Int` (`Int` where values can go
  negative, e.g. the `exits` counters), Python `None` becomes `Option`.
- Python exceptions (`ValueError`, `SolverDebugError`) become an `Except PyErr`
  result; a raising operation is modelled as returning `.error`.
- Python mutation is modelled by explicit state passing: each operation takes a
  `Board` and returns the updated `Board`.  Python object references into the
  board (the `Cell` objects handed around by the rules) are modelled by
  re-reading the live cell from the board through its coordinates at each use,
  which reproduces Python's aliasing of `Cell` objects.
- The source's union-find `_find` uses path compression; compression rewrites
  parent entries to point closer to the root of their tree and never changes
  which root any query returns, nor the ranks, so every observable of every
  operation (roots, union outcomes, all exits/border lookups) is unchanged by
  it.  The embedding therefore models `_find` as the pure root lookup
  `uf_find`, computed with fuel `parent.length` (sufficient on all well-formed
  states, see `UFWf`).  Snapshot/restore is unaffected: `restore_state`
  overwrites the parent arrays wholesale in both the source and the model.
-/

/-- Python exceptions thrown by the embedded code (`ValueError` from loop
detection and board construction, `SolverDebugError` from the debug oracle). -/
inductive PyErr where
  | valueError : PyErr
  | solverDebugError : PyErr
deriving DecidableEq, Repr

/-- Cell value `UNKNOWN = 0` (slants_board.py). -/
def UNKNOWN : Nat := 0

/-- Cell value `SLASH = 1`: `/` connects bottom-left to top-right. -/
def SLASH : Nat := 1

/-- Cell value `BACKSLASH = 2`: `\` connects top-left to bottom-right. -/
def BACKSLASH : Nat := 2

/-- A cell of the grid (class `Cell`): position, current value, and the
optional oracle value used by debug-checked runs. -/
structure Cell where
  x : Nat
  y : Nat
  value : Nat
  known_debug_value : Option Nat
deriving DecidableEq, Repr, Inhabited

/-- A vertex (corner point) of the grid (class `Vertex`): position and
optional clue. -/
structure Vertex where
  vx : Nat
  vy : Nat
  clue : Option Nat
deriving DecidableEq, Repr, Inhabited

/-- `Cell.set_value`: set the cell's value, raising `SolverDebugError` when it
contradicts the known debug value. -/
def Cell.set_value (c : Cell) (value : Nat) : Except PyErr Cell :=
  match c.known_debug_value with
  | some k => if value ≠ k then .error .solverDebugError else .ok { c with value := value }
  | none => .ok { c with value := value }

/-- The Slants board (class `Board`): all fields of the Python object.  The
`_`-prefixed Python attributes keep their names without the underscore. -/
structure Board where
  width : Nat
  height : Nat
  known_solution : Option (List Char)
  cells : List Cell
  vertices : List Vertex
  parent : List Nat
  rank : List Nat
  equiv_parent : List Nat
  equiv_rank : List Nat
  slashval : List Nat
  vbitmap : List Nat
  exits : List Int
  border : List Bool
deriving DecidableEq, Repr, Inhabited

/-- One step of the pure root lookup: follow the parent pointer `fuel` times,
stopping at a root (`_find` without the representation-only path compression,
see the header note). -/
def uf_find_aux (parent : List Nat) : Nat → Nat → Nat
  | 0, x => x
  | fuel + 1, x =>
    let p := parent.getD x x
    if p = x then x else uf_find_aux parent fuel p

/-- Root of `x` in the parent forest (`Board._find` / the generator's `find`):
fuel `parent.length` reaches the root on every well-formed state. -/
def uf_find (parent : List Nat) (x : Nat) : Nat :=
  uf_find_aux parent parent.length x

/-- `Board._cell_index`: row-major index of a cell. -/
def Board.cell_index (b : Board) (cell : Cell) : Nat :=
  cell.y * b.width + cell.x

/-- `Board._vertex_index`: row-major index of a vertex. -/
def Board.vertex_index (b : Board) (vx vy : Nat) : Nat :=
  vy * (b.width + 1) + vx

/-- `Board.get_cell`: cell at `(x, y)`, `none` out of bounds (the Python
arguments may be negative, hence `Int` coordinates). -/
def Board.get_cell (b : Board) (x y : Int) : Option Cell :=
  if 0 ≤ x ∧ x < b.width ∧ 0 ≤ y ∧ y < b.height then
    some (b.cells.getD (y.toNat * b.width + x.toNat) default)
  else none

/-- `Board.get_vertex`: vertex at `(vx, vy)`, `none` out of bounds. -/
def Board.get_vertex (b : Board) (vx vy : Int) : Option Vertex :=
  if 0 ≤ vx ∧ vx ≤ b.width ∧ 0 ≤ vy ∧ vy ≤ b.height then
    some (b.vertices.getD (vy.toNat * (b.width + 1) + vx.toNat) default)
  else none

/-- `Board.get_cell_corners`: the four corner vertices of a cell as
(top-left, top-right, bottom-left, bottom-right). -/
def Board.get_cell_corners (b : Board) (cell : Cell) :
    Option Vertex × Option Vertex × Option Vertex × Option Vertex :=
  let x : Int := cell.x
  let y : Int := cell.y
  (b.get_vertex x y, b.get_vertex (x + 1) y, b.get_vertex x (y + 1), b.get_vertex (x + 1) (y + 1))

/-- `Board.get_adjacent_cells_for_vertex`: the (≤ 4) cells adjacent to a
vertex, in source order (top-left, top-right, bottom-left, bottom-right cell),
each with its `(slash_touches, backslash_touches)` flags. -/
def Board.get_adjacent_cells_for_vertex (b : Board) (v : Vertex) : List (Cell × Bool × Bool) :=
  let vx : Int := v.vx
  let vy : Int := v.vy
  (match b.get_cell (vx - 1) (vy - 1) with
   | some c => [(c, false, true)]
   | none => []) ++
  (match b.get_cell vx (vy - 1) with
   | some c => [(c, true, false)]
   | none => []) ++
  (match b.get_cell (vx - 1) vy with
   | some c => [(c, true, false)]
   | none => []) ++
  (match b.get_cell vx vy with
   | some c => [(c, false, true)]
   | none => [])

/-- `Board.count_touches`: `(current, unknown)` for a vertex — placed diagonals
touching it, and adjacent cells still unknown. -/
def Board.count_touches (b : Board) (v : Vertex) : Nat × Nat :=
  (b.get_adjacent_cells_for_vertex v).foldl
    (fun acc t =>
      let (cell, slash_touches, backslash_touches) := t
      if cell.value = UNKNOWN then (acc.1, acc.2 + 1)
      else if cell.value = SLASH ∧ slash_touches then (acc.1 + 1, acc.2)
      else if cell.value = BACKSLASH ∧ backslash_touches then (acc.1 + 1, acc.2)
      else acc)
    (0, 0)

/-- `Board._decode_givens`: decode the RLE clue string — digits are clues,
lowercase letters are runs of 1–26 unclued vertices, other characters are
ignored. -/
def decode_givens (givens_string : List Char) : List (Option Nat) :=
  givens_string.foldl
    (fun result char =>
      if char.isDigit then result ++ [some (char.toNat - Char.toNat '0')]
      else if char.isLower then
        result ++ List.replicate (char.toNat - Char.toNat 'a' + 1) none
      else result)
    []

/-- `Board.__init__`: build a board from width, height, RLE clue string and
optional known solution; raises `ValueError` when the decoded clues do not
match the vertex count. -/
def Board.init (width height : Nat) (givens_string : List Char)
    (known_solution : Option (List Char)) : Except PyErr Board :=
  let cells := (List.range (width * height)).map (fun i =>
    let x := i % width
    let y := i / width
    let kdv : Option Nat :=
      match known_solution with
      | none => none
      | some sol =>
        if i < sol.length then
          let sol_char := sol.getD i ' '
          if sol_char = '/' then some SLASH
          else if sol_char = '\\' then some BACKSLASH
          else none
        else none
    { x := x, y := y, value := UNKNOWN, known_debug_value := kdv })
  let decoded_clues := decode_givens givens_string
  let expected_vertices := (width + 1) * (height + 1)
  if decoded_clues.length ≠ expected_vertices then .error .valueError
  else
    let vertices := (List.range expected_vertices).map (fun i =>
      { vx := i % (width + 1), vy := i / (width + 1), clue := decoded_clues.getD i none })
    let num_vertices := expected_vertices
    let exits := (List.range num_vertices).map (fun i =>
      match (decoded_clues.getD i none) with
      | some c => (c : Int)
      | none => 4)
    let border := (List.range num_vertices).map (fun i =>
      let vx := i % (width + 1)
      let vy := i / (width + 1)
      decide (vy = 0 ∨ vy = height ∨ vx = 0 ∨ vx = width))
    .ok
      { width := width
        height := height
        known_solution := known_solution
        cells := cells
        vertices := vertices
        parent := List.range num_vertices
        rank := List.replicate num_vertices 0
        equiv_parent := List.range (width * height)
        equiv_rank := List.replicate (width * height) 0
        slashval := List.replicate (width * height) 0
        vbitmap := List.replicate (width * height) 0xF
        exits := exits
        border := border }

/-- `Board._equiv_find`: root in the cell-equivalence union-find. -/
def Board.equiv_find (b : Board) (x : Nat) : Nat :=
  uf_find b.equiv_parent x

/-- `Board._find` on the vertex-connectivity union-find. -/
def Board.find (b : Board) (x : Nat) : Nat :=
  uf_find b.parent x

/-- `Board._union`: union by rank on the vertex union-find, merging the
`exits` and `border` data of the two classes onto the surviving root; returns
`false` without mutating when the two nodes are already connected. -/
def Board.union (b : Board) (x y : Nat) : Board × Bool :=
  let rx := b.find x
  let ry := b.find y
  if rx = ry then (b, false)
  else
    let merged_exits := b.exits.getD rx 0 + b.exits.getD ry 0 - 2
    let merged_border := b.border.getD rx false || b.border.getD ry false
    let p := if b.rank.getD rx 0 < b.rank.getD ry 0 then (ry, rx) else (rx, ry)
    let rx := p.1
    let ry := p.2
    let parent := b.parent.set ry rx
    let rank :=
      if b.rank.getD rx 0 = b.rank.getD ry 0 then b.rank.set rx (b.rank.getD rx 0 + 1)
      else b.rank
    ({ b with
        parent := parent
        rank := rank
        exits := b.exits.set rx merged_exits
        border := b.border.set rx merged_border }, true)

/-- `Board._decr_exits`: decrement the exits of the class of `(vx, vy)`,
except when that vertex carries a clue (clued vertices have fixed exits). -/
def Board.decr_exits (b : Board) (vx vy : Int) : Board :=
  match b.get_vertex vx vy with
  | none => b
  | some vertex =>
    if vertex.clue ≠ none then b
    else
      let idx := b.vertex_index vx.toNat vy.toNat
      let root := uf_find b.parent idx
      { b with exits := b.exits.set root (b.exits.getD root 0 - 1) }

/-- `Board.get_vertex_root`: root of the vertex group of `(vx, vy)`. -/
def Board.get_vertex_root (b : Board) (vx vy : Nat) : Nat :=
  uf_find b.parent (b.vertex_index vx vy)

/-- `Board.get_vertex_group_exits`: exits of the group of `(vx, vy)`. -/
def Board.get_vertex_group_exits (b : Board) (vx vy : Nat) : Int :=
  b.exits.getD (b.get_vertex_root vx vy) 0

/-- `Board.get_vertex_group_border`: whether the group of `(vx, vy)` contains
a border vertex. -/
def Board.get_vertex_group_border (b : Board) (vx vy : Nat) : Bool :=
  b.border.getD (b.get_vertex_root vx vy) false

/-- `Board.get_equivalence_class_value`: slash value of the cell's equivalence
class (`0` when unknown). -/
def Board.get_equivalence_class_value (b : Board) (cell : Cell) : Nat :=
  b.slashval.getD (b.equiv_find (b.cell_index cell)) 0

/-- `Board.set_equivalence_class_value`: set the slash value on the root of
the cell's equivalence class (unconditionally). -/
def Board.set_equivalence_class_value (b : Board) (cell : Cell) (value : Nat) : Board :=
  { b with slashval := b.slashval.set (b.equiv_find (b.cell_index cell)) value }

/-- `Board.mark_cells_equivalent`: union two cells in the equivalence
union-find; `false` (no merge) when already equivalent or when the two classes
carry conflicting slash values; debug-checked against the known solution. -/
def Board.mark_cells_equivalent (b : Board) (cell1 cell2 : Cell) :
    Except PyErr (Board × Bool) := do
  let idx1 := b.cell_index cell1
  let idx2 := b.cell_index cell2
  let r1 := b.equiv_find idx1
  let r2 := b.equiv_find idx2
  if r1 = r2 then
    pure (b, false)
  else do
    if b.known_solution ≠ none then
      let val1 := (b.cells.getD idx1 default).known_debug_value
      let val2 := (b.cells.getD idx2 default).known_debug_value
      match val1, val2 with
      | some v1, some v2 => if v1 ≠ v2 then throw .solverDebugError else pure ()
      | _, _ => pure ()
    let sv1 := b.slashval.getD r1 0
    let sv2 := b.slashval.getD r2 0
    if sv1 ≠ 0 ∧ sv2 ≠ 0 ∧ sv1 ≠ sv2 then
      pure (b, false)
    else
      let merged_sv := if sv1 ≠ 0 then sv1 else sv2
      let p := if b.equiv_rank.getD r1 0 < b.equiv_rank.getD r2 0 then (r2, r1) else (r1, r2)
      let r1 := p.1
      let r2 := p.2
      let equiv_parent := b.equiv_parent.set r2 r1
      let equiv_rank :=
        if b.equiv_rank.getD r1 0 = b.equiv_rank.getD r2 0 then
          b.equiv_rank.set r1 (b.equiv_rank.getD r1 0 + 1)
        else b.equiv_rank
      pure ({ b with
               equiv_parent := equiv_parent
               equiv_rank := equiv_rank
               slashval := b.slashval.set r1 merged_sv }, true)

/-- `Board.are_cells_equivalent`. -/
def Board.are_cells_equivalent (b : Board) (cell1 cell2 : Cell) : Bool :=
  b.equiv_find (b.cell_index cell1) = b.equiv_find (b.cell_index cell2)

/-- `Board.get_equivalent_cells`: all cells in the same equivalence class. -/
def Board.get_equivalent_cells (b : Board) (cell : Cell) : List Cell :=
  let target_root := b.equiv_find (b.cell_index cell)
  b.cells.filter (fun c => b.equiv_find (b.cell_index c) = target_root)

/-- `Board.vbitmap_get`. -/
def Board.vbitmap_get (b : Board) (cell : Cell) : Nat :=
  b.vbitmap.getD (b.cell_index cell) 0

/-- `Board.vbitmap_clear`: clear bits from a cell's v-bitmap (`old & ~bits`,
written as subtraction of the common bits); reports whether anything
changed. -/
def Board.vbitmap_clear (b : Board) (cell : Cell) (bits : Nat) : Board × Bool :=
  let idx := b.cell_index cell
  let old := b.vbitmap.getD idx 0
  let new := old - (old &&& bits)
  if new ≠ old then ({ b with vbitmap := b.vbitmap.set idx new }, true)
  else (b, false)

/-- `Board.would_form_loop`: whether placing `value` in `cell` would connect
two already-connected vertices. -/
def Board.would_form_loop (b : Board) (cell : Cell) (value : Nat) : Bool :=
  let x := cell.x
  let y := cell.y
  let v1 := if value = SLASH then b.vertex_index x (y + 1) else b.vertex_index x y
  let v2 := if value = SLASH then b.vertex_index (x + 1) y else b.vertex_index (x + 1) (y + 1)
  b.find v1 = b.find v2

/-- `Board.place_value`: place a value in a cell.  Returns `(b, false)` when
the cell is already decided; unions the two endpoint vertices (raising
`ValueError` when that would close a loop); decrements the exits of the two
non-endpoint corners; sets the cell (debug-checked); and sets the slash value
of the cell's equivalence class. -/
def Board.place_value (b : Board) (cell : Cell) (value : Nat) :
    Except PyErr (Board × Bool) := do
  let i := b.cell_index cell
  let live := b.cells.getD i default
  if live.value ≠ UNKNOWN then
    pure (b, false)
  else
    let x := cell.x
    let y := cell.y
    let v1 := if value = SLASH then b.vertex_index x (y + 1) else b.vertex_index x y
    let v2 := if value = SLASH then b.vertex_index (x + 1) y else b.vertex_index (x + 1) (y + 1)
    let non_v1 : Int × Int := if value = SLASH then ((x : Int), (y : Int)) else ((x : Int) + 1, (y : Int))
    let non_v2 : Int × Int := if value = SLASH then ((x : Int) + 1, (y : Int) + 1) else ((x : Int), (y : Int) + 1)
    match b.union v1 v2 with
    | (_, false) => throw .valueError
    | (b1, true) =>
      let b2 := b1.decr_exits non_v1.1 non_v1.2
      let b3 := b2.decr_exits non_v2.1 non_v2.2
      match live.set_value value with
      | .error e => throw e
      | .ok new_cell =>
        let b4 := { b3 with cells := b3.cells.set i new_cell }
        pure (b4.set_equivalence_class_value new_cell value, true)

/-- `Board.get_clued_vertices`. -/
def Board.get_clued_vertices (b : Board) : List Vertex :=
  b.vertices.filter (fun v => v.clue ≠ none)

/-- `Board.get_unknown_cells`. -/
def Board.get_unknown_cells (b : Board) : List Cell :=
  b.cells.filter (fun c => c.value = UNKNOWN)

/-- `Board.is_solved`: all cells decided. -/
def Board.is_solved (b : Board) : Bool :=
  b.cells.all (fun c => c.value ≠ UNKNOWN)

/-- `Board.is_valid`: no clued vertex exceeds its clue. -/
def Board.is_valid (b : Board) : Bool :=
  b.vertices.all (fun v =>
    match v.clue with
    | some clue => (b.count_touches v).1 ≤ clue
    | none => true)

/-- `Board.is_valid_solution`: all cells decided and every clued vertex
touched exactly its clue many times. -/
def Board.is_valid_solution (b : Board) : Bool :=
  b.is_solved &&
    b.vertices.all (fun v =>
      match v.clue with
      | some clue => (b.count_touches v).1 = clue
      | none => true)

/-- `Board.to_solution_string`: row-major `/`, `\`, `.` rendering. -/
def Board.to_solution_string (b : Board) : List Char :=
  b.cells.map (fun c =>
    if c.value = SLASH then '/'
    else if c.value = BACKSLASH then '\\'
    else '.')

/-- A snapshot of the mutable board state (`Board.save_state`'s tuple). -/
structure Snapshot where
  cell_values : List Nat
  parent : List Nat
  rank : List Nat
  equiv_parent : List Nat
  equiv_rank : List Nat
  slashval : List Nat
  vbitmap : List Nat
  exits : List Int
  border : List Bool
deriving DecidableEq, Repr, Inhabited

/-- `Board.save_state`: snapshot every piece of mutable state. -/
def Board.save_state (b : Board) : Snapshot :=
  { cell_values := b.cells.map (fun c => c.value)
    parent := b.parent
    rank := b.rank
    equiv_parent := b.equiv_parent
    equiv_rank := b.equiv_rank
    slashval := b.slashval
    vbitmap := b.vbitmap
    exits := b.exits
    border := b.border }

/-- `Board.restore_state`: restore a snapshot (cell values are written back
pairwise as by Python's `zip`, arrays are overwritten wholesale). -/
def Board.restore_state (b : Board) (s : Snapshot) : Board :=
  { b with
    cells := (List.range b.cells.length).map (fun i =>
      match s.cell_values.get? i with
      | some v => { b.cells.getD i default with value := v }
      | none => b.cells.getD i default)
    parent := s.parent
    rank := s.rank
    equiv_parent := s.equiv_parent
    equiv_rank := s.equiv_rank
    slashval := s.slashval
    vbitmap := s.vbitmap
    exits := s.exits
    border := s.border }

/-- `Board.disable_debug_checking`. -/
def Board.disable_debug_checking (b : Board) : Board :=
  { b with
    cells := b.cells.map (fun c => { c with known_debug_value := none })
    known_solution := none }

/-- The recurring placement idiom of the rules: place and report progress
(the sources ignore `place_value`'s return value and set `made_progress`
unconditionally). -/
def do_place (st : Board × Bool) (cell : Cell) (value : Nat) :
    Except PyErr (Board × Bool) := do
  let r ← st.1.place_value cell value
  pure (r.1, true)

/-- The recurring guarded placement idiom of the rules: place and report
progress unless the placement would close a loop. -/
def try_place (st : Board × Bool) (cell : Cell) (value : Nat) :
    Except PyErr (Board × Bool) :=
  if ¬ st.1.would_form_loop cell value then do_place st cell value
  else pure st

/-- `rule_clue_finish_a`: when every remaining unknown neighbour of a clued
vertex must touch it to reach the clue, place all the touching orientations
(each placement guarded by a loop check). -/
def rule_clue_finish_a (board : Board) : Except PyErr (Board × Bool) :=
  board.get_clued_vertices.foldlM
    (fun st vertex => do
      let b := st.1
      let adjacent := b.get_adjacent_cells_for_vertex vertex
      let clue := vertex.clue.getD 0
      let counts := adjacent.foldl
        (fun (acc : Nat × Nat × List (Cell × Bool × Bool)) t =>
          let (cell, slash_touches, backslash_touches) := t
          if cell.value = UNKNOWN then (acc.1, acc.2.1, acc.2.2 ++ [t])
          else if cell.value = SLASH then
            if slash_touches then (acc.1 + 1, acc.2.1, acc.2.2)
            else (acc.1, acc.2.1 + 1, acc.2.2)
          else
            if backslash_touches then (acc.1 + 1, acc.2.1, acc.2.2)
            else (acc.1, acc.2.1 + 1, acc.2.2))
        (0, 0, [])
      let current_touches := counts.1
      let unknown_cells := counts.2.2
      let needed_touches : Int := (clue : Int) - current_touches
      if needed_touches > 0 ∧ needed_touches = unknown_cells.length then
        unknown_cells.foldlM
          (fun st2 t => do
            let (cell, slash_touches, _) := t
            if slash_touches then
              try_place st2 cell SLASH
            else
              try_place st2 cell BACKSLASH)
          st
      else pure st)
    (board, false)

/-- `rule_clue_finish_b`: when a clued vertex already has its full count of
touches, place the avoiding orientation in every remaining unknown
neighbour. -/
def rule_clue_finish_b (board : Board) : Except PyErr (Board × Bool) :=
  board.get_clued_vertices.foldlM
    (fun st vertex => do
      let b := st.1
      let adjacent := b.get_adjacent_cells_for_vertex vertex
      let clue := vertex.clue.getD 0
      let counts := adjacent.foldl
        (fun (acc : Nat × List (Cell × Bool × Bool)) t =>
          let (cell, slash_touches, backslash_touches) := t
          if cell.value = UNKNOWN then (acc.1, acc.2 ++ [t])
          else if cell.value = SLASH ∧ slash_touches then (acc.1 + 1, acc.2)
          else if cell.value = BACKSLASH ∧ backslash_touches then (acc.1 + 1, acc.2)
          else acc)
        (0, [])
      let current_touches := counts.1
      let unknown_cells := counts.2
      if current_touches = clue ∧ unknown_cells ≠ [] then
        unknown_cells.foldlM
          (fun st2 t => do
            let (cell, slash_touches, _) := t
            if slash_touches then
              try_place st2 cell BACKSLASH
            else
              try_place st2 cell SLASH)
          st
      else pure st)
    (board, false)

/-- `rule_no_loops`: when exactly one orientation of an unknown cell would
close a loop, place the other orientation. -/
def rule_no_loops (board : Board) : Except PyErr (Board × Bool) :=
  board.get_unknown_cells.foldlM
    (fun st cell => do
      let b := st.1
      let slash_loops := b.would_form_loop cell SLASH
      let backslash_loops := b.would_form_loop cell BACKSLASH
      if slash_loops ∧ ¬ backslash_loops then do_place st cell BACKSLASH
      else if backslash_loops ∧ ¬ slash_loops then do_place st cell SLASH
      else pure st)
    (board, false)

/-- `rule_corner_zero`: a vertex with clue 0 forces every unknown neighbour to
carry the avoiding orientation. -/
def rule_corner_zero (board : Board) : Except PyErr (Board × Bool) :=
  board.get_clued_vertices.foldlM
    (fun st vertex => do
      if vertex.clue ≠ some 0 then pure st
      else
        (st.1.get_adjacent_cells_for_vertex vertex).foldlM
          (fun st2 t => do
            let (cell, slash_touches, _) := t
            if cell.value ≠ UNKNOWN then pure st2
            else if slash_touches then
              try_place st2 cell BACKSLASH
            else
              try_place st2 cell SLASH)
          st)
    (board, false)

/-- `rule_corner_four`: a vertex with clue 4 forces every unknown neighbour to
carry the touching orientation. -/
def rule_corner_four (board : Board) : Except PyErr (Board × Bool) :=
  board.get_clued_vertices.foldlM
    (fun st vertex => do
      if vertex.clue ≠ some 4 then pure st
      else
        (st.1.get_adjacent_cells_for_vertex vertex).foldlM
          (fun st2 t => do
            let (cell, slash_touches, _) := t
            if cell.value ≠ UNKNOWN then pure st2
            else if slash_touches then
              try_place st2 cell SLASH
            else
              try_place st2 cell BACKSLASH)
          st)
    (board, false)

/-- `rule_edge_clue_constraints`: a vertex whose clue equals its number of
adjacent cells forces all of them to touch. -/
def rule_edge_clue_constraints (board : Board) : Except PyErr (Board × Bool) :=
  board.get_clued_vertices.foldlM
    (fun st vertex => do
      let b := st.1
      let adjacent := b.get_adjacent_cells_for_vertex vertex
      let max_possible := adjacent.length
      let clue := vertex.clue.getD 0
      if clue > max_possible then pure st
      else if clue = max_possible then
        adjacent.foldlM
          (fun st2 t => do
            let (cell, slash_touches, _) := t
            if cell.value ≠ UNKNOWN then pure st2
            else if slash_touches then
              try_place st2 cell SLASH
            else
              try_place st2 cell BACKSLASH)
          st
      else pure st)
    (board, false)

/-- `rule_border_two_v_shape`: a clue 2 with exactly two adjacent cells forces
both to touch. -/
def rule_border_two_v_shape (board : Board) : Except PyErr (Board × Bool) :=
  board.get_clued_vertices.foldlM
    (fun st vertex => do
      if vertex.clue ≠ some 2 then pure st
      else
        let b := st.1
        let adjacent := b.get_adjacent_cells_for_vertex vertex
        if adjacent.length ≠ 2 then pure st
        else
          let counts := b.count_touches vertex
          if counts.1 + counts.2 = 2 ∧ counts.2 > 0 then
            adjacent.foldlM
              (fun st2 t => do
                let (cell, slash_touches, _) := t
                if cell.value ≠ UNKNOWN then pure st2
                else if slash_touches then
                  try_place st2 cell SLASH
                else
                  try_place st2 cell BACKSLASH)
              st
          else pure st)
    (board, false)

/-- The speculative save/place/restore block of `rule_loop_avoidance_2`:
snapshot, try the first forced value, check the second, and restore on every
path. -/
def loop_avoid_check (st : Board × Bool) (cell1 : Cell) (val1 : Nat) (cell2 : Cell)
    (val2 : Nat) : Except PyErr (Board × Bool) := do
  let b := st.1
  let state := b.save_state
  if b.would_form_loop cell1 val1 then
    pure (b.restore_state state, st.2)
  else do
    let r ← b.place_value cell1 val1
    let b1 := r.1
    if b1.would_form_loop cell2 val2 then
      pure (b1.restore_state state, st.2)
    else
      pure (b1.restore_state state, st.2)

/-- `rule_loop_avoidance_2`: speculative check around a clue-2 vertex with two
unknown neighbours; restores the snapshot on every path and never reports
progress (as in the source). -/
def rule_loop_avoidance_2 (board : Board) : Except PyErr (Board × Bool) :=
  board.get_clued_vertices.foldlM
    (fun st vertex => do
      if vertex.clue ≠ some 2 then pure st
      else
        let b := st.1
        let adjacent := b.get_adjacent_cells_for_vertex vertex
        let counts := adjacent.foldl
          (fun (acc : Nat × List (Cell × Bool × Bool)) t =>
            let (cell, slash_touches, backslash_touches) := t
            if cell.value = UNKNOWN then (acc.1, acc.2 ++ [t])
            else if cell.value = SLASH ∧ slash_touches then (acc.1 + 1, acc.2)
            else if cell.value = BACKSLASH ∧ backslash_touches then (acc.1 + 1, acc.2)
            else acc)
          (0, [])
        let current_touches := counts.1
        let unknown_cells := counts.2
        if ¬ (current_touches = 0 ∧ unknown_cells.length = 2) then pure st
        else
          let (cell1, slash1, _) := unknown_cells.getD 0 default
          let (cell2, slash2, _) := unknown_cells.getD 1 default
          let val1 := if slash1 then SLASH else BACKSLASH
          let val2 := if slash2 then SLASH else BACKSLASH
          loop_avoid_check st cell1 val1 cell2 val2)
    (board, false)

/-- `rule_forced_solution_avoidance`: when a clued vertex needs exactly one
more touch, any candidate whose touching orientation would immediately break
some other adjacent clue must avoid. -/
def rule_forced_solution_avoidance (board : Board) : Except PyErr (Board × Bool) :=
  board.get_clued_vertices.foldlM
    (fun st vertex => do
      let b := st.1
      let adjacent := b.get_adjacent_cells_for_vertex vertex
      let clue := vertex.clue.getD 0
      let counts := adjacent.foldl
        (fun (acc : Nat × List (Cell × Bool × Bool)) t =>
          let (cell, slash_touches, backslash_touches) := t
          if cell.value = UNKNOWN then (acc.1, acc.2 ++ [t])
          else if cell.value = SLASH ∧ slash_touches then (acc.1 + 1, acc.2)
          else if cell.value = BACKSLASH ∧ backslash_touches then (acc.1 + 1, acc.2)
          else acc)
        (0, [])
      let current_touches := counts.1
      let unknown_cells := counts.2
      let needed : Int := (clue : Int) - current_touches
      if ¬ (needed = 1 ∧ unknown_cells.length > 1) then pure st
      else
        unknown_cells.foldlM
          (fun st2 t => do
            let (cell, slash_touches, _) := t
            let touch_value := if slash_touches then SLASH else BACKSLASH
            let avoid_value := if slash_touches then BACKSLASH else SLASH
            let b2 := st2.1
            let corners := b2.get_cell_corners cell
            let tl := corners.1
            let tr := corners.2.1
            let bl := corners.2.2.1
            let br := corners.2.2.2
            let would_break := [tl, tr, bl, br].any (fun oc =>
              match oc with
              | none => false
              | some corner =>
                if corner = vertex then false
                else
                  match corner.clue with
                  | none => false
                  | some cclue =>
                    let touches_corner :=
                      if touch_value = SLASH then some corner = tr ∨ some corner = bl
                      else some corner = tl ∨ some corner = br
                    let cc := b2.count_touches corner
                    if touches_corner then decide ((cc.1 : Int) + 1 > cclue)
                    else decide ((cc.1 : Int) + ((cc.2 : Int) - 1) < cclue))
            if would_break then try_place st2 cell avoid_value
            else pure st2)
          st)
    (board, false)

/-- `rule_adjacent_ones`: a satisfied clue-1 vertex forces the cells it shares
with an adjacent clue-1 vertex to avoid it. -/
def rule_adjacent_ones (board : Board) : Except PyErr (Board × Bool) :=
  board.get_clued_vertices.foldlM
    (fun st vertex => do
      if vertex.clue ≠ some 1 then pure st
      else
        let vx : Int := vertex.vx
        let vy : Int := vertex.vy
        let counts := st.1.count_touches vertex
        if counts.1 ≠ 1 then pure st
        else
          ([((1 : Int), (0 : Int)), (-1, 0), (0, 1), (0, -1)]).foldlM
            (fun stD d => do
              let b := stD.1
              match b.get_vertex (vx + d.1) (vy + d.2) with
              | none => pure stD
              | some neighbor =>
                if neighbor.clue ≠ some 1 then pure stD
                else
                  (b.get_adjacent_cells_for_vertex vertex).foldlM
                    (fun st2 t => do
                      let (cell, slash_t, _) := t
                      if cell.value ≠ UNKNOWN then pure st2
                      else
                        let neighbor_adj := st2.1.get_adjacent_cells_for_vertex neighbor
                        if neighbor_adj.any (fun u => u.1 = cell) then
                          if slash_t then
                            try_place st2 cell BACKSLASH
                          else
                            try_place st2 cell SLASH
                        else pure st2)
                    stD)
            st)
    (board, false)

/-- `rule_adjacent_threes`: two adjacent clue-3 vertices — when the unshared
unknown cells of one are all needed for its three touches, they must all
touch. -/
def rule_adjacent_threes (board : Board) : Except PyErr (Board × Bool) :=
  board.get_clued_vertices.foldlM
    (fun st vertex => do
      if vertex.clue ≠ some 3 then pure st
      else
        let vx : Int := vertex.vx
        let vy : Int := vertex.vy
        let counts := st.1.count_touches vertex
        let current := counts.1
        ([((1 : Int), (0 : Int)), (-1, 0), (0, 1), (0, -1)]).foldlM
          (fun stD d => do
            let b := stD.1
            match b.get_vertex (vx + d.1) (vy + d.2) with
            | none => pure stD
            | some neighbor =>
              if neighbor.clue ≠ some 3 then pure stD
              else
                let my_adj := b.get_adjacent_cells_for_vertex vertex
                let neighbor_adj := b.get_adjacent_cells_for_vertex neighbor
                let shared_cells := my_adj.filter (fun t =>
                  neighbor_adj.any (fun u => u.1 = t.1))
                let unshared_cells := my_adj.filter (fun t =>
                  ¬ neighbor_adj.any (fun u => u.1 = t.1))
                let unshared_unknown := unshared_cells.filter (fun t => t.1.value = UNKNOWN)
                if current + unshared_unknown.length + shared_cells.length = 3 ∧
                    unshared_unknown ≠ [] then
                  unshared_unknown.foldlM
                    (fun st2 t => do
                      let (cell, slash_t, _) := t
                      if slash_t then
                        try_place st2 cell SLASH
                      else
                        try_place st2 cell BACKSLASH)
                    stD
                else pure stD)
          st)
    (board, false)

/-- The forcing phase of `rule_v_pattern_with_three` for a clue-3 vertex above
the point of a realized V: with two touches and unknowns left, force the
touching orientation in every unknown neighbour strictly above row `y`. -/
def v_pattern_check_above (st : Board × Bool) (vertex_above : Vertex) (y : Nat) :
    Except PyErr (Board × Bool) :=
  if vertex_above.clue = some 3 then
    let counts := st.1.count_touches vertex_above
    if counts.1 = 2 ∧ counts.2 > 0 then
      (st.1.get_adjacent_cells_for_vertex vertex_above).foldlM
        (fun st2 t => do
          let (cell, slash_t, _) := t
          if cell.value ≠ UNKNOWN then pure st2
          else if cell.y < y then
            if slash_t then try_place st2 cell SLASH
            else try_place st2 cell BACKSLASH
          else pure st2)
        st
    else pure st
  else pure st

/-- The mirror phase of `rule_v_pattern_with_three` for a clue-3 vertex below
the point: force the touching orientation in the unknown neighbours strictly
below row `y`. -/
def v_pattern_check_below (st : Board × Bool) (vertex_below : Vertex) (y : Nat) :
    Except PyErr (Board × Bool) :=
  if vertex_below.clue = some 3 then
    let counts := st.1.count_touches vertex_below
    if counts.1 = 2 ∧ counts.2 > 0 then
      (st.1.get_adjacent_cells_for_vertex vertex_below).foldlM
        (fun st2 t => do
          let (cell, slash_t, _) := t
          if cell.value ≠ UNKNOWN then pure st2
          else if cell.y > y then
            if slash_t then try_place st2 cell SLASH
            else try_place st2 cell BACKSLASH
          else pure st2)
        st
    else pure st
  else pure st

/-- `rule_v_pattern_with_three`: a realized V shape whose point sits under a
clue-3 vertex with two touches forces the remaining touch from the opposite
side. -/
def rule_v_pattern_with_three (board : Board) : Except PyErr (Board × Bool) :=
  (List.range board.height).foldlM
    (fun stY (y : Nat) =>
      (List.range (board.width - 1)).foldlM
        (fun st (x : Nat) => do
          let b := st.1
          match b.get_cell (x : Int) (y : Int), b.get_cell ((x : Int) + 1) (y : Int) with
          | some cell_left, some cell_right => do
            let st ←
              if cell_left.value = BACKSLASH ∧ cell_right.value = SLASH then
                match b.get_vertex ((x : Int) + 1) (y : Int) with
                | some vertex_above => v_pattern_check_above st vertex_above y
                | none => pure st
              else pure st
            let b := st.1
            if cell_left.value = SLASH ∧ cell_right.value = BACKSLASH then
              match b.get_vertex ((x : Int) + 1) ((y : Int) + 1) with
              | some vertex_below => v_pattern_check_below st vertex_below y
              | none => pure st
            else pure st
          | _, _ => pure st)
        stY)
    (board, false)

/-- `rule_single_path_extension`: a chain endpoint (one touch, one unknown
neighbour) at a clued vertex forces the unknown neighbour to touch (clue needs
one more) or avoid (clue satisfied). -/
def rule_single_path_extension (board : Board) : Except PyErr (Board × Bool) :=
  (List.range (board.height + 1)).foldlM
    (fun stY vy =>
      (List.range (board.width + 1)).foldlM
        (fun st vx => do
          let b := st.1
          match b.get_vertex (vx : Int) (vy : Int) with
          | none => pure st
          | some vertex =>
            let counts := b.count_touches vertex
            let current := counts.1
            if current = 1 ∧ counts.2 = 1 then
              (b.get_adjacent_cells_for_vertex vertex).foldlM
                (fun st2 t => do
                  let (cell, slash_t, _) := t
                  if cell.value ≠ UNKNOWN then pure st2
                  else
                    match vertex.clue with
                    | none => pure st2
                    | some clue =>
                      let needed : Int := (clue : Int) - current
                      if needed = 1 then
                        if slash_t then
                          try_place st2 cell SLASH
                        else
                          try_place st2 cell BACKSLASH
                      else if needed = 0 then
                        if slash_t then
                          try_place st2 cell BACKSLASH
                        else
                          try_place st2 cell SLASH
                      else pure st2)
                st
            else pure st)
        stY)
    (board, false)

/-- Per-corner check for a corner the placement would touch: the clue must not
be exceeded (`current + 1 > clue` is a violation). -/
def touch_corner_ok (b : Board) (oc : Option Vertex) : Bool :=
  match oc with
  | none => true
  | some corner =>
    match corner.clue with
    | none => true
    | some cclue => (b.count_touches corner).1 + 1 ≤ cclue

/-- Per-corner check for a corner the placement would avoid: the corner must
still be able to reach its clue (`current + (unknown - 1) < clue` is a
violation). -/
def avoid_corner_ok (b : Board) (oc : Option Vertex) : Bool :=
  match oc with
  | none => true
  | some corner =>
    match corner.clue with
    | none => true
    | some cclue =>
      let cc := b.count_touches corner
      (cc.1 : Int) + ((cc.2 : Int) - 1) ≥ cclue

/-- Clue-safety check shared by the two lookahead rules: whether placing
`value` in `cell` is consistent with the clues on the cell's corners —
touched corners must not exceed their clue, avoided corners must still be able
to reach theirs.  (This inlines the corner scan that
`rule_trial_clue_violation` and `rule_one_step_lookahead` both perform.) -/
def clue_check_ok (b : Board) (cell : Cell) (value : Nat) : Bool :=
  match b.get_cell_corners cell with
  | (tl, tr, bl, br) =>
    let touched := if value = SLASH then [bl, tr] else [tl, br]
    let avoided := if value = SLASH then [tl, br] else [bl, tr]
    touched.all (fun oc => touch_corner_ok b oc) && avoided.all (fun oc => avoid_corner_ok b oc)

/-- `rule_trial_clue_violation`: for each unknown cell, an orientation is
invalid when it loops or immediately violates a corner clue; when exactly one
orientation is valid, place it. -/
def rule_trial_clue_violation (board : Board) : Except PyErr (Board × Bool) :=
  board.get_unknown_cells.foldlM
    (fun st cell => do
      let b := st.1
      let slash_valid :=
        if ¬ b.would_form_loop cell SLASH then clue_check_ok b cell SLASH else false
      let backslash_valid :=
        if ¬ b.would_form_loop cell BACKSLASH then clue_check_ok b cell BACKSLASH else false
      if slash_valid ∧ ¬ backslash_valid then do_place st cell SLASH
      else if backslash_valid ∧ ¬ slash_valid then do_place st cell BACKSLASH
      else pure st)
    (board, false)

/-- The adjacent-cell scan of `rule_one_step_lookahead`: after a speculative
placement, does some other unknown cell have no valid orientation left
(loop-free and clue-consistent)? -/
def lookahead_contradiction (b : Board) (cell : Cell) : Bool :=
  b.get_unknown_cells.any (fun adj_cell =>
    if adj_cell = cell then false
    else
      let slash_ok :=
        if ¬ b.would_form_loop adj_cell SLASH then clue_check_ok b adj_cell SLASH else false
      let back_ok :=
        if ¬ b.would_form_loop adj_cell BACKSLASH then clue_check_ok b adj_cell BACKSLASH
        else false
      ¬ slash_ok ∧ ¬ back_ok)

/-- The speculative phase of `rule_one_step_lookahead` for one orientation:
snapshot, place, scan for a contradicted neighbour, restore (a raising
placement counts as a contradiction). -/
def lookahead_try (b : Board) (cell : Cell) (value : Nat) : Board × Bool :=
  if ¬ b.would_form_loop cell value then
    let state := b.save_state
    match b.place_value cell value with
    | .error _ => (b.restore_state state, true)
    | .ok (b1, _) => (b1.restore_state state, lookahead_contradiction b1 cell)
  else (b, true)

/-- `rule_one_step_lookahead`: speculatively place each orientation against a
snapshot; an orientation that loops, raises, or leaves another unknown cell
with no valid orientation is a contradiction; when exactly one orientation is
contradiction-free, place it. -/
def rule_one_step_lookahead (board : Board) : Except PyErr (Board × Bool) :=
  board.get_unknown_cells.foldlM
    (fun st cell => do
      let b := st.1
      let (b, slash_causes_contradiction) := lookahead_try b cell SLASH
      let (b, back_causes_contradiction) := lookahead_try b cell BACKSLASH
      if slash_causes_contradiction ∧ ¬ back_causes_contradiction then
        do_place (b, st.2) cell BACKSLASH
      else if back_causes_contradiction ∧ ¬ slash_causes_contradiction then
        do_place (b, st.2) cell SLASH
      else pure (b, st.2))
    (board, false)

/-- The deduction rules appearing in the two solver registries, as names (the
Python registries store the rule functions themselves). -/
inductive RuleName where
  | clue_finish_a : RuleName
  | clue_finish_b : RuleName
  | no_loops : RuleName
  | corner_zero : RuleName
  | corner_four : RuleName
  | edge_clue_constraints : RuleName
  | border_two_v_shape : RuleName
  | loop_avoidance_2 : RuleName
  | forced_solution_avoidance : RuleName
  | v_pattern_with_three : RuleName
  | adjacent_ones : RuleName
  | adjacent_threes : RuleName
  | single_path_extension : RuleName
  | trial_clue_violation : RuleName
  | one_step_lookahead : RuleName
deriving DecidableEq, Repr

/-- Interpretation of a rule name as its rule function. -/
def apply_rule : RuleName → Board → Except PyErr (Board × Bool)
  | .clue_finish_a => rule_clue_finish_a
  | .clue_finish_b => rule_clue_finish_b
  | .no_loops => rule_no_loops
  | .corner_zero => rule_corner_zero
  | .corner_four => rule_corner_four
  | .edge_clue_constraints => rule_edge_clue_constraints
  | .border_two_v_shape => rule_border_two_v_shape
  | .loop_avoidance_2 => rule_loop_avoidance_2
  | .forced_solution_avoidance => rule_forced_solution_avoidance
  | .v_pattern_with_three => rule_v_pattern_with_three
  | .adjacent_ones => rule_adjacent_ones
  | .adjacent_threes => rule_adjacent_threes
  | .single_path_extension => rule_single_path_extension
  | .trial_clue_violation => rule_trial_clue_violation
  | .one_step_lookahead => rule_one_step_lookahead

/-- `RULES` of solver_PR.py: `(name, work_score, tier, rule)` in try order. -/
def RULES_PR : List (String × Nat × Nat × RuleName) :=
  [("clue_finish_b", 1, 1, .clue_finish_b),
   ("clue_finish_a", 2, 1, .clue_finish_a),
   ("no_loops", 2, 1, .no_loops),
   ("edge_clue_constraints", 2, 2, .edge_clue_constraints),
   ("border_two_v_shape", 3, 2, .border_two_v_shape),
   ("loop_avoidance_2", 5, 2, .loop_avoidance_2),
   ("v_pattern_with_three", 6, 2, .v_pattern_with_three),
   ("adjacent_ones", 8, 2, .adjacent_ones),
   ("adjacent_threes", 8, 2, .adjacent_threes),
   ("trial_clue_violation", 10, 3, .trial_clue_violation),
   ("one_step_lookahead", 15, 3, .one_step_lookahead)]

/-- One pass of solver_PR's inner rule loop: try the rules in order, stopping
at the first one that reports progress.  Returns the board, `some (score,
tier)` of the successful rule (or `none`), and whether a rule raised (the
solver turns both `SolverDebugError` and `ValueError` into a debug error). -/
def try_rules_PR : List (String × Nat × Nat × RuleName) → Board →
    Board × Option (Nat × Nat) × Bool
  | [], b => (b, none, false)
  | (_, score, tier, rn) :: rest, b =>
    match apply_rule rn b with
    | .error _ => (b, none, true)
    | .ok (b1, true) => (b1, some (score, tier), false)
    | .ok (b1, false) => try_rules_PR rest b1

/-- The main solving loop of `solver_PR.solve` (`while iteration <
max_iterations`), with the remaining iteration budget as fuel.  Returns
`(status, board, work_score, max_tier_used)`. -/
def solve_PR_loop (rules : List (String × Nat × Nat × RuleName)) :
    Nat → Board → Nat → Nat → String × Board × Nat × Nat
  | 0, b, total, maxt => ("unsolved", b, total, maxt)
  | fuel + 1, b, total, maxt =>
    if b.is_solved then
      (if b.is_valid_solution then "solved" else "unsolved", b, total, maxt)
    else
      match try_rules_PR rules b with
      | (b1, some (score, tier), _) => solve_PR_loop rules fuel b1 (total + score) (max maxt tier)
      | (b1, none, _) => ("unsolved", b1, total, maxt)

/-- `solver_PR.solve`: build the board, filter the registry by tier (capped at
2 when `for_generation`), and run the loop with the source's
`max_iterations = 1000`.  Returns `(status, solution_string, work_score,
max_tier_used)`; a `ValueError` from board construction propagates. -/
def solve_PR (givens_string : List Char) (width height : Nat)
    (known_solution : Option (List Char)) (for_generation : Bool) (max_tier : Nat) :
    Except PyErr (String × List Char × Nat × Nat) :=
  match Board.init width height givens_string known_solution with
  | .error e => .error e
  | .ok board =>
    let max_tier := if for_generation then min max_tier 2 else max_tier
    let rules := RULES_PR.filter (fun r => r.2.2.1 ≤ max_tier)
    let r := solve_PR_loop rules 1000 board 0 0
    .ok (r.1, r.2.1.to_solution_string, r.2.2.1, r.2.2.2)

/-- `RULES` of solver_BF.py: `(name, work_score, rule)` in try order. -/
def RULES_BF : List (String × Nat × RuleName) :=
  [("corner_zero", 1, .corner_zero),
   ("corner_four", 1, .corner_four),
   ("clue_finish_b", 1, .clue_finish_b),
   ("clue_finish_a", 2, .clue_finish_a),
   ("no_loops", 2, .no_loops),
   ("edge_clue_constraints", 2, .edge_clue_constraints),
   ("border_two_v_shape", 3, .border_two_v_shape),
   ("single_path_extension", 3, .single_path_extension),
   ("forced_solution_avoidance", 5, .forced_solution_avoidance),
   ("loop_avoidance_2", 5, .loop_avoidance_2),
   ("v_pattern_with_three", 6, .v_pattern_with_three),
   ("adjacent_ones", 8, .adjacent_ones),
   ("adjacent_threes", 8, .adjacent_threes)]

/-- One pass of `apply_rules_until_stuck`'s rule loop: `SolverDebugError`
re-raises, a `ValueError` ends the pass with no progress. -/
def try_rules_BF : List (String × Nat × RuleName) → Board →
    Except PyErr (Board × Option Nat)
  | [], b => .ok (b, none)
  | (_, score, rn) :: rest, b =>
    match apply_rule rn b with
    | .error .solverDebugError => .error .solverDebugError
    | .error .valueError => .ok (b, none)
    | .ok (b1, true) => .ok (b1, some score)
    | .ok (b1, false) => try_rules_BF rest b1

/-- The `while` of `apply_rules_until_stuck` (fuel = remaining iterations of
the source's `max_iterations = 1000`). -/
def apply_rules_until_stuck_loop : Nat → Board → Nat → Except PyErr (Board × Nat)
  | 0, b, total => .ok (b, total)
  | fuel + 1, b, total =>
    if b.is_solved then .ok (b, total)
    else if ¬ b.is_valid then .ok (b, total)
    else
      match try_rules_BF RULES_BF b with
      | .error e => .error e
      | .ok (b1, some score) => apply_rules_until_stuck_loop fuel b1 (total + score)
      | .ok (b1, none) => .ok (b1, total)

/-- `solver_BF.apply_rules_until_stuck`. -/
def apply_rules_until_stuck (b : Board) : Except PyErr (Board × Nat) :=
  apply_rules_until_stuck_loop 1000 b 0

/-- Stable insertion into a descending-sorted list (ties keep the original
order, as Python's stable `sort(reverse=True)` / `sort(key=-x)`). -/
def sort_desc_insert {α : Type} (key : α → Rat) (x : α) : List α → List α
  | [] => [x]
  | y :: ys => if key x ≥ key y then x :: y :: ys else y :: sort_desc_insert key x ys

/-- Stable descending sort by a key (Python's stable sort, descending). -/
def sort_by_key_desc {α : Type} (key : α → Rat) (l : List α) : List α :=
  l.foldr (sort_desc_insert key) []

/-- `solver_BF.pick_best_cell`'s `cell_score`: how constrained a cell is.  The
Python score is a float built from integers and `50 / remaining_slots` with
`remaining_slots ≤ 4`; it is modelled as an exact rational (the claims
evaluate it only where every summand is exact). -/
def cell_score (b : Board) (cell : Cell) : Rat :=
  match b.get_cell_corners cell with
  | (tl, tr, bl, br) =>
    [tl, tr, bl, br].foldl
      (fun score oc =>
        match oc with
        | none => score
        | some corner =>
          match corner.clue with
          | none => score
          | some clue =>
            let cc := b.count_touches corner
            let remaining_needed : Int := (clue : Int) - cc.1
            let remaining_slots := cc.2
            if remaining_needed = remaining_slots then score + 100
            else if remaining_needed = 0 then score + 100
            else if remaining_slots > 0 then score + 50 / (remaining_slots : Rat)
            else score)
      0

/-- `solver_BF.pick_best_cell`: the unknown cell with the highest score (ties
resolved by the stable sort, i.e. row-major order). -/
def pick_best_cell (b : Board) : Option Cell :=
  match sort_by_key_desc (cell_score b) b.get_unknown_cells with
  | [] => none
  | c :: _ => some c

/-- `solver_BF.get_valid_values`: the orientations of a cell that neither loop
nor immediately exceed a corner clue, sorted by priority (10 per clued corner
the orientation would touch). -/
def get_valid_values (b : Board) (cell : Cell) : List Nat :=
  let x : Int := cell.x
  let y : Int := cell.y
  let tl := b.get_vertex x y
  let tr := b.get_vertex (x + 1) y
  let bl := b.get_vertex x (y + 1)
  let br := b.get_vertex (x + 1) (y + 1)
  let valid := [SLASH, BACKSLASH].foldl
    (fun acc value =>
      if b.would_form_loop cell value then acc
      else
        let touches := if value = SLASH then [tr, bl] else [tl, br]
        let chk := touches.foldl
          (fun (p : Bool × Nat) oc =>
            if ¬ p.1 then p
            else
              match oc with
              | none => p
              | some corner =>
                match corner.clue with
                | none => p
                | some cclue =>
                  if (b.count_touches corner).1 ≥ cclue then (false, p.2)
                  else (p.1, p.2 + 10))
          (true, 0)
        if chk.1 then acc ++ [(value, chk.2)] else acc)
    []
  (sort_by_key_desc (fun p => ((p.2 : Int) : Rat)) valid).map (fun p => p.1)

/-- Python truthiness of the optional `known_solution` string. -/
def truthy : Option (List Char) → Bool
  | none => false
  | some l => l ≠ []

/-- Outcome of the backtracking search loop of `solver_BF.solve`: either the
loop ended (stack empty, two solutions, or fuel out) with the accumulated
state, or a `SolverDebugError` aborted the solve. -/
inductive BFOutcome where
  | finished (solutions : List (List Char)) (board : Board) (total push_pop : Nat) : BFOutcome
  | debugAborted (board : Board) : BFOutcome
deriving Repr

/-- The backtracking `while stack and len(solutions) < 2` loop of
`solver_BF.solve`.  Each iteration pops a frame `(snapshot,
eliminated_value)`, restores it, propagates, and either records a solution or
pushes one frame per valid branch value.  `fuel` is the iteration budget of
the unbounded Python loop. -/
def solve_BF_loop (ks : Option (List Char)) :
    Nat → List (Snapshot × Option Nat) → List (List Char) → Board → Nat → Nat → BFOutcome
  | 0, stack, solutions, board, total, push_pop =>
    let _ := stack
    .finished solutions board total push_pop
  | _ + 1, [], solutions, board, total, push_pop => .finished solutions board total push_pop
  | fuel + 1, frame :: stack, solutions, board, total, push_pop =>
    if solutions.length ≥ 2 then .finished solutions board total push_pop
    else
      let (state, eliminated_value) := frame
      let board := board.restore_state state
      let push_pop := push_pop + 1
      match apply_rules_until_stuck board with
      | .error .solverDebugError => .debugAborted board
      | .error .valueError => solve_BF_loop ks fuel stack solutions board total push_pop
      | .ok (board, work_score) =>
        let total := total + work_score
        let board :=
          if eliminated_value = none ∧ truthy ks then board.disable_debug_checking else board
        if ¬ board.is_valid then solve_BF_loop ks fuel stack solutions board total push_pop
        else if board.is_solved then
          if board.is_valid_solution then
            solve_BF_loop ks fuel stack (solutions ++ [board.to_solution_string]) board total
              push_pop
          else solve_BF_loop ks fuel stack solutions board total push_pop
        else
          match pick_best_cell board with
          | none => solve_BF_loop ks fuel stack solutions board total push_pop
          | some cell =>
            match get_valid_values board cell with
            | [] => solve_BF_loop ks fuel stack solutions board total push_pop
            | valid_values =>
              let saved_state := board.save_state
              let pushed := valid_values.reverse.foldl
                (fun (acc : List (Snapshot × Option Nat) × Nat × Board) value =>
                  let b0 := acc.2.2.restore_state saved_state
                  match b0.place_value cell value with
                  | .error _ => (acc.1, acc.2.1, b0)
                  | .ok (b1, _) => ((b1.save_state, some value) :: acc.1, acc.2.1 + 1, b1))
                (stack, push_pop, board)
              let board := pushed.2.2.restore_state saved_state
              solve_BF_loop ks fuel pushed.1 solutions board total pushed.2.1

/-- Status/result assembly at the end of `solver_BF.solve`. -/
def bf_status (solutions : List (List Char)) : String :=
  if solutions.length ≥ 2 then "mult"
  else if solutions.length = 1 then "solved"
  else "unsolved"

/-- `solver_BF.solve`: build the board, run the backtracking loop from a
single initial frame, and assemble `(status, solution_string, work_score)`
(`work_score` adds twice the push/pop count); a `SolverDebugError` during rule
application yields `("unsolved", board, 0)`. -/
def solve_BF (givens_string : List Char) (width height : Nat)
    (known_solution : Option (List Char)) (fuel : Nat) :
    Except PyErr (String × List Char × Nat) :=
  match Board.init width height givens_string known_solution with
  | .error e => .error e
  | .ok board =>
    match solve_BF_loop known_solution fuel [(board.save_state, none)] [] board 0 0 with
    | .debugAborted b => .ok ("unsolved", b.to_solution_string, 0)
    | .finished solutions b total push_pop =>
      let solution_string :=
        if solutions.length = 1 then solutions.getD 0 [] else b.to_solution_string
      .ok (bf_status solutions, solution_string, total + push_pop * 2)

/-- `gen_puzzles.generate_random_solution`'s local `union` (union by rank on
plain parent/rank lists, no exits/border merging). -/
def gen_union (parent rank : List Nat) (x y : Nat) : List Nat × List Nat × Bool :=
  let rx := uf_find parent x
  let ry := uf_find parent y
  if rx = ry then (parent, rank, false)
  else
    let p := if rank.getD rx 0 < rank.getD ry 0 then (ry, rx) else (rx, ry)
    let rx := p.1
    let ry := p.2
    let parent1 := parent.set ry rx
    let rank1 :=
      if rank.getD rx 0 = rank.getD ry 0 then rank.set rx (rank.getD rx 0 + 1) else rank
    (parent1, rank1, true)

/-- `generate_random_solution`'s local `vertex_index`. -/
def gen_vertex_index (width vx vy : Nat) : Nat :=
  vy * (width + 1) + vx

/-- The two endpoint vertices of `cell_idx` under `value`
(`generate_random_solution`'s local `would_form_loop` / `place` geometry). -/
def gen_endpoints (width cell_idx value : Nat) : Nat × Nat :=
  let x := cell_idx % width
  let y := cell_idx / width
  if value = SLASH then (gen_vertex_index width x (y + 1), gen_vertex_index width (x + 1) y)
  else (gen_vertex_index width x y, gen_vertex_index width (x + 1) (y + 1))

/-- `generate_random_solution`'s local `would_form_loop`. -/
def gen_would_form_loop (width : Nat) (parent : List Nat) (cell_idx value : Nat) : Bool :=
  let e := gen_endpoints width cell_idx value
  uf_find parent e.1 = uf_find parent e.2

/-- `generate_random_solution`'s local `place`: union the two endpoints. -/
def gen_place (width : Nat) (parent rank : List Nat) (cell_idx value : Nat) :
    List Nat × List Nat × Bool :=
  let e := gen_endpoints width cell_idx value
  gen_union parent rank e.1 e.2

/-- The backtracking `while stack` loop of `generate_random_solution`.  A
frame is `(cell_idx, saved_parent, saved_rank)`; the RNG is modelled as a
stream of booleans, one consumed per `rng.shuffle` of the two orientations
(`true` puts BACKSLASH first).  `fuel` bounds the unbounded Python loop;
running out yields `none`. -/
def generate_random_solution_loop (width height : Nat) :
    Nat → List (Nat × List Nat × List Nat) → List Nat → List Bool → Option (List Nat)
  | 0, _, _, _ => none
  | _ + 1, [], _, _ => none
  | fuel + 1, frame :: stack, solution, rng =>
    let (cell_idx, saved_parent, saved_rank) := frame
    if cell_idx = width * height then some solution
    else
      let parent := saved_parent
      let rank := saved_rank
      let options := if rng.headD false then [BACKSLASH, SLASH] else [SLASH, BACKSLASH]
      let rng := rng.tail
      match options.find? (fun v => ¬ gen_would_form_loop width parent cell_idx v) with
      | some value =>
        let solution := solution.set cell_idx value
        let pr := gen_place width parent rank cell_idx value
        generate_random_solution_loop width height fuel
          ((cell_idx + 1, pr.1, pr.2.1) :: stack) solution rng
      | none =>
        let solution := solution.set cell_idx UNKNOWN
        generate_random_solution_loop width height fuel stack solution rng

/-- `gen_puzzles.generate_random_solution`: random acyclic full assignment by
row-major backtracking over the cells. -/
def generate_random_solution (width height : Nat) (rng : List Bool) (fuel : Nat) :
    Option (List Nat) :=
  let num_vertices := (width + 1) * (height + 1)
  generate_random_solution_loop width height fuel
    [(0, List.range num_vertices, List.replicate num_vertices 0)]
    (List.replicate (width * height) UNKNOWN) rng

/-- `gen_puzzles.compute_vertex_clues`: the number of touching diagonals of
every vertex of a full assignment, row-major. -/
def compute_vertex_clues (width height : Nat) (solution : List Nat) : List Nat :=
  ((List.range (height + 1)).map (fun vy =>
    (List.range (width + 1)).map (fun vx =>
      (if vx > 0 ∧ vy > 0 ∧ solution.getD ((vy - 1) * width + (vx - 1)) 0 = BACKSLASH
        then 1 else 0) +
      (if vx < width ∧ vy > 0 ∧ solution.getD ((vy - 1) * width + vx) 0 = SLASH then 1 else 0) +
      (if vx > 0 ∧ vy < height ∧ solution.getD (vy * width + (vx - 1)) 0 = SLASH then 1 else 0) +
      (if vx < width ∧ vy < height ∧ solution.getD (vy * width + vx) 0 = BACKSLASH
        then 1 else 0)))).flatten

/-- Characters back to cell values (`/` ↦ SLASH, `\` ↦ BACKSLASH, anything
else ↦ UNKNOWN), the reading direction of `to_solution_string` /
`solution_to_string`. -/
def string_to_values (s : List Char) : List Nat :=
  s.map (fun c => if c = '/' then SLASH else if c = '\\' then BACKSLASH else UNKNOWN)

/-- A board operation for the snapshot round-trip property: the board
mutators (`place_value`, `mark_cells_equivalent`, `vbitmap_clear`) and the
registry rules, addressed by cell index. -/
inductive Op where
  | place (i : Nat) (value : Nat) : Op
  | mark_equivalent (i j : Nat) : Op
  | vclear (i : Nat) (bits : Nat) : Op
  | rule (rn : RuleName) : Op
deriving Repr

/-- Apply one operation; an operation that raises is modelled as leaving the
board at its entry state (the caller restores a snapshot over it either
way). -/
def apply_op (b : Board) : Op → Board
  | .place i value =>
    match b.place_value (b.cells.getD i default) value with
    | .ok r => r.1
    | .error _ => b
  | .mark_equivalent i j =>
    match b.mark_cells_equivalent (b.cells.getD i default) (b.cells.getD j default) with
    | .ok r => r.1
    | .error _ => b
  | .vclear i bits => (b.vbitmap_clear (b.cells.getD i default) bits).1
  | .rule rn =>
    match apply_rule rn b with
    | .ok r => r.1
    | .error _ => b

/-- Apply a sequence of operations. -/
def apply_ops (b : Board) (ops : List Op) : Board :=
  ops.foldl apply_op b

/-- The immutable ("static") part of the board state is shared: dimensions,
vertices, known solution, and the cells' positions and debug values (only the
cell values are mutable). -/
def SameStatic (b b' : Board) : Prop :=
  b'.width = b.width ∧ b'.height = b.height ∧ b'.vertices = b.vertices ∧
  b'.known_solution = b.known_solution ∧
  b'.cells.length = b.cells.length ∧
  ∀ i, (b'.cells.getD i default).x = (b.cells.getD i default).x ∧
    (b'.cells.getD i default).y = (b.cells.getD i default).y ∧
    (b'.cells.getD i default).known_debug_value = (b.cells.getD i default).known_debug_value

/-- Every cell value is `UNKNOWN`, `SLASH` or `BACKSLASH` (the only values the
source ever stores). -/
def Ok3 (b : Board) : Prop :=
  ∀ c ∈ b.cells, c.value = UNKNOWN ∨ c.value = SLASH ∨ c.value = BACKSLASH

/-- Well-formed union-find parent array: entries in range, and the non-root
parent pointers admit a strictly decreasing rank certificate (so the parent
relation has no cycles and `uf_find`'s fuel suffices). -/
def UFWf (parent : List Nat) : Prop :=
  (∀ i, i < parent.length → parent.getD i i < parent.length) ∧
  ∃ d : Nat → Nat, ∀ i, i < parent.length → parent.getD i i ≠ i → d (parent.getD i i) < d i

/-- The simple graph on vertex indices spanned by a list of (unordered)
edges. -/
def egraph (es : List (Nat × Nat)) : SimpleGraph Nat :=
  SimpleGraph.fromRel (fun a b => (a, b) ∈ es)

/-- The diagonal edges currently placed on a board: one edge per decided
cell, between the two endpoint vertices of its diagonal (the same geometry as
`place_value`). -/
def board_edges (b : Board) : List (Nat × Nat) :=
  (List.range b.cells.length).filterMap (fun i =>
    let c := b.cells.getD i default
    if c.value = UNKNOWN then none
    else
      some (if c.value = SLASH then b.vertex_index c.x (c.y + 1) else b.vertex_index c.x c.y,
        if c.value = SLASH then b.vertex_index (c.x + 1) c.y
        else b.vertex_index (c.x + 1) (c.y + 1)))

/-- The diagonal edges of a generator assignment (same geometry, on plain
lists). -/
def gen_solution_edges (width : Nat) (solution : List Nat) : List (Nat × Nat) :=
  (List.range solution.length).filterMap (fun i =>
    if solution.getD i 0 = UNKNOWN then none
    else some (gen_endpoints width i (solution.getD i 0)))

/-- One mutation step on a board: a `place_value`, `mark_cells_equivalent` or
`vbitmap_clear` call that completed (the rules are compositions of these,
together with snapshot restores to earlier, already visited states).  As in
the source, `place_value` is called on a cell owned by the board (the Python
argument is an alias into `self.cells`; here it is addressed by index) and
with one of the two orientations. -/
inductive BoardStep : Board → Board → Prop where
  | place {b : Board} {i : Nat} {value : Nat} {r : Board × Bool}
      (hi : i < b.cells.length) (hv : value = SLASH ∨ value = BACKSLASH)
      (h : b.place_value (b.cells.getD i default) value = .ok r) : BoardStep b r.1
  | mark_equivalent {b : Board} {c1 c2 : Cell} {r : Board × Bool}
      (h : b.mark_cells_equivalent c1 c2 = .ok r) : BoardStep b r.1
  | vbitmap_clear (b : Board) (cell : Cell) (bits : Nat) :
      BoardStep b (b.vbitmap_clear cell bits).1

/-- Reachability of board states through completed mutation steps. -/
def BoardReachable (b0 b : Board) : Prop :=
  Relation.ReflTransGen BoardStep b0 b

/-- Cell coordinates are in range and match the row-major cell index (true of
every constructed board and preserved by all operations, which never write
the coordinate fields). -/
def CellsCoherent (b : Board) : Prop :=
  b.cells.length = b.width * b.height ∧
  ∀ i, i < b.cells.length →
    (b.cells.getD i default).x = i % b.width ∧ (b.cells.getD i default).y = i / b.width ∧
    (b.cells.getD i default).x < b.width ∧ (b.cells.getD i default).y < b.height

/-- Demo board for witnesses: the 2×2 grid with the single centre clue 4
(scenario S3 of the specification). -/
def demo_board_s3 : Board :=
  ((Board.init 2 2 ("d4d".toList) none).toOption).getD default

/-- Demo 1×1 unclued board. -/
def demo_board_1 : Board :=
  ((Board.init 1 1 ("d".toList) none).toOption).getD default

/-- The 1×1 board with its only cell placed as a slash. -/
def demo_board_1p : Board :=
  (((demo_board_1.place_value (demo_board_1.cells.getD 0 default) SLASH).toOption).getD
    default).1

/-- 3×1 board with clue 1 at vertex (2,0) and clue 0 at vertex (3,0): the rule
`clue_finish_b` makes progress on two consecutive applications here. -/
def c7_board : Board :=
  ((Board.init 3 1 ("b10d".toList) none).toOption).getD default

/-- The board after one application of `clue_finish_b` to `c7_board`. -/
def c7_board1 : Board :=
  (((rule_clue_finish_b c7_board).toOption).getD default).1

/-- The board after a second application of `clue_finish_b`. -/
def c7_board2 : Board :=
  (((rule_clue_finish_b c7_board1).toOption).getD default).1

/-- 2×1 unclued board for the slash-value overwrite counterexample. -/
def c8_board0 : Board :=
  ((Board.init 2 1 ("f".toList) none).toOption).getD default

/-- `c8_board0` with its two cells marked equivalent. -/
def c8_board1 : Board :=
  (((c8_board0.mark_cells_equivalent (c8_board0.cells.getD 0 default)
      (c8_board0.cells.getD 1 default)).toOption).getD default).1

/-- `c8_board1` with cell 0 placed as a slash (the shared equivalence class
now carries slash value SLASH). -/
def c8_board2 : Board :=
  (((c8_board1.place_value (c8_board1.cells.getD 0 default) SLASH).toOption).getD default).1

/-- Placing the opposite orientation in the other cell of the class completes
normally: the class value is overwritten. -/
def c8_board3 : Board :=
  (((c8_board2.place_value (c8_board2.cells.getD 1 default) BACKSLASH).toOption).getD
    default).1


/-- The combined invariant every rule application preserves: statics are kept,
cell values stay in range, and a no-progress result leaves the board
unchanged. -/
def RuleStepOk (b0 : Board) (st : Board × Bool) : Prop :=
  SameStatic b0 st.1 ∧ (Ok3 b0 → Ok3 st.1) ∧ (st.2 = false → st.1 = b0)

attribute [ext] Cell Vertex Board Snapshot

/-! ### Generic helper lemmas -/

/-- Rebuilding a list from its indexed reads is the identity. -/
theorem range_map_getD {α : Type} (l : List α) (d : α) :
    (List.range l.length).map (fun i => l.getD i d) = l := by
  apply List.ext_getElem
  · simp
  · intro i h1 h2
    simp [List.getD_eq_getElem?_getD, List.getElem?_eq_getElem h2]

/-- Invariant preservation through `List.foldlM` over `Except`. -/
theorem foldlM_inv {α σ : Type} {P : σ → Prop} {f : σ → α → Except PyErr σ}
    (hstep : ∀ s a s', P s → f s a = .ok s' → P s') :
    ∀ (l : List α) (s0 : σ), P s0 → ∀ s', l.foldlM f s0 = .ok s' → P s' := by
  intro l
  induction l with
  | nil =>
    intro s0 h0 s' h
    simp only [List.foldlM_nil] at h
    cases h
    exact h0
  | cons a t ih =>
    intro s0 h0 s' h
    rw [List.foldlM_cons] at h
    cases hfa : f s0 a with
    | error e => rw [hfa] at h; simp [Bind.bind, Except.bind] at h
    | ok s1 =>
      rw [hfa] at h
      simp only [Bind.bind, Except.bind] at h
      exact ih s1 (hstep s0 a s1 h0 hfa) s' h

/-! ### Static-state preservation -/

/-- `SameStatic` is reflexive. -/
theorem sameStatic_refl (b : Board) : SameStatic b b :=
  ⟨rfl, rfl, rfl, rfl, rfl, fun _ => ⟨rfl, rfl, rfl⟩⟩

/-- `SameStatic` is transitive. -/
theorem sameStatic_trans {a b c : Board} (h1 : SameStatic a b) (h2 : SameStatic b c) :
    SameStatic a c := by
  obtain ⟨w1, h1h, v1, k1, l1, f1⟩ := h1
  obtain ⟨w2, h2h, v2, k2, l2, f2⟩ := h2
  refine ⟨w2.trans w1, h2h.trans h1h, v2.trans v1, k2.trans k1, l2.trans l1, ?_⟩
  intro i
  exact ⟨(f2 i).1.trans (f1 i).1, (f2 i).2.1.trans (f1 i).2.1, (f2 i).2.2.trans (f1 i).2.2⟩

/-- `_union` keeps the statics. -/
theorem sameStatic_union (b : Board) (x y : Nat) : SameStatic b (b.union x y).1 := by
  unfold Board.union
  dsimp only
  split <;> exact ⟨rfl, rfl, rfl, rfl, rfl, fun _ => ⟨rfl, rfl, rfl⟩⟩

/-- `_decr_exits` keeps the statics. -/
theorem sameStatic_decr_exits (b : Board) (vx vy : Int) :
    SameStatic b (b.decr_exits vx vy) := by
  unfold Board.decr_exits
  cases b.get_vertex vx vy with
  | none => exact sameStatic_refl b
  | some v =>
    dsimp only
    split <;> exact ⟨rfl, rfl, rfl, rfl, rfl, fun _ => ⟨rfl, rfl, rfl⟩⟩

/-- `set_equivalence_class_value` keeps the statics. -/
theorem sameStatic_secv (b : Board) (cell : Cell) (value : Nat) :
    SameStatic b (b.set_equivalence_class_value cell value) :=
  ⟨rfl, rfl, rfl, rfl, rfl, fun _ => ⟨rfl, rfl, rfl⟩⟩

/-- `vbitmap_clear` keeps the statics. -/
theorem sameStatic_vbitmap_clear (b : Board) (cell : Cell) (bits : Nat) :
    SameStatic b (b.vbitmap_clear cell bits).1 := by
  unfold Board.vbitmap_clear
  dsimp only
  split <;> exact ⟨rfl, rfl, rfl, rfl, rfl, fun _ => ⟨rfl, rfl, rfl⟩⟩

/-- `mark_cells_equivalent` keeps the statics. -/
theorem sameStatic_mark {b : Board} {c1 c2 : Cell} {r : Board × Bool}
    (h : b.mark_cells_equivalent c1 c2 = .ok r) : SameStatic b r.1 := by
  unfold Board.mark_cells_equivalent at h
  simp only [Bind.bind, Except.bind, pure, Except.pure] at h
  split at h
  · cases h; exact sameStatic_refl b
  · split at h
    · split at h
      · split at h
        · simp [throw, throwThe, MonadExceptOf.throw] at h
        · split at h
          · cases h; exact sameStatic_refl b
          · cases h; exact ⟨rfl, rfl, rfl, rfl, rfl, fun _ => ⟨rfl, rfl, rfl⟩⟩
      · split at h
        · cases h; exact sameStatic_refl b
        · cases h; exact ⟨rfl, rfl, rfl, rfl, rfl, fun _ => ⟨rfl, rfl, rfl⟩⟩
    · split at h
      · cases h; exact sameStatic_refl b
      · cases h; exact ⟨rfl, rfl, rfl, rfl, rfl, fun _ => ⟨rfl, rfl, rfl⟩⟩

/-- Overwriting the cell at index `i` with a cell of the same statics keeps
the board statics. -/
theorem sameStatic_set_cell {b : Board} {i : Nat} {c : Cell}
    (hx : c.x = (b.cells.getD i default).x) (hy : c.y = (b.cells.getD i default).y)
    (hk : c.known_debug_value = (b.cells.getD i default).known_debug_value) :
    SameStatic b { b with cells := b.cells.set i c } := by
  refine ⟨rfl, rfl, rfl, rfl, by simp, ?_⟩
  intro j
  by_cases hj : i = j
  · subst hj
    by_cases hlen : i < b.cells.length
    · simp only [List.getD_eq_getElem?_getD, List.getElem?_set_self hlen]
      simp [hx, hy, hk, List.getD_eq_getElem?_getD]
    · rw [List.set_eq_of_length_le (Nat.le_of_not_lt hlen)]
      exact ⟨rfl, rfl, rfl⟩
  · simp [List.getD_eq_getElem?_getD, List.getElem?_set_ne hj]

/-- `Cell.set_value` only writes the value field. -/
theorem set_value_fields {c : Cell} {v : Nat} {c' : Cell} (h : c.set_value v = .ok c') :
    c' = { c with value := v } := by
  unfold Cell.set_value at h
  split at h
  · split at h
    · cases h
    · cases h; rfl
  · cases h; rfl

/-- Composition step for `place_value`: statics survive the cell write and the
slash-value update. -/
theorem sameStatic_place_aux {b b3 : Board} (h3 : SameStatic b b3) {i : Nat} {value : Nat}
    {nc : Cell} (hnc : nc = { b.cells.getD i default with value := value })
    (cell2 : Cell) (v2 : Nat) :
    SameStatic b (({ b3 with cells := b3.cells.set i nc }).set_equivalence_class_value cell2 v2) := by
  refine sameStatic_trans ?_ (sameStatic_secv _ _ _)
  refine sameStatic_trans h3 (sameStatic_set_cell ?_ ?_ ?_)
  · rw [hnc]; exact ((h3.2.2.2.2.2 i).1).symm
  · rw [hnc]; exact ((h3.2.2.2.2.2 i).2.1).symm
  · rw [hnc]; exact ((h3.2.2.2.2.2 i).2.2).symm

/-- `place_value` keeps the statics (also when it returns `false`). -/
theorem sameStatic_place {b : Board} {cell : Cell} {value : Nat} {r : Board × Bool}
    (h : b.place_value cell value = .ok r) : SameStatic b r.1 := by
  unfold Board.place_value at h
  simp only [Bind.bind, Except.bind, pure, Except.pure] at h
  split at h
  · cases h; exact sameStatic_refl b
  · split at h
    · simp [throw, throwThe, MonadExceptOf.throw] at h
    · rename_i b1 hu
      split at h
      · simp [throw, throwThe, MonadExceptOf.throw] at h
      · rename_i new_cell hsv
        cases h
        have h1 := sameStatic_union b
          (if value = SLASH then b.vertex_index cell.x (cell.y + 1)
            else b.vertex_index cell.x cell.y)
          (if value = SLASH then b.vertex_index (cell.x + 1) cell.y
            else b.vertex_index (cell.x + 1) (cell.y + 1))
        rw [hu] at h1
        exact sameStatic_place_aux
          (sameStatic_trans (sameStatic_trans h1 (sameStatic_decr_exits _ _ _))
            (sameStatic_decr_exits _ _ _))
          (set_value_fields hsv) _ _

/-- Restoring a snapshot of `bold` onto any board with the same statics gives
back exactly `bold`: the arrays are overwritten wholesale and the cell values
are written back pairwise. -/
theorem restore_save {bold b' : Board} (hs : SameStatic bold b') :
    b'.restore_state bold.save_state = bold := by
  obtain ⟨hw, hh, hv, hk, hlen, hfields⟩ := hs
  have hgd : ∀ (l : List Cell) (j : Nat) (hj : j < l.length), l.getD j default = l[j] := by
    intro l j hj
    simp [List.getD_eq_getElem?_getD, List.getElem?_eq_getElem hj]
  unfold Board.restore_state Board.save_state
  have hcells : (List.range b'.cells.length).map (fun i =>
      match (bold.cells.map (fun c => c.value)).get? i with
      | some v => { b'.cells.getD i default with value := v }
      | none => b'.cells.getD i default) = bold.cells := by
    apply List.ext_getElem
    · simp [hlen]
    · intro i h1 h2
      simp only [List.getElem_map, List.getElem_range]
      have hi : i < bold.cells.length := by
        simpa [hlen] using h1
      rw [List.get?_eq_getElem?, List.getElem?_map, List.getElem?_eq_getElem hi]
      simp only [Option.map]
      ext
      · rw [(hfields i).1, hgd bold.cells i hi]
      · rw [(hfields i).2.1, hgd bold.cells i hi]
      · rfl
      · rw [(hfields i).2.2, hgd bold.cells i hi]
  ext1 <;> first
    | assumption
    | exact hcells
    | rfl

/-- `_union` leaves the cells untouched. -/
theorem union_cells (b : Board) (x y : Nat) : (b.union x y).1.cells = b.cells := by
  unfold Board.union
  dsimp only
  split <;> rfl

/-- `_decr_exits` leaves the cells untouched. -/
theorem decr_exits_cells (b : Board) (vx vy : Int) : (b.decr_exits vx vy).cells = b.cells := by
  unfold Board.decr_exits
  cases b.get_vertex vx vy with
  | none => rfl
  | some v =>
    dsimp only
    split <;> rfl

/-- `set_equivalence_class_value` leaves the cells untouched. -/
theorem secv_cells (b : Board) (cell : Cell) (value : Nat) :
    (b.set_equivalence_class_value cell value).cells = b.cells := rfl

/-- `mark_cells_equivalent` leaves the cells untouched. -/
theorem mark_cells {b : Board} {c1 c2 : Cell} {r : Board × Bool}
    (h : b.mark_cells_equivalent c1 c2 = .ok r) : r.1.cells = b.cells := by
  unfold Board.mark_cells_equivalent at h
  simp only [Bind.bind, Except.bind, pure, Except.pure] at h
  split at h
  · cases h; rfl
  · split at h
    · split at h
      · split at h
        · simp [throw, throwThe, MonadExceptOf.throw] at h
        · split at h
          · cases h; rfl
          · cases h; rfl
      · split at h
        · cases h; rfl
        · cases h; rfl
    · split at h
      · cases h; rfl
      · cases h; rfl

/-- `vbitmap_clear` leaves the cells untouched. -/
theorem vbitmap_clear_cells (b : Board) (cell : Cell) (bits : Nat) :
    (b.vbitmap_clear cell bits).1.cells = b.cells := by
  unfold Board.vbitmap_clear
  dsimp only
  split <;> rfl

/-- Structure of a completed `place_value`: either the cell was already
decided and nothing happened, or the call reported `true` and the cells list
gained exactly the written value. -/
theorem place_result {b : Board} {cell : Cell} {value : Nat} {r : Board × Bool}
    (h : b.place_value cell value = .ok r) :
    (r = (b, false) ∧ (b.cells.getD (b.cell_index cell) default).value ≠ UNKNOWN) ∨
    (r.2 = true ∧
      r.1.cells = b.cells.set (b.cell_index cell)
        { b.cells.getD (b.cell_index cell) default with value := value } ∧
      (b.cells.getD (b.cell_index cell) default).value = UNKNOWN) := by
  unfold Board.place_value at h
  simp only [Bind.bind, Except.bind, pure, Except.pure] at h
  split at h
  · rename_i hne
    cases h
    exact Or.inl ⟨rfl, hne⟩
  · rename_i hne
    split at h
    · simp [throw, throwThe, MonadExceptOf.throw] at h
    · rename_i b1 hu
      split at h
      · simp [throw, throwThe, MonadExceptOf.throw] at h
      · rename_i new_cell hsv
        cases h
        refine Or.inr ⟨rfl, ?_, by simpa using hne⟩
        rw [secv_cells]
        have hc1 : b1.cells = b.cells := by
          have := union_cells b
            (if value = SLASH then b.vertex_index cell.x (cell.y + 1)
              else b.vertex_index cell.x cell.y)
            (if value = SLASH then b.vertex_index (cell.x + 1) cell.y
              else b.vertex_index (cell.x + 1) (cell.y + 1))
          rw [hu] at this
          exact this
        simp only [decr_exits_cells, hc1, set_value_fields hsv]

/-- Completed placements of a slash or backslash keep every cell value in
range. -/
theorem ok3_place {b : Board} {cell : Cell} {value : Nat} {r : Board × Bool}
    (hv : value = SLASH ∨ value = BACKSLASH)
    (h : b.place_value cell value = .ok r) (hb : Ok3 b) : Ok3 r.1 := by
  rcases place_result h with ⟨hr, _⟩ | ⟨_, hc, _⟩
  · rw [hr]; exact hb
  · intro c hcmem
    rw [hc] at hcmem
    rcases List.mem_or_eq_of_mem_set hcmem with hmem | hceq
    · exact hb c hmem
    · subst hceq
      rcases hv with hv | hv <;> simp [hv]

/-- Restoring a snapshot of a board with in-range values onto a board with
in-range values keeps the values in range. -/
theorem ok3_restore {bsrc b' : Board} (h1 : Ok3 bsrc) (h2 : Ok3 b') :
    Ok3 (b'.restore_state bsrc.save_state) := by
  intro c hc
  unfold Board.restore_state Board.save_state at hc
  simp only [List.mem_map, List.mem_range] at hc
  obtain ⟨i, hi, hci⟩ := hc
  rcases hget : (bsrc.cells.map (fun cc => cc.value)).get? i with _ | v
  · rw [hget] at hci
    subst hci
    by_cases hil : i < b'.cells.length
    · have : b'.cells.getD i default ∈ b'.cells := by
        have := List.getElem_mem (l := b'.cells) (n := i) hil
        simpa [List.getD_eq_getElem?_getD, List.getElem?_eq_getElem hil] using this
      exact h2 _ this
    · exact absurd hi hil
  · rw [hget] at hci
    subst hci
    rw [List.get?_eq_getElem?] at hget
    have hlt : i < bsrc.cells.length := by
      by_contra hge
      rw [List.getElem?_eq_none (by simp; omega)] at hget
      cases hget
    rw [List.getElem?_map, List.getElem?_eq_getElem hlt] at hget
    simp only [Option.map] at hget
    have hv : v = (bsrc.cells[i]).value := by
      cases hget; rfl
    have : bsrc.cells[i] ∈ bsrc.cells := List.getElem_mem hlt
    have := h1 _ this
    simpa [Ok3, hv] using this

/-- The initial accumulator of every rule satisfies the rule invariant. -/
theorem ruleStepOk_init (b : Board) : RuleStepOk b (b, false) :=
  ⟨sameStatic_refl b, fun h => h, fun _ => rfl⟩

/-- `do_place` preserves the rule invariant (for slash/backslash values). -/
theorem ruleStepOk_do_place {b0 : Board} {st : Board × Bool} {cell : Cell} {value : Nat}
    {s' : Board × Bool} (hv : value = SLASH ∨ value = BACKSLASH)
    (hP : RuleStepOk b0 st) (h : do_place st cell value = .ok s') : RuleStepOk b0 s' := by
  unfold do_place at h
  simp only [Bind.bind, Except.bind, pure, Except.pure] at h
  split at h
  · cases h
  · rename_i r hpl
    cases h
    exact ⟨sameStatic_trans hP.1 (sameStatic_place (r := r) hpl),
      fun h3 => ok3_place (r := r) hv hpl (hP.2.1 h3), fun hf => by cases hf⟩

/-- `try_place` preserves the rule invariant. -/
theorem ruleStepOk_try_place {b0 : Board} {st : Board × Bool} {cell : Cell} {value : Nat}
    {s' : Board × Bool} (hv : value = SLASH ∨ value = BACKSLASH)
    (hP : RuleStepOk b0 st) (h : try_place st cell value = .ok s') : RuleStepOk b0 s' := by
  unfold try_place at h
  split at h
  · exact ruleStepOk_do_place hv hP h
  · simp only [pure, Except.pure] at h
    cases h
    exact hP

/-- `rule_clue_finish_a` satisfies the rule invariant. -/
theorem ruleOk_clue_finish_a : ∀ b r, rule_clue_finish_a b = .ok r → RuleStepOk b r := by
  intro b r h
  unfold rule_clue_finish_a at h
  refine foldlM_inv ?_ _ _ (ruleStepOk_init b) r h
  intro st vertex s' hP hstep
  simp only [Bind.bind, Except.bind, pure, Except.pure] at hstep
  split at hstep
  · refine foldlM_inv ?_ _ _ hP s' hstep
    intro st2 t s2 hP2 hst2
    obtain ⟨cell, slash_touches, bt⟩ := t
    simp only at hst2
    split at hst2
    · exact ruleStepOk_try_place (Or.inl rfl) hP2 hst2
    · exact ruleStepOk_try_place (Or.inr rfl) hP2 hst2
  · cases hstep
    exact hP

/-- `rule_clue_finish_b` satisfies the rule invariant. -/
theorem ruleOk_clue_finish_b : ∀ b r, rule_clue_finish_b b = .ok r → RuleStepOk b r := by
  intro b r h
  unfold rule_clue_finish_b at h
  refine foldlM_inv ?_ _ _ (ruleStepOk_init b) r h
  intro st vertex s' hP hstep
  simp only [Bind.bind, Except.bind, pure, Except.pure] at hstep
  split at hstep
  · refine foldlM_inv ?_ _ _ hP s' hstep
    intro st2 t s2 hP2 hst2
    obtain ⟨cell, slash_touches, bt⟩ := t
    simp only at hst2
    split at hst2
    · exact ruleStepOk_try_place (Or.inr rfl) hP2 hst2
    · exact ruleStepOk_try_place (Or.inl rfl) hP2 hst2
  · cases hstep
    exact hP

/-- `rule_no_loops` satisfies the rule invariant. -/
theorem ruleOk_no_loops : ∀ b r, rule_no_loops b = .ok r → RuleStepOk b r := by
  intro b r h
  unfold rule_no_loops at h
  refine foldlM_inv ?_ _ _ (ruleStepOk_init b) r h
  intro st cell s' hP hstep
  simp only [Bind.bind, Except.bind, pure, Except.pure] at hstep
  split at hstep
  · exact ruleStepOk_do_place (Or.inr rfl) hP hstep
  · split at hstep
    · exact ruleStepOk_do_place (Or.inl rfl) hP hstep
    · cases hstep
      exact hP

/-- `rule_corner_zero` satisfies the rule invariant. -/
theorem ruleOk_corner_zero : ∀ b r, rule_corner_zero b = .ok r → RuleStepOk b r := by
  intro b r h
  unfold rule_corner_zero at h
  refine foldlM_inv ?_ _ _ (ruleStepOk_init b) r h
  intro st vertex s' hP hstep
  simp only [Bind.bind, Except.bind, pure, Except.pure] at hstep
  split at hstep
  · cases hstep
    exact hP
  · refine foldlM_inv ?_ _ _ hP s' hstep
    intro st2 t s2 hP2 hst2
    obtain ⟨cell, slash_touches, bt⟩ := t
    simp only at hst2
    split at hst2
    · cases hst2
      exact hP2
    · split at hst2
      · exact ruleStepOk_try_place (Or.inr rfl) hP2 hst2
      · exact ruleStepOk_try_place (Or.inl rfl) hP2 hst2

/-- `rule_corner_four` satisfies the rule invariant. -/
theorem ruleOk_corner_four : ∀ b r, rule_corner_four b = .ok r → RuleStepOk b r := by
  intro b r h
  unfold rule_corner_four at h
  refine foldlM_inv ?_ _ _ (ruleStepOk_init b) r h
  intro st vertex s' hP hstep
  simp only [Bind.bind, Except.bind, pure, Except.pure] at hstep
  split at hstep
  · cases hstep
    exact hP
  · refine foldlM_inv ?_ _ _ hP s' hstep
    intro st2 t s2 hP2 hst2
    obtain ⟨cell, slash_touches, bt⟩ := t
    simp only at hst2
    split at hst2
    · cases hst2
      exact hP2
    · split at hst2
      · exact ruleStepOk_try_place (Or.inl rfl) hP2 hst2
      · exact ruleStepOk_try_place (Or.inr rfl) hP2 hst2

/-- `rule_edge_clue_constraints` satisfies the rule invariant. -/
theorem ruleOk_edge_clue_constraints :
    ∀ b r, rule_edge_clue_constraints b = .ok r → RuleStepOk b r := by
  intro b r h
  unfold rule_edge_clue_constraints at h
  refine foldlM_inv ?_ _ _ (ruleStepOk_init b) r h
  intro st vertex s' hP hstep
  simp only [Bind.bind, Except.bind, pure, Except.pure] at hstep
  split at hstep
  · cases hstep
    exact hP
  · split at hstep
    · refine foldlM_inv ?_ _ _ hP s' hstep
      intro st2 t s2 hP2 hst2
      obtain ⟨cell, slash_touches, bt⟩ := t
      simp only at hst2
      split at hst2
      · cases hst2
        exact hP2
      · split at hst2
        · exact ruleStepOk_try_place (Or.inl rfl) hP2 hst2
        · exact ruleStepOk_try_place (Or.inr rfl) hP2 hst2
    · cases hstep
      exact hP

/-- `rule_border_two_v_shape` satisfies the rule invariant. -/
theorem ruleOk_border_two_v_shape :
    ∀ b r, rule_border_two_v_shape b = .ok r → RuleStepOk b r := by
  intro b r h
  unfold rule_border_two_v_shape at h
  refine foldlM_inv ?_ _ _ (ruleStepOk_init b) r h
  intro st vertex s' hP hstep
  simp only [Bind.bind, Except.bind, pure, Except.pure] at hstep
  split at hstep
  · cases hstep
    exact hP
  · split at hstep
    · cases hstep
      exact hP
    · split at hstep
      · refine foldlM_inv ?_ _ _ hP s' hstep
        intro st2 t s2 hP2 hst2
        obtain ⟨cell, slash_touches, bt⟩ := t
        simp only at hst2
        split at hst2
        · cases hst2
          exact hP2
        · split at hst2
          · exact ruleStepOk_try_place (Or.inl rfl) hP2 hst2
          · exact ruleStepOk_try_place (Or.inr rfl) hP2 hst2
      · cases hstep
        exact hP

/-- `loop_avoid_check` restores the snapshot on every path, so the state
passes through unchanged. -/
theorem ruleStepOk_loop_avoid_check {b0 : Board} {st : Board × Bool} {cell1 cell2 : Cell}
    {val1 val2 : Nat} {s' : Board × Bool} (hP : RuleStepOk b0 st)
    (h : loop_avoid_check st cell1 val1 cell2 val2 = .ok s') : RuleStepOk b0 s' := by
  unfold loop_avoid_check at h
  simp only [Bind.bind, Except.bind, pure, Except.pure] at h
  split at h
  · cases h
    rw [restore_save (sameStatic_refl st.1)]
    exact hP
  · split at h
    · cases h
    · rename_i rr hpl
      have hrs : rr.1.restore_state st.1.save_state = st.1 :=
        restore_save (sameStatic_place (r := rr) hpl)
      split at h <;>
        (cases h
         rw [hrs]
         exact hP)

/-- `rule_loop_avoidance_2` satisfies the rule invariant: every path restores
the snapshot, so the board and flag pass through unchanged. -/
theorem ruleOk_loop_avoidance_2 :
    ∀ b r, rule_loop_avoidance_2 b = .ok r → RuleStepOk b r := by
  intro b r h
  unfold rule_loop_avoidance_2 at h
  refine foldlM_inv ?_ _ _ (ruleStepOk_init b) r h
  intro st vertex s' hP hstep
  simp only [Bind.bind, Except.bind, pure, Except.pure] at hstep
  split at hstep
  · cases hstep
    exact hP
  · split at hstep
    · cases hstep
      exact hP
    · exact ruleStepOk_loop_avoid_check hP hstep

/-- `rule_forced_solution_avoidance` satisfies the rule invariant. -/
theorem ruleOk_forced_solution_avoidance :
    ∀ b r, rule_forced_solution_avoidance b = .ok r → RuleStepOk b r := by
  intro b r h
  unfold rule_forced_solution_avoidance at h
  refine foldlM_inv ?_ _ _ (ruleStepOk_init b) r h
  intro st vertex s' hP hstep
  simp only [Bind.bind, Except.bind, pure, Except.pure] at hstep
  split at hstep
  · cases hstep
    exact hP
  · refine foldlM_inv ?_ _ _ hP s' hstep
    intro st2 t s2 hP2 hst2
    obtain ⟨cell, slash_touches, bt⟩ := t
    simp only at hst2
    cases slash_touches
    · simp only [SLASH, BACKSLASH] at hst2
      norm_num at hst2
      split at hst2
      · exact ruleStepOk_try_place (Or.inl rfl) hP2 hst2
      · cases hst2
        exact hP2
    · simp only [SLASH, BACKSLASH] at hst2
      norm_num at hst2
      split at hst2
      · exact ruleStepOk_try_place (Or.inr rfl) hP2 hst2
      · cases hst2
        exact hP2

/-- `rule_adjacent_ones` satisfies the rule invariant. -/
theorem ruleOk_adjacent_ones : ∀ b r, rule_adjacent_ones b = .ok r → RuleStepOk b r := by
  intro b r h
  unfold rule_adjacent_ones at h
  refine foldlM_inv ?_ _ _ (ruleStepOk_init b) r h
  intro st vertex s' hP hstep
  simp only [Bind.bind, Except.bind, pure, Except.pure] at hstep
  split at hstep
  · cases hstep
    exact hP
  · split at hstep
    · cases hstep
      exact hP
    · refine foldlM_inv ?_ _ _ hP s' hstep
      intro stD d s2 hPD hstD
      simp only [Bind.bind, Except.bind, pure, Except.pure] at hstD
      split at hstD
      · cases hstD
        exact hPD
      · split at hstD
        · cases hstD
          exact hPD
        · refine foldlM_inv ?_ _ _ hPD s2 hstD
          intro st2 t s3 hP2 hst2
          obtain ⟨cell, slash_t, bt⟩ := t
          simp only at hst2
          split at hst2
          · cases hst2
            exact hP2
          · split at hst2
            · split at hst2
              · exact ruleStepOk_try_place (Or.inr rfl) hP2 hst2
              · exact ruleStepOk_try_place (Or.inl rfl) hP2 hst2
            · cases hst2
              exact hP2

/-- `rule_adjacent_threes` satisfies the rule invariant. -/
theorem ruleOk_adjacent_threes : ∀ b r, rule_adjacent_threes b = .ok r → RuleStepOk b r := by
  intro b r h
  unfold rule_adjacent_threes at h
  refine foldlM_inv ?_ _ _ (ruleStepOk_init b) r h
  intro st vertex s' hP hstep
  simp only [Bind.bind, Except.bind, pure, Except.pure] at hstep
  split at hstep
  · cases hstep
    exact hP
  · refine foldlM_inv ?_ _ _ hP s' hstep
    intro stD d s2 hPD hstD
    simp only [Bind.bind, Except.bind, pure, Except.pure] at hstD
    split at hstD
    · cases hstD
      exact hPD
    · split at hstD
      · cases hstD
        exact hPD
      · split at hstD
        · refine foldlM_inv ?_ _ _ hPD s2 hstD
          intro st2 t s3 hP2 hst2
          obtain ⟨cell, slash_t, bt⟩ := t
          simp only at hst2
          split at hst2
          · exact ruleStepOk_try_place (Or.inl rfl) hP2 hst2
          · exact ruleStepOk_try_place (Or.inr rfl) hP2 hst2
        · cases hstD
          exact hPD

/-- Leaf pattern of the forcing loops: one of the two orientations guarded by
a boolean flag. -/
theorem ruleStepOk_flag_place {b0 : Board} {st2 s2 : Board × Bool} {cell : Cell} {fl : Bool}
    (hP2 : RuleStepOk b0 st2)
    (h : (if fl = true then try_place st2 cell SLASH else try_place st2 cell BACKSLASH) =
      .ok s2) : RuleStepOk b0 s2 := by
  split at h
  · exact ruleStepOk_try_place (Or.inl rfl) hP2 h
  · exact ruleStepOk_try_place (Or.inr rfl) hP2 h

/-- `v_pattern_check_above` preserves the rule invariant. -/
theorem ruleStepOk_v_pattern_check_above {b0 : Board} {st s : Board × Bool} {v : Vertex}
    {y : Nat} (hP : RuleStepOk b0 st) (h : v_pattern_check_above st v y = .ok s) :
    RuleStepOk b0 s := by
  unfold v_pattern_check_above at h
  simp only [pure, Except.pure] at h
  split at h
  · split at h
    · refine foldlM_inv ?_ _ _ hP s h
      intro st2 t s2 hP2 hst2
      obtain ⟨cell, slash_t, bt⟩ := t
      simp only [Bind.bind, Except.bind, pure, Except.pure] at hst2
      split at hst2
      · cases hst2
        exact hP2
      · split at hst2
        · exact ruleStepOk_flag_place hP2 hst2
        · cases hst2
          exact hP2
    · cases h
      exact hP
  · cases h
    exact hP

/-- `v_pattern_check_below` preserves the rule invariant. -/
theorem ruleStepOk_v_pattern_check_below {b0 : Board} {st s : Board × Bool} {v : Vertex}
    {y : Nat} (hP : RuleStepOk b0 st) (h : v_pattern_check_below st v y = .ok s) :
    RuleStepOk b0 s := by
  unfold v_pattern_check_below at h
  simp only [pure, Except.pure] at h
  split at h
  · split at h
    · refine foldlM_inv ?_ _ _ hP s h
      intro st2 t s2 hP2 hst2
      obtain ⟨cell, slash_t, bt⟩ := t
      simp only [Bind.bind, Except.bind, pure, Except.pure] at hst2
      split at hst2
      · cases hst2
        exact hP2
      · split at hst2
        · exact ruleStepOk_flag_place hP2 hst2
        · cases hst2
          exact hP2
    · cases h
      exact hP
  · cases h
    exact hP

/-- `rule_v_pattern_with_three` satisfies the rule invariant. -/
theorem ruleOk_v_pattern_with_three :
    ∀ b r, rule_v_pattern_with_three b = .ok r → RuleStepOk b r := by
  intro b r h
  unfold rule_v_pattern_with_three at h
  refine foldlM_inv ?_ _ _ (ruleStepOk_init b) r h
  intro stY y s' hP hstep
  refine foldlM_inv ?_ _ _ hP s' hstep
  intro st x s2 hP2 hst
  dsimp only at hst
  split at hst
  · -- some cell_left, some cell_right
    simp only [Bind.bind, Except.bind, pure, Except.pure] at hst
    split at hst
    · -- first V orientation present: phase 1 ran
      split at hst
      · -- a vertex sits above the point
        split at hst
        · cases hst
        · rename_i stmid hmid
          have hPm : RuleStepOk b stmid := ruleStepOk_v_pattern_check_above hP2 hmid
          split at hst
          · split at hst
            · exact ruleStepOk_v_pattern_check_below hPm hst
            · cases hst
              exact hPm
          · cases hst
            exact hPm
      · split at hst
        · split at hst
          · exact ruleStepOk_v_pattern_check_below hP2 hst
          · cases hst
            exact hP2
        · cases hst
          exact hP2
    · split at hst
      · split at hst
        · exact ruleStepOk_v_pattern_check_below hP2 hst
        · cases hst
          exact hP2
      · cases hst
        exact hP2
  · cases hst
    exact hP2

/-- `rule_single_path_extension` satisfies the rule invariant. -/
theorem ruleOk_single_path_extension :
    ∀ b r, rule_single_path_extension b = .ok r → RuleStepOk b r := by
  intro b r h
  unfold rule_single_path_extension at h
  refine foldlM_inv ?_ _ _ (ruleStepOk_init b) r h
  intro stY vy s' hP hstep
  refine foldlM_inv ?_ _ _ hP s' hstep
  intro st vx s2 hP2 hst
  dsimp only at hst
  split at hst
  · cases hst
    exact hP2
  · split at hst
    · refine foldlM_inv ?_ _ _ hP2 s2 hst
      intro st2 t s3 hP3 hst3
      obtain ⟨cell, slash_t, bt⟩ := t
      simp only [Bind.bind, Except.bind, pure, Except.pure] at hst3
      split at hst3
      · cases hst3
        exact hP3
      · split at hst3
        · cases hst3
          exact hP3
        · split at hst3
          · exact ruleStepOk_flag_place hP3 hst3
          · split at hst3
            · split at hst3
              · exact ruleStepOk_try_place (Or.inr rfl) hP3 hst3
              · exact ruleStepOk_try_place (Or.inl rfl) hP3 hst3
            · cases hst3
              exact hP3
    · cases hst
      exact hP2

/-- Common ending of the two one-cell lookahead rules: place the first
orientation under one condition, the second under another, else do nothing. -/
theorem ruleStepOk_pick_place {b0 : Board} {st s2 : Board × Bool} {cell : Cell}
    {v1 v2 : Nat} {c1 c2 : Prop} [Decidable c1] [Decidable c2]
    (h1 : v1 = SLASH ∨ v1 = BACKSLASH) (h2 : v2 = SLASH ∨ v2 = BACKSLASH)
    (hP : RuleStepOk b0 st)
    (h : (if c1 then do_place st cell v1
          else if c2 then do_place st cell v2
          else (pure st : Except PyErr (Board × Bool))) = .ok s2) :
    RuleStepOk b0 s2 := by
  split at h
  · exact ruleStepOk_do_place h1 hP h
  · split at h
    · exact ruleStepOk_do_place h2 hP h
    · cases h
      exact hP

/-- `rule_trial_clue_violation` satisfies the rule invariant. -/
theorem ruleOk_trial_clue_violation :
    ∀ b r, rule_trial_clue_violation b = .ok r → RuleStepOk b r := by
  intro b r h
  unfold rule_trial_clue_violation at h
  refine foldlM_inv ?_ _ _ (ruleStepOk_init b) r h
  intro st cell s' hP hst
  dsimp only at hst
  exact ruleStepOk_pick_place (Or.inl rfl) (Or.inr rfl) hP hst

/-- The speculative phase of the lookahead rule restores its snapshot: the
returned board is the input board. -/
theorem lookahead_try_fst (b : Board) (cell : Cell) (value : Nat) :
    (lookahead_try b cell value).1 = b := by
  unfold lookahead_try
  split
  · dsimp only
    split
    · exact restore_save (sameStatic_refl b)
    · rename_i p hp
      exact restore_save (sameStatic_place hp)
  · rfl

/-- `rule_one_step_lookahead` satisfies the rule invariant. -/
theorem ruleOk_one_step_lookahead :
    ∀ b r, rule_one_step_lookahead b = .ok r → RuleStepOk b r := by
  intro b r h
  unfold rule_one_step_lookahead at h
  refine foldlM_inv ?_ _ _ (ruleStepOk_init b) r h
  intro st cell s' hP hst
  dsimp only at hst
  rw [lookahead_try_fst] at hst
  rw [lookahead_try_fst] at hst
  exact ruleStepOk_pick_place (Or.inr rfl) (Or.inl rfl) hP hst

/-- Every rule in the registry satisfies the rule invariant: static board data
is untouched, clue-coherent all-diagonal boards stay coherent, and a `false`
progress flag means the board is returned unchanged. -/
theorem rule_ok : ∀ (rn : RuleName) (b : Board) (r : Board × Bool),
    apply_rule rn b = .ok r → RuleStepOk b r := by
  intro rn
  cases rn
  · exact ruleOk_clue_finish_a
  · exact ruleOk_clue_finish_b
  · exact ruleOk_no_loops
  · exact ruleOk_corner_zero
  · exact ruleOk_corner_four
  · exact ruleOk_edge_clue_constraints
  · exact ruleOk_border_two_v_shape
  · exact ruleOk_loop_avoidance_2
  · exact ruleOk_forced_solution_avoidance
  · exact ruleOk_v_pattern_with_three
  · exact ruleOk_adjacent_ones
  · exact ruleOk_adjacent_threes
  · exact ruleOk_single_path_extension
  · exact ruleOk_trial_clue_violation
  · exact ruleOk_one_step_lookahead

/-- Applying one board operation preserves the static state. -/
theorem sameStatic_apply_op (b : Board) (op : Op) : SameStatic b (apply_op b op) := by
  cases op with
  | place i value =>
    simp only [apply_op]
    split
    · rename_i r h
      exact sameStatic_place h
    · exact sameStatic_refl b
  | mark_equivalent i j =>
    simp only [apply_op]
    split
    · rename_i r h
      exact sameStatic_mark h
    · exact sameStatic_refl b
  | vclear i bits => exact sameStatic_vbitmap_clear b _ bits
  | rule rn =>
    simp only [apply_op]
    split
    · rename_i r h
      exact (rule_ok rn b r h).1
    · exact sameStatic_refl b

/-- A fold of board operations preserves the static state. -/
theorem sameStatic_foldl_ops : ∀ (ops : List Op) (b0 b : Board), SameStatic b0 b →
    SameStatic b0 (ops.foldl apply_op b) := by
  intro ops
  induction ops with
  | nil =>
    intro b0 b h
    simpa using h
  | cons op t ih =>
    intro b0 b h
    rw [List.foldl_cons]
    exact ih b0 (apply_op b op) (sameStatic_trans h (sameStatic_apply_op b op))

/-- C4: Snapshot round-trip: for every board and every sequence of board
operations (placements, equivalence marks, V-bitmap clears, rule
applications), saving the board's state, applying the sequence, then
restoring the snapshot yields the original board — all mutable state (cell
values, both union-find structures, slash values, V-bitmap, exits, border
flags) is recovered exactly. -/
theorem c4_snapshot_roundtrip (b : Board) (ops : List Op) :
    (apply_ops b ops).restore_state b.save_state = b :=
  restore_save (sameStatic_foldl_ops ops b b (sameStatic_refl b))

/-- C10: `place_value` on a cell whose live value is already decided returns
`False` and leaves the board completely unchanged. -/
theorem c10_place_on_decided_noop (b : Board) (cell : Cell) (value : Nat)
    (h : (b.cells.getD (b.cell_index cell) default).value ≠ UNKNOWN) :
    b.place_value cell value = .ok (b, false) := by
  unfold Board.place_value
  dsimp only
  rw [if_pos h]
  rfl

/-- Concrete instance of `c10_place_on_decided_noop`: re-placing the decided
cell of the placed 1×1 board. -/
theorem c10_place_on_decided_noop_witness :
    (demo_board_1p.cells.getD
        (demo_board_1p.cell_index (demo_board_1p.cells.getD 0 default)) default).value ≠
      UNKNOWN ∧
    demo_board_1p.place_value (demo_board_1p.cells.getD 0 default) BACKSLASH =
      .ok (demo_board_1p, false) :=
  ⟨by decide,
    c10_place_on_decided_noop demo_board_1p (demo_board_1p.cells.getD 0 default) BACKSLASH
      (by decide)⟩

/-- C9 counterexample: the claimed length leniency does not exist — the 1×1
board (4 corners) with clue string "a" (decoding to a single unclued corner)
is rejected with a ValueError instead of padding the remainder. -/
theorem c9_counterexample :
    Board.init 1 1 ("a".toList) none = .error .valueError := by
  rfl

/-- C9 (amended): whenever the decoded clue string's length differs from the
corner count (W+1)·(H+1) — shorter or longer — `Board.__init__` raises
ValueError; there is no padding or truncation. -/
theorem c9_init_length_mismatch_raises (width height : Nat) (givens : List Char)
    (ks : Option (List Char))
    (h : (decode_givens givens).length ≠ (width + 1) * (height + 1)) :
    Board.init width height givens ks = .error .valueError := by
  unfold Board.init
  dsimp only
  rw [if_pos h]

/-- Concrete instance of `c9_init_length_mismatch_raises` at the 1×1 board
with the too-short clue string "a". -/
theorem c9_init_length_mismatch_raises_witness :
    (decode_givens ("a".toList)).length ≠ (1 + 1) * (1 + 1) ∧
    Board.init 1 1 ("a".toList) none = .error .valueError :=
  ⟨by decide, c9_init_length_mismatch_raises 1 1 ("a".toList) none (by decide)⟩

/-- C7 counterexample: `clue_finish_b` is in the registry, yet on the 3×1
board "b10d" it reports progress on two consecutive applications — the first
pass satisfies the clue-1 corner, which only then lets the second pass act on
the clue-0 corner. -/
theorem c7_counterexample :
    (RULES_PR.map (fun r => r.2.2.2)).contains RuleName.clue_finish_b = true ∧
    rule_clue_finish_b c7_board = .ok (c7_board1, true) ∧
    rule_clue_finish_b c7_board1 = .ok (c7_board2, true) ∧
    c7_board1 ≠ c7_board := by
  refine ⟨by decide, by rfl, by rfl, by decide⟩

/-- C7 (amended): what does hold of every registry rule is stability at a
fixpoint — a rule application that reports no progress returns the board
unchanged, so immediately re-applying that rule again reports no progress.
(Idempotence after a *successful* application is refuted by
the counterexample.) -/
theorem c7_rule_no_progress_stable (rn : RuleName) (b b2 : Board)
    (h : apply_rule rn b = .ok (b2, false)) :
    b2 = b ∧ apply_rule rn b2 = .ok (b2, false) := by
  have hb : b2 = b := (rule_ok rn b (b2, false) h).2.2 rfl
  subst hb
  exact ⟨rfl, h⟩

/-- Concrete instance of `c7_rule_no_progress_stable`: `corner_zero` makes no
progress on the unclued 1×1 board and is stable there. -/
theorem c7_rule_no_progress_stable_witness :
    apply_rule RuleName.corner_zero demo_board_1 = .ok (demo_board_1, false) ∧
    (demo_board_1 = demo_board_1 ∧
      apply_rule RuleName.corner_zero demo_board_1 = .ok (demo_board_1, false)) :=
  ⟨by rfl, c7_rule_no_progress_stable RuleName.corner_zero demo_board_1 demo_board_1 (by rfl)⟩

/-- `_union` leaves the slash values unchanged. -/
theorem union_slashval (b : Board) (x y : Nat) : (b.union x y).1.slashval = b.slashval := by
  unfold Board.union
  dsimp only
  split <;> rfl

/-- `_union` leaves the cell union-find unchanged. -/
theorem union_equiv_parent (b : Board) (x y : Nat) :
    (b.union x y).1.equiv_parent = b.equiv_parent := by
  unfold Board.union
  dsimp only
  split <;> rfl

/-- `_union` leaves the width unchanged. -/
theorem union_width (b : Board) (x y : Nat) : (b.union x y).1.width = b.width := by
  unfold Board.union
  dsimp only
  split <;> rfl

/-- `_decr_exits` leaves the slash values unchanged. -/
theorem decr_slashval (b : Board) (vx vy : Int) :
    (b.decr_exits vx vy).slashval = b.slashval := by
  unfold Board.decr_exits
  split
  · rfl
  · split <;> rfl

/-- `_decr_exits` leaves the cell union-find unchanged. -/
theorem decr_equiv_parent (b : Board) (vx vy : Int) :
    (b.decr_exits vx vy).equiv_parent = b.equiv_parent := by
  unfold Board.decr_exits
  split
  · rfl
  · split <;> rfl

/-- `_decr_exits` leaves the width unchanged. -/
theorem decr_width (b : Board) (vx vy : Int) : (b.decr_exits vx vy).width = b.width := by
  unfold Board.decr_exits
  split
  · rfl
  · split <;> rfl

/-- C8 (amended): a placement that completes with progress sets the slash
value of the cell's UF_e equivalence class to `value` *unconditionally*: the
result's slashval array is the input's with the class root of the placed
cell overwritten by `value`.  No check of the previous class value takes
place (a prior opposite value is silently overwritten, not an error — see the
counterexample). -/
theorem c8_place_sets_class_value (b : Board) (cell : Cell) (value : Nat)
    (r : Board × Bool) (h : b.place_value cell value = .ok r) (hp : r.2 = true) :
    r.1.slashval = b.slashval.set
      (b.equiv_find (b.cell_index (b.cells.getD (b.cell_index cell) default))) value := by
  unfold Board.place_value at h
  simp only [Bind.bind, Except.bind, pure, Except.pure] at h
  split at h
  · cases h
    cases hp
  · split at h
    · simp [throw, throwThe, MonadExceptOf.throw] at h
    · rename_i b1 hu
      split at h
      · simp [throw, throwThe, MonadExceptOf.throw] at h
      · rename_i new_cell hsv
        cases h
        have hnc := set_value_fields hsv
        have hu1 := congrArg Prod.fst hu
        dsimp only at hu1
        simp only [Board.set_equivalence_class_value, Board.equiv_find, Board.cell_index]
        rw [← hu1, hnc]
        simp only [decr_slashval, decr_equiv_parent, decr_width, union_slashval,
          union_equiv_parent, union_width]
        rfl

/-- C8 counterexample: placing the opposite orientation in a cell whose UF_e
class already carries the other slash value does NOT fail — it completes
normally and silently overwrites the class value. -/
theorem c8_counterexample :
    c8_board2.get_equivalence_class_value (c8_board2.cells.getD 1 default) = SLASH ∧
    c8_board2.place_value (c8_board2.cells.getD 1 default) BACKSLASH =
      .ok (c8_board3, true) ∧
    c8_board3.get_equivalence_class_value (c8_board3.cells.getD 1 default) = BACKSLASH := by
  refine ⟨by decide, by rfl, by decide⟩

/-- Concrete instance of `c8_place_sets_class_value` at the overwriting
placement. -/
theorem c8_place_sets_class_value_witness :
    c8_board2.place_value (c8_board2.cells.getD 1 default) BACKSLASH =
      .ok (c8_board3, true) ∧
    c8_board3.slashval = c8_board2.slashval.set
      (c8_board2.equiv_find
        (c8_board2.cell_index (c8_board2.cells.getD
          (c8_board2.cell_index (c8_board2.cells.getD 1 default)) default))) BACKSLASH :=
  ⟨by rfl,
    c8_place_sets_class_value c8_board2 (c8_board2.cells.getD 1 default) BACKSLASH
      (c8_board3, true) (by rfl) rfl⟩

/-- The backtracking loop returns immediately once two solutions are on
record. -/
theorem solve_BF_loop_stop (ks : Option (List Char)) (fuel : Nat)
    (stack : List (Snapshot × Option Nat)) (solutions : List (List Char)) (board : Board)
    (total pp : Nat) (h : solutions.length ≥ 2) :
    solve_BF_loop ks fuel stack solutions board total pp =
      .finished solutions board total pp := by
  match fuel, stack with
  | 0, stack => simp only [solve_BF_loop]
  | fuel + 1, [] => simp only [solve_BF_loop]
  | fuel + 1, frame :: stack =>
    simp only [solve_BF_loop]
    rw [if_pos h]

/-- The backtracking loop records at most two solutions: each iteration first
checks the two-solutions guard and then adds at most one solution. -/
theorem solve_BF_loop_sols_le (ks : Option (List Char)) :
    ∀ (fuel : Nat) (stack : List (Snapshot × Option Nat)) (solutions : List (List Char))
      (board : Board) (total pp : Nat) (sols : List (List Char)) (b : Board) (t p : Nat),
      solutions.length ≤ 2 →
      solve_BF_loop ks fuel stack solutions board total pp = .finished sols b t p →
      sols.length ≤ 2 := by
  intro fuel
  induction fuel with
  | zero =>
    intro stack solutions board total pp sols b t p hle h
    simp only [solve_BF_loop] at h
    cases h
    exact hle
  | succ fuel ih =>
    intro stack solutions board total pp sols b t p hle h
    match stack with
    | [] =>
      simp only [solve_BF_loop] at h
      cases h
      exact hle
    | frame :: stack =>
      simp only [solve_BF_loop] at h
      split at h
      · cases h
        exact hle
      · rename_i hlt
        obtain ⟨state, ev⟩ := frame
        split at h
        · cases h
        · exact ih _ _ _ _ _ _ _ _ _ hle h
        · rename_i board1 ws hrules
          split at h
          all_goals
            repeat'
              first
              | exact ih _ _ _ _ _ _ _ _ _ hle h
              | (refine ih _ _ _ _ _ _ _ _ _ ?_ h
                 simp only [List.length_append, List.length_cons, List.length_nil]
                 omega)
              | split at h

/-- C2: non-uniqueness detection.  (1) On the 2×2 grid with all 9 corners
unclued (clue string "i"), solve returns status "mult".  (2) In general the
search stops with MULTIPLE as soon as a second solution is found: once two
solutions are on record the loop returns immediately, at most two solutions
are ever recorded, and the final status is "mult" exactly when two were
found. -/
theorem c2_solve_detects_multiple :
    solve_BF ("i".toList) 2 2 none 100 =
      .ok ("mult", "///\x5c".toList, 28) ∧
    (∀ (ks : Option (List Char)) (fuel : Nat) (stack : List (Snapshot × Option Nat))
      (solutions : List (List Char)) (board : Board) (total pp : Nat),
      solutions.length ≥ 2 →
      solve_BF_loop ks fuel stack solutions board total pp =
        .finished solutions board total pp) ∧
    (∀ (ks : Option (List Char)) (fuel : Nat) (stack : List (Snapshot × Option Nat))
      (board : Board) (total pp : Nat) (sols : List (List Char)) (b : Board) (t p : Nat),
      solve_BF_loop ks fuel stack [] board total pp = .finished sols b t p →
      sols.length ≤ 2 ∧ (bf_status sols = "mult" ↔ sols.length = 2)) := by
  refine ⟨by rfl, solve_BF_loop_stop, ?_⟩
  intro ks fuel stack board total pp sols b t p h
  have hle : sols.length ≤ 2 :=
    solve_BF_loop_sols_le ks fuel stack [] board total pp sols b t p (by simp) h
  refine ⟨hle, ?_⟩
  unfold bf_status
  constructor
  · intro hm
    by_cases h2 : sols.length ≥ 2
    · omega
    · rw [if_neg h2] at hm
      by_cases h1 : sols.length = 1
      · rw [if_pos h1] at hm
        exact absurd hm (by decide)
      · rw [if_neg h1] at hm
        exact absurd hm (by decide)
  · intro h2
    rw [if_pos (by omega)]

/-- Concrete instance of `c2_solve_detects_multiple`: with two solutions
already recorded, one more loop iteration changes nothing. -/
theorem c2_solve_detects_multiple_witness :
    solve_BF_loop none 5 [] [[], []] demo_board_1 0 0 = .finished [[], []] demo_board_1 0 0 :=
  c2_solve_detects_multiple.2.1 none 5 [] [[], []] demo_board_1 0 0 (by decide)

/-- One rule pass of solver_PR keeps the static state and the value range. -/
theorem try_rules_PR_ok : ∀ (rules : List (String × Nat × Nat × RuleName)) (b : Board),
    SameStatic b (try_rules_PR rules b).1 ∧ (Ok3 b → Ok3 (try_rules_PR rules b).1) := by
  intro rules
  induction rules with
  | nil =>
    intro b
    exact ⟨sameStatic_refl b, fun h => h⟩
  | cons r rest ih =>
    intro b
    obtain ⟨name, score, tier, rn⟩ := r
    simp only [try_rules_PR]
    split
    · exact ⟨sameStatic_refl b, fun h => h⟩
    · rename_i b1 h1
      have hr := rule_ok rn b (b1, true) h1
      exact ⟨hr.1, hr.2.1⟩
    · rename_i b1 h1
      have hr := rule_ok rn b (b1, false) h1
      obtain ⟨ih1, ih2⟩ := ih b1
      exact ⟨sameStatic_trans hr.1 ih1, fun h => ih2 (hr.2.1 h)⟩

/-- The solver_PR loop returns "solved" only at a board that passes
`is_valid_solution`, reached from the start board by rule applications. -/
theorem solve_PR_loop_solved (rules : List (String × Nat × Nat × RuleName)) :
    ∀ (fuel : Nat) (b : Board) (total maxt : Nat) (b' : Board) (w t : Nat),
      solve_PR_loop rules fuel b total maxt = ("solved", b', w, t) →
      b'.is_valid_solution = true ∧ SameStatic b b' ∧ (Ok3 b → Ok3 b') := by
  intro fuel
  induction fuel with
  | zero =>
    intro b total maxt b' w t h
    simp only [solve_PR_loop] at h
    have h5 := congrArg Prod.fst h
    dsimp only at h5
    exact absurd h5 (by decide)
  | succ fuel ih =>
    intro b total maxt b' w t h
    simp only [solve_PR_loop] at h
    split at h
    · split at h
      · rename_i hsolved hvalid
        injection h with hs hrest
        injection hrest with hb hrest2
        subst hb
        exact ⟨hvalid, sameStatic_refl b, fun h3 => h3⟩
      · have h5 := congrArg Prod.fst h
        dsimp only at h5
        exact absurd h5 (by decide)
    · split at h
      · rename_i b1 score tier flag heq
        obtain ⟨hs, ho⟩ := try_rules_PR_ok rules b
        rw [heq] at hs ho
        obtain ⟨hv, hss, hoo⟩ := ih b1 _ _ b' w t h
        exact ⟨hv, sameStatic_trans hs hss, fun h3 => hoo (ho h3)⟩
      · have h5 := congrArg Prod.fst h
        dsimp only at h5
        exact absurd h5 (by decide)

/-- A successfully constructed board has the stated dimensions, row-major
cells all `UNKNOWN`, and in particular satisfies `Ok3`. -/
theorem init_ok_fields {width height : Nat} {givens : List Char} {ks : Option (List Char)}
    {b : Board} (h : Board.init width height givens ks = .ok b) :
    b.width = width ∧ b.height = height ∧ b.cells.length = width * height ∧ Ok3 b := by
  unfold Board.init at h
  dsimp only at h
  split at h
  · cases h
  · cases h
    refine ⟨rfl, rfl, by simp, ?_⟩
    intro c hc
    simp only [List.mem_map, List.mem_range] at hc
    obtain ⟨i, _, rfl⟩ := hc
    exact Or.inl rfl

/-- A board passing `is_valid_solution` with in-range values has every cell
decided to an orientation and every clued vertex touched exactly its clue
many times. -/
theorem is_valid_solution_props {b : Board} (h : b.is_valid_solution = true) (ho : Ok3 b) :
    (∀ c ∈ b.cells, c.value = SLASH ∨ c.value = BACKSLASH) ∧
    (∀ v ∈ b.vertices, ∀ clue, v.clue = some clue → (b.count_touches v).1 = clue) := by
  unfold Board.is_valid_solution at h
  rw [Bool.and_eq_true] at h
  obtain ⟨h1, h2⟩ := h
  constructor
  · intro c hc
    unfold Board.is_solved at h1
    rw [List.all_eq_true] at h1
    have hne := h1 c hc
    simp only [decide_eq_true_eq] at hne
    rcases ho c hc with h0 | h0 | h0
    · exact absurd h0 hne
    · exact Or.inl h0
    · exact Or.inr h0
  · intro v hv clue hclue
    rw [List.all_eq_true] at h2
    have hve := h2 v hv
    rw [hclue] at hve
    simpa using hve

/-! ### Union-find theory

The Python union-find has no path compression; `uf_find` models the root
lookup with fuel `parent.length`, which suffices on every well-formed parent
array (`UFWf`).  The lemmas below establish this and characterize how
`uf_find` changes when a root is re-parented, exactly as `_union` does. -/

/-- `x` is a root of the parent forest (it maps to itself; out-of-range
indices are trivially roots, matching `getD`'s default). -/
def IsRoot (parent : List Nat) (x : Nat) : Prop := parent.getD x x = x

/-- One parent-pointer step (from a non-root to its parent). -/
def PStep (parent : List Nat) (a b : Nat) : Prop := parent.getD a a = b ∧ a ≠ b

/-- `getD` after `set` at the written index. -/
theorem getD_set_self {α : Type} (l : List α) (i : Nat) (v d : α) (h : i < l.length) :
    (l.set i v).getD i d = v := by
  simp [List.getD_eq_getElem?_getD, List.getElem?_set_self, h]

/-- `getD` after `set` at another index. -/
theorem getD_set_other {α : Type} (l : List α) {i j : Nat} (v d : α) (h : i ≠ j) :
    (l.set i v).getD j d = l.getD j d := by
  simp [List.getD_eq_getElem?_getD, List.getElem?_set_ne, h]

/-- `getD` out of range. -/
theorem getD_oob {α : Type} (l : List α) (i : Nat) (d : α) (h : l.length ≤ i) :
    l.getD i d = d := by
  simp [List.getD_eq_getElem?_getD, List.getElem?_eq_none, h]

/-- `getD i i` on `List.range`. -/
theorem getD_range (n i : Nat) : (List.range n).getD i i = i := by
  by_cases h : i < n
  · simp [List.getD_eq_getElem?_getD, List.getElem?_eq_getElem, h, List.getElem_range]
  · simp [List.getD_eq_getElem?_getD, List.getElem?_eq_none, List.length_range,
      Nat.le_of_not_lt h]

/-- The root lookup is the identity at a root, whatever the fuel. -/
theorem uf_find_aux_root {parent : List Nat} {x : Nat} (h : parent.getD x x = x) :
    ∀ fuel, uf_find_aux parent fuel x = x
  | 0 => rfl
  | fuel + 1 => by
    simp only [uf_find_aux]
    rw [if_pos h]

/-- The root lookup is the identity at a root. -/
theorem uf_find_root {parent : List Nat} {x : Nat} (h : IsRoot parent x) :
    uf_find parent x = x :=
  uf_find_aux_root h _

/-- A well-formed parent array admits a certificate bounded by the array
length (rescale any certificate by its rank among the in-range values). -/
theorem ufwf_bounded {parent : List Nat} (h : UFWf parent) :
    ∃ d : Nat → Nat, (∀ i, i < parent.length → parent.getD i i ≠ i →
      d (parent.getD i i) < d i) ∧ ∀ i, i < parent.length → d i < parent.length := by
  obtain ⟨hb, d, hd⟩ := h
  refine ⟨fun i => ((Finset.range parent.length).filter (fun j => d j < d i)).card, ?_, ?_⟩
  · intro i hi hne
    apply Finset.card_lt_card
    rw [Finset.ssubset_iff_of_subset]
    · refine ⟨parent.getD i i, Finset.mem_filter.mpr ⟨Finset.mem_range.mpr (hb i hi),
        hd i hi hne⟩, fun hm => ?_⟩
      exact absurd (Finset.mem_filter.mp hm).2 (lt_irrefl _)
    · intro x hx
      rw [Finset.mem_filter] at hx ⊢
      exact ⟨hx.1, lt_trans hx.2 (hd i hi hne)⟩
  · intro i hi
    dsimp only
    refine lt_of_lt_of_le ?_ (le_of_eq (Finset.card_range parent.length))
    apply Finset.card_lt_card
    rw [Finset.ssubset_iff_of_subset (Finset.filter_subset _ _)]
    refine ⟨i, Finset.mem_range.mpr hi, fun hm => ?_⟩
    exact absurd (Finset.mem_filter.mp hm).2 (lt_irrefl _)

/-- With a bounded certificate, fuel exceeding `d x` finds a root, stays in
range, and follows parent steps. -/
theorem uf_find_aux_spec {parent : List Nat} {d : Nat → Nat}
    (hb : ∀ i, i < parent.length → parent.getD i i < parent.length)
    (hd : ∀ i, i < parent.length → parent.getD i i ≠ i → d (parent.getD i i) < d i) :
    ∀ fuel x, (x < parent.length → d x < fuel) →
      IsRoot parent (uf_find_aux parent fuel x) ∧
      (x < parent.length → uf_find_aux parent fuel x < parent.length) ∧
      Relation.ReflTransGen (PStep parent) x (uf_find_aux parent fuel x) := by
  intro fuel
  induction fuel with
  | zero =>
    intro x hx
    by_cases hxr : x < parent.length
    · exact absurd (hx hxr) (Nat.not_lt_zero _)
    · exact ⟨getD_oob parent x x (Nat.le_of_not_lt hxr), fun hh => absurd hh hxr,
        Relation.ReflTransGen.refl⟩
  | succ fuel ih =>
    intro x hx
    simp only [uf_find_aux]
    by_cases hpx : parent.getD x x = x
    · rw [if_pos hpx]
      exact ⟨hpx, fun hh => hh, Relation.ReflTransGen.refl⟩
    · rw [if_neg hpx]
      have hxl : x < parent.length := by
        by_contra hh
        exact hpx (getD_oob parent x x (Nat.le_of_not_lt hh))
      have hpl := hb x hxl
      have hlt := hd x hxl hpx
      have hrec := ih (parent.getD x x) (fun _ => by
        have := hx hxl
        omega)
      exact ⟨hrec.1, fun _ => hrec.2.1 hpl,
        Relation.ReflTransGen.head ⟨rfl, Ne.symm hpx⟩ hrec.2.2⟩

/-- On a well-formed parent array, `uf_find` returns a root, stays in range
on in-range input, and follows parent steps. -/
theorem uf_find_spec {parent : List Nat} (h : UFWf parent) (x : Nat) :
    IsRoot parent (uf_find parent x) ∧
    (x < parent.length → uf_find parent x < parent.length) ∧
    Relation.ReflTransGen (PStep parent) x (uf_find parent x) := by
  obtain ⟨d, hd, hlt⟩ := ufwf_bounded h
  exact uf_find_aux_spec h.1 hd parent.length x (fun hx => hlt x hx)

/-- With enough fuel on both sides, the fuel does not matter. -/
theorem uf_find_aux_congr {parent : List Nat} {d : Nat → Nat}
    (hb : ∀ i, i < parent.length → parent.getD i i < parent.length)
    (hd : ∀ i, i < parent.length → parent.getD i i ≠ i → d (parent.getD i i) < d i) :
    ∀ fuel fuel' x, (x < parent.length → d x < fuel) → (x < parent.length → d x < fuel') →
      uf_find_aux parent fuel x = uf_find_aux parent fuel' x := by
  intro fuel
  induction fuel with
  | zero =>
    intro fuel' x hx hx'
    have hxr : ¬ x < parent.length := fun hh => absurd (hx hh) (Nat.not_lt_zero _)
    have hroot : parent.getD x x = x := getD_oob parent x x (Nat.le_of_not_lt hxr)
    rw [uf_find_aux_root hroot, uf_find_aux_root hroot]
  | succ fuel ih =>
    intro fuel' x hx hx'
    by_cases hpx : parent.getD x x = x
    · rw [uf_find_aux_root hpx, uf_find_aux_root hpx]
    · have hxl : x < parent.length := by
        by_contra hh
        exact hpx (getD_oob parent x x (Nat.le_of_not_lt hh))
      match fuel' with
      | 0 => exact absurd (hx' hxl) (Nat.not_lt_zero _)
      | fuel' + 1 =>
        simp only [uf_find_aux]
        rw [if_neg hpx, if_neg hpx]
        have hpl := hb x hxl
        have hlt := hd x hxl hpx
        refine ih fuel' (parent.getD x x) (fun _ => ?_) (fun _ => ?_)
        · have := hx hxl
          omega
        · have := hx' hxl
          omega

/-- The root of a non-root is the root of its parent. -/
theorem uf_find_step {parent : List Nat} (h : UFWf parent) {x : Nat}
    (hxl : x < parent.length) (hnr : parent.getD x x ≠ x) :
    uf_find parent x = uf_find parent (parent.getD x x) := by
  obtain ⟨d, hd, hlt⟩ := ufwf_bounded h
  unfold uf_find
  obtain ⟨n, hn⟩ : ∃ n, parent.length = n + 1 := ⟨parent.length - 1, by omega⟩
  rw [hn]
  conv_lhs => simp only [uf_find_aux]
  rw [if_neg hnr]
  refine uf_find_aux_congr h.1 hd n (n + 1) (parent.getD x x) (fun _ => ?_) (fun _ => ?_)
  · have h1 := hlt x hxl
    have h2 := hd x hxl hnr
    omega
  · have h1 := hlt x hxl
    have h2 := hd x hxl hnr
    omega

/-- Re-parenting one root under another (as `_union` does) keeps the parent
array well-formed. -/
theorem ufwf_set {parent : List Nat} (h : UFWf parent) {rx ry : Nat}
    (hrx : IsRoot parent rx) (hry : IsRoot parent ry) (hrxl : rx < parent.length)
    (hryl : ry < parent.length) (hne : rx ≠ ry) : UFWf (parent.set ry rx) := by
  obtain ⟨hb, d, hd⟩ := h
  constructor
  · intro i hi
    rw [List.length_set] at hi
    rw [List.length_set]
    by_cases hiy : i = ry
    · rw [hiy, getD_set_self parent ry rx ry hryl]
      exact hrxl
    · have hne2 : ry ≠ i := fun he => hiy he.symm
      rw [getD_set_other parent rx i hne2]
      exact hb i hi
  · refine ⟨fun z => if uf_find parent z = ry then d z + d rx + 1 else d z, ?_⟩
    intro i hi hnr
    dsimp only
    rw [List.length_set] at hi
    by_cases hiy : i = ry
    · rw [hiy] at hnr ⊢
      rw [getD_set_self parent ry rx ry hryl] at hnr ⊢
      rw [uf_find_root hrx, uf_find_root hry]
      rw [if_neg hne, if_pos rfl]
      omega
    · have hne2 : ry ≠ i := fun he => hiy he.symm
      rw [getD_set_other parent rx i hne2] at hnr ⊢
      have hstep := uf_find_step ⟨hb, d, hd⟩ hi hnr
      by_cases hfy : uf_find parent i = ry
      · rw [if_pos hfy, if_pos (hstep ▸ hfy)]
        have := hd i hi hnr
        omega
      · rw [if_neg hfy, if_neg (hstep ▸ hfy)]
        exact hd i hi hnr

/-- How `uf_find` changes when root `ry` is re-parented under root `rx`: the
members of `ry`'s class move to `rx`, everything else keeps its root. -/
theorem uf_find_set {parent : List Nat} (h : UFWf parent) {rx ry : Nat}
    (hrx : IsRoot parent rx) (hry : IsRoot parent ry) (hrxl : rx < parent.length)
    (hryl : ry < parent.length) (hne : rx ≠ ry) :
    ∀ z, uf_find (parent.set ry rx) z =
      if uf_find parent z = ry then rx else uf_find parent z := by
  have hwf' := ufwf_set h hrx hry hrxl hryl hne
  have hroot_case : ∀ z, parent.getD z z = z →
      uf_find (parent.set ry rx) z = if uf_find parent z = ry then rx else uf_find parent z := by
    intro z hzr
    rw [uf_find_root hzr]
    by_cases hzy : z = ry
    · subst hzy
      rw [if_pos rfl]
      have hpz : (parent.set z rx).getD z z = rx := getD_set_self parent z rx z hryl
      have hnr : (parent.set z rx).getD z z ≠ z := by
        rw [hpz]
        exact hne
      rw [uf_find_step hwf' (by rw [List.length_set]; exact hryl) hnr, hpz]
      have hrx' : IsRoot (parent.set z rx) rx := by
        unfold IsRoot
        rw [getD_set_other parent rx rx (Ne.symm hne)]
        exact hrx
      exact uf_find_root hrx'
    · rw [if_neg hzy]
      have hne2 : ry ≠ z := fun he => hzy he.symm
      have hzr' : IsRoot (parent.set ry rx) z := by
        unfold IsRoot
        rw [getD_set_other parent rx z hne2]
        exact hzr
      exact uf_find_root hzr'
  obtain ⟨d, hd, hlt⟩ := ufwf_bounded h
  have main : ∀ n z, z < parent.length → d z ≤ n →
      uf_find (parent.set ry rx) z =
        if uf_find parent z = ry then rx else uf_find parent z := by
    intro n
    induction n with
    | zero =>
      intro z hz hd0
      by_cases hzr : parent.getD z z = z
      · exact hroot_case z hzr
      · have := hd z hz hzr
        omega
    | succ n ih =>
      intro z hz hdn
      by_cases hzr : parent.getD z z = z
      · exact hroot_case z hzr
      · have hzy : z ≠ ry := by
          intro he
          subst he
          exact hzr hry
        have hne2 : ry ≠ z := fun he => hzy he.symm
        have hpz' : (parent.set ry rx).getD z z = parent.getD z z :=
          getD_set_other parent rx z hne2
        have hnr' : (parent.set ry rx).getD z z ≠ z := by
          rw [hpz']
          exact hzr
        rw [uf_find_step hwf' (by rw [List.length_set]; exact hz) hnr', hpz']
        rw [uf_find_step h hz hzr]
        have hplen := h.1 z hz
        have hdlt := hd z hz hzr
        exact ih (parent.getD z z) hplen (by omega)
  intro z
  by_cases hz : z < parent.length
  · exact main (d z) z hz (le_refl _)
  · have hzr : parent.getD z z = z := getD_oob parent z z (Nat.le_of_not_lt hz)
    have hzr' : (parent.set ry rx).getD z z = z :=
      getD_oob (parent.set ry rx) z z (by rw [List.length_set]; exact Nat.le_of_not_lt hz)
    rw [uf_find_root hzr', uf_find_root hzr]
    rw [if_neg]
    intro he
    rw [← he] at hryl
    exact hz hryl

/-- The identity parent array (`list(range(n))`, the initial state of both
union-finds) is well-formed and every lookup is the identity. -/
theorem ufwf_range (n : Nat) : UFWf (List.range n) ∧ ∀ z, uf_find (List.range n) z = z := by
  constructor
  · constructor
    · intro i hi
      rw [getD_range]
      rw [List.length_range] at hi ⊢
      exact hi
    · exact ⟨fun _ => 0, fun i _ hne => absurd (getD_range n i) hne⟩
  · intro z
    exact uf_find_root (getD_range n z)

/-- Nothing outside a class finds its root: if `j` is a root and no other
node points at it, only `j` itself has root `j`. -/
theorem uf_find_only_self {parent : List Nat} (h : UFWf parent) {j : Nat}
    (hroot : IsRoot parent j) (hiso : ∀ k, parent.getD k k = j → k = j) :
    ∀ k, uf_find parent k = j → k = j := by
  intro k hk
  have hrtg := (uf_find_spec h k).2.2
  rw [hk] at hrtg
  rcases hrtg.cases_tail with he | ⟨c, _, hstep⟩
  · exact he.symm
  · exact absurd (hiso c hstep.1) hstep.2

/-! ### Graph lemmas: adding one edge between unconnected vertices -/

/-- Deleting the new edge from `G ⊔ edge u v` leaves a subgraph of `G`. -/
theorem sup_edge_sdiff_le {V : Type} {G : SimpleGraph V} {u v : V} :
    (G ⊔ SimpleGraph.edge u v) \ SimpleGraph.fromEdgeSet {s(u, v)} ≤ G := by
  intro a b hab
  rw [SimpleGraph.sdiff_adj, SimpleGraph.sup_adj] at hab
  obtain ⟨hor, hnot⟩ := hab
  rcases hor with hg | hedge
  · exact hg
  · exfalso
    apply hnot
    rw [SimpleGraph.fromEdgeSet_adj]
    rw [SimpleGraph.edge_adj] at hedge
    refine ⟨?_, hedge.2⟩
    rcases hedge.1 with ⟨rfl, rfl⟩ | ⟨rfl, rfl⟩
    · rfl
    · exact Sym2.eq_swap

/-- Adding an edge between two vertices not connected in an acyclic graph
keeps the graph acyclic. -/
theorem isAcyclic_sup_edge {V : Type} {G : SimpleGraph V} {u v : V}
    (hac : G.IsAcyclic) (hnr : ¬ G.Reachable u v) (hne : u ≠ v) :
    (G ⊔ SimpleGraph.edge u v).IsAcyclic := by
  intro a c hcyc
  by_cases he : s(u, v) ∈ c.edges
  · have hbridge : (G ⊔ SimpleGraph.edge u v).IsBridge s(u, v) := by
      rw [SimpleGraph.isBridge_iff]
      constructor
      · rw [SimpleGraph.sup_adj, SimpleGraph.edge_adj]
        exact Or.inr ⟨Or.inl ⟨rfl, rfl⟩, hne⟩
      · intro hreach
        exact hnr (hreach.mono sup_edge_sdiff_le)
    exact (SimpleGraph.isBridge_iff_adj_and_forall_cycle_not_mem.mp hbridge).2 c hcyc he
  · have hsub : ∀ e ∈ c.edges, e ∈ G.edgeSet := by
      intro e hee
      have hin := c.edges_subset_edgeSet hee
      rw [SimpleGraph.edgeSet_sup] at hin
      rcases hin with hin | hin
      · exact hin
      · exfalso
        unfold SimpleGraph.edge at hin
        rw [SimpleGraph.edgeSet_fromEdgeSet] at hin
        obtain ⟨hin1, _⟩ := hin
        rw [Set.mem_singleton_iff] at hin1
        exact he (hin1 ▸ hee)
    exact hac (c.transfer G hsub) (hcyc.transfer hsub)

/-- Reachability after adding one edge: either already reachable, or the walk
crosses the new edge (in one of the two directions). -/
theorem reachable_sup_edge_iff {V : Type} {G : SimpleGraph V} {u v : V} :
    ∀ {p q : V}, (G ⊔ SimpleGraph.edge u v).Reachable p q →
      G.Reachable p q ∨ (G.Reachable p u ∧ G.Reachable v q) ∨
        (G.Reachable p v ∧ G.Reachable u q) := by
  intro p q hr
  obtain ⟨w⟩ := hr
  induction w with
  | nil => exact Or.inl (SimpleGraph.Reachable.refl _)
  | cons hadj w2 ih =>
    rename_i a b c2
    rw [SimpleGraph.sup_adj] at hadj
    rcases hadj with hg | hedge
    · rcases ih with h1 | ⟨h1, h2⟩ | ⟨h1, h2⟩
      · exact Or.inl (SimpleGraph.Reachable.trans ⟨SimpleGraph.Walk.cons hg .nil⟩ h1)
      · exact Or.inr (Or.inl ⟨SimpleGraph.Reachable.trans ⟨SimpleGraph.Walk.cons hg .nil⟩ h1, h2⟩)
      · exact Or.inr (Or.inr ⟨SimpleGraph.Reachable.trans ⟨SimpleGraph.Walk.cons hg .nil⟩ h1, h2⟩)
    · rw [SimpleGraph.edge_adj] at hedge
      rcases hedge.1 with ⟨rfl, rfl⟩ | ⟨rfl, rfl⟩
      · rcases ih with h1 | ⟨h1, h2⟩ | ⟨h1, h2⟩
        · exact Or.inr (Or.inl ⟨SimpleGraph.Reachable.refl _, h1⟩)
        · exact Or.inr (Or.inl ⟨SimpleGraph.Reachable.refl _, h2⟩)
        · exact Or.inl h2
      · rcases ih with h1 | ⟨h1, h2⟩ | ⟨h1, h2⟩
        · exact Or.inr (Or.inr ⟨SimpleGraph.Reachable.refl _, h1⟩)
        · exact Or.inl h2
        · exact Or.inr (Or.inr ⟨SimpleGraph.Reachable.refl _, h2⟩)

/-- Inserting one edge pair into an edge list is the graph join with that
edge. -/
theorem egraph_insert_eq {es es2 : List (Nat × Nat)} {u v : Nat}
    (hm : ∀ p, p ∈ es2 ↔ p ∈ es ∨ p = (u, v)) :
    egraph es2 = egraph es ⊔ SimpleGraph.edge u v := by
  ext a b
  rw [SimpleGraph.sup_adj, SimpleGraph.edge_adj]
  unfold egraph
  rw [SimpleGraph.fromRel_adj, SimpleGraph.fromRel_adj]
  constructor
  · rintro ⟨hne, hab | hba⟩
    · rw [hm] at hab
      rcases hab with h | h
      · exact Or.inl ⟨hne, Or.inl h⟩
      · injection h with h1 h2
        exact Or.inr ⟨Or.inl ⟨h1, h2⟩, hne⟩
    · rw [hm] at hba
      rcases hba with h | h
      · exact Or.inl ⟨hne, Or.inr h⟩
      · injection h with h1 h2
        exact Or.inr ⟨Or.inr ⟨h2, h1⟩, hne⟩
  · rintro (⟨hne, hab | hba⟩ | ⟨⟨rfl, rfl⟩ | ⟨rfl, rfl⟩, hne⟩)
    · exact ⟨hne, Or.inl ((hm _).mpr (Or.inl hab))⟩
    · exact ⟨hne, Or.inr ((hm _).mpr (Or.inl hba))⟩
    · exact ⟨hne, Or.inl ((hm _).mpr (Or.inr rfl))⟩
    · exact ⟨hne, Or.inr ((hm _).mpr (Or.inr rfl))⟩

/-- The graph of an empty edge list is empty. -/
theorem egraph_nil : egraph [] = (⊥ : SimpleGraph Nat) := by
  ext a b
  unfold egraph
  rw [SimpleGraph.fromRel_adj]
  simp

/-- Membership in a `filterMap` over `range` when exactly one index changes
from `none` to `some w`. -/
theorem filterMap_range_update {α : Type} {f g : Nat → Option α} {n i : Nat} {w : α}
    (hi : i < n) (hfi : f i = none) (hgi : g i = some w)
    (hagree : ∀ j, j ≠ i → f j = g j) :
    ∀ p, p ∈ (List.range n).filterMap g ↔ p ∈ (List.range n).filterMap f ∨ p = w := by
  intro p
  rw [List.mem_filterMap, List.mem_filterMap]
  constructor
  · rintro ⟨j, hj, hgj⟩
    by_cases hji : j = i
    · subst hji
      rw [hgi] at hgj
      injection hgj with hgj
      exact Or.inr hgj.symm
    · exact Or.inl ⟨j, hj, (hagree j hji) ▸ hgj⟩
  · rintro (⟨j, hj, hfj⟩ | rfl)
    · have hji : j ≠ i := by
        intro he
        subst he
        rw [hfi] at hfj
        cases hfj
      exact ⟨j, hj, (hagree j hji).symm ▸ hfj⟩
    · exact ⟨i, List.mem_range.mpr hi, hgi⟩

/-- The edge recorded for index `j` of board `b` (the `filterMap` body of
`board_edges`). -/
def board_edge_at (b : Board) (j : Nat) : Option (Nat × Nat) :=
  let c := b.cells.getD j default
  if c.value = UNKNOWN then none
  else
    some (if c.value = SLASH then b.vertex_index c.x (c.y + 1) else b.vertex_index c.x c.y,
      if c.value = SLASH then b.vertex_index (c.x + 1) c.y
      else b.vertex_index (c.x + 1) (c.y + 1))

/-- `board_edges` through `board_edge_at`. -/
theorem board_edges_eq (b : Board) :
    board_edges b = (List.range b.cells.length).filterMap (board_edge_at b) := rfl

/-- `_union` leaves the vertices unchanged. -/
theorem union_vertices (b : Board) (x y : Nat) : (b.union x y).1.vertices = b.vertices := by
  unfold Board.union
  dsimp only
  split <;> rfl

/-- `_decr_exits` leaves the parent array unchanged. -/
theorem decr_parent (b : Board) (vx vy : Int) : (b.decr_exits vx vy).parent = b.parent := by
  unfold Board.decr_exits
  split
  · rfl
  · split <;> rfl

/-- `set_equivalence_class_value` leaves the parent array unchanged. -/
theorem secv_parent (b : Board) (cell : Cell) (value : Nat) :
    (b.set_equivalence_class_value cell value).parent = b.parent := rfl

/-- Characterization of a successful `_union`: the two roots were distinct and
the loser root was re-parented under the winner. -/
theorem union_success_char {b : Board} {x y : Nat} {b1 : Board}
    (h : b.union x y = (b1, true)) :
    b.find x ≠ b.find y ∧
    ∃ w l, ((w = b.find x ∧ l = b.find y) ∨ (w = b.find y ∧ l = b.find x)) ∧
      b1.parent = b.parent.set l w := by
  unfold Board.union at h
  dsimp only at h
  split at h
  · rename_i heq
    exact absurd (congrArg Prod.snd h) (by simp)
  · rename_i hne
    refine ⟨hne, ?_⟩
    have hp := congrArg Prod.fst h
    dsimp only at hp
    by_cases hrk : b.rank.getD (b.find x) 0 < b.rank.getD (b.find y) 0
    · refine ⟨b.find y, b.find x, Or.inr ⟨rfl, rfl⟩, ?_⟩
      rw [← hp]
      rw [if_pos hrk]
    · refine ⟨b.find x, b.find y, Or.inl ⟨rfl, rfl⟩, ?_⟩
      rw [← hp]
      rw [if_neg hrk]

/-- Full characterization of a successful, progressing placement: the live
cell was unknown, the cell array gets the one new value, and the parent
array records the union of the two endpoint classes (which had distinct
roots). -/
theorem place_update_char {b : Board} {cell : Cell} {value : Nat} {r : Board × Bool}
    (h : b.place_value cell value = .ok r) (hp : r.2 = true) :
    (b.cells.getD (b.cell_index cell) default).value = UNKNOWN ∧
    r.1.cells = b.cells.set (b.cell_index cell)
      { b.cells.getD (b.cell_index cell) default with value := value } ∧
    b.find (if value = SLASH then b.vertex_index cell.x (cell.y + 1)
        else b.vertex_index cell.x cell.y) ≠
      b.find (if value = SLASH then b.vertex_index (cell.x + 1) cell.y
        else b.vertex_index (cell.x + 1) (cell.y + 1)) ∧
    ∃ w l,
      ((w = b.find (if value = SLASH then b.vertex_index cell.x (cell.y + 1)
          else b.vertex_index cell.x cell.y) ∧
        l = b.find (if value = SLASH then b.vertex_index (cell.x + 1) cell.y
          else b.vertex_index (cell.x + 1) (cell.y + 1))) ∨
       (w = b.find (if value = SLASH then b.vertex_index (cell.x + 1) cell.y
          else b.vertex_index (cell.x + 1) (cell.y + 1)) ∧
        l = b.find (if value = SLASH then b.vertex_index cell.x (cell.y + 1)
          else b.vertex_index cell.x cell.y))) ∧
      r.1.parent = b.parent.set l w := by
  unfold Board.place_value at h
  simp only [Bind.bind, Except.bind, pure, Except.pure] at h
  split at h
  · cases h
    cases hp
  · rename_i hunk
    rw [not_not] at hunk
    split at h
    · simp [throw, throwThe, MonadExceptOf.throw] at h
    · rename_i b1 hu
      split at h
      · simp [throw, throwThe, MonadExceptOf.throw] at h
      · rename_i new_cell hsv
        cases h
        have hnc := set_value_fields hsv
        obtain ⟨hfind, w, l, hwl, hpar⟩ := union_success_char hu
        refine ⟨hunk, ?_, hfind, w, l, hwl, ?_⟩
        · have hu1 := congrArg Prod.fst hu
          dsimp only at hu1
          dsimp only
          rw [secv_cells]
          dsimp only
          rw [decr_exits_cells, decr_exits_cells, ← hu1, union_cells, hnc]
        · dsimp only
          rw [secv_parent]
          dsimp only
          rw [decr_parent, decr_parent, hpar]

/-- `mark_cells_equivalent` leaves the vertex union-find unchanged. -/
theorem mark_parent {b : Board} {c1 c2 : Cell} {r : Board × Bool}
    (h : b.mark_cells_equivalent c1 c2 = .ok r) : r.1.parent = b.parent := by
  unfold Board.mark_cells_equivalent at h
  simp only [Bind.bind, Except.bind, pure, Except.pure] at h
  split at h
  · cases h
    rfl
  · split at h
    · split at h
      · split at h
        · simp [throw, throwThe, MonadExceptOf.throw] at h
        · split at h
          · cases h
            rfl
          · cases h
            rfl
      · split at h
        · cases h
          rfl
        · cases h
          rfl
    · split at h
      · cases h
        rfl
      · cases h
        rfl

/-- `vbitmap_clear` leaves the vertex union-find unchanged. -/
theorem vbitmap_clear_parent (b : Board) (cell : Cell) (bits : Nat) :
    (b.vbitmap_clear cell bits).1.parent = b.parent := by
  unfold Board.vbitmap_clear
  dsimp only
  split <;> rfl

/-- Boards with the same cells and width record the same diagonal edges. -/
theorem board_edges_congr {b b2 : Board} (hc : b2.cells = b.cells)
    (hw : b2.width = b.width) : board_edges b2 = board_edges b := by
  rw [board_edges_eq, board_edges_eq, hc]
  apply List.filterMap_congr
  intro j hj
  unfold board_edge_at Board.vertex_index
  rw [hc, hw]

/-- The acyclicity invariant of C3: coherent cells, a well-formed vertex
union-find of the right size that dominates graph connectivity, and an
acyclic diagonal graph. -/
def AcyclicInv (b : Board) : Prop :=
  CellsCoherent b ∧ b.parent.length = (b.width + 1) * (b.height + 1) ∧ UFWf b.parent ∧
  (∀ p q, (egraph (board_edges b)).Reachable p q →
    uf_find b.parent p = uf_find b.parent q) ∧
  (egraph (board_edges b)).IsAcyclic

/-- A completed placement (on a live cell, with an orientation) preserves the
acyclicity invariant. -/
theorem acyclicInv_place {b : Board} {i value : Nat} {r : Board × Bool}
    (hi : i < b.cells.length) (hv : value = SLASH ∨ value = BACKSLASH)
    (h : b.place_value (b.cells.getD i default) value = .ok r)
    (hinv : AcyclicInv b) : AcyclicInv r.1 := by
  by_cases hp : r.2 = true
  · obtain ⟨hcoh, hlen, hwf, hrs, hac⟩ := hinv
    obtain ⟨hw2, hh2, hvv2, hk2, hlen2, hfields2⟩ := sameStatic_place h
    have hchar := place_update_char h hp
    obtain ⟨hclen, hco⟩ := hcoh
    obtain ⟨hx, hy, hxw, hyh⟩ := hco i hi
    have hidx : b.cell_index (b.cells.getD i default) = i := by
      unfold Board.cell_index
      rw [hx, hy, Nat.mul_comm (i / b.width) b.width]
      have := Nat.div_add_mod i b.width
      omega
    rw [hidx] at hchar
    obtain ⟨hunk, hcells, hfind, w2, l2, hwl, hpar⟩ := hchar
    set q1 := (if value = SLASH then
        b.vertex_index (b.cells.getD i default).x ((b.cells.getD i default).y + 1)
      else b.vertex_index (b.cells.getD i default).x (b.cells.getD i default).y) with hq1
    set q2 := (if value = SLASH then
        b.vertex_index ((b.cells.getD i default).x + 1) (b.cells.getD i default).y
      else b.vertex_index ((b.cells.getD i default).x + 1)
        ((b.cells.getD i default).y + 1)) with hq2
    unfold Board.find at hfind hwl
    have hq1l : q1 < b.parent.length := by
      rw [hlen, hq1]
      unfold Board.vertex_index
      split
      · nlinarith [hxw, hyh]
      · nlinarith [hxw, hyh]
    have hq2l : q2 < b.parent.length := by
      rw [hlen, hq2]
      unfold Board.vertex_index
      split
      · nlinarith [hxw, hyh]
      · nlinarith [hxw, hyh]
    have hspec1 := uf_find_spec hwf q1
    have hspec2 := uf_find_spec hwf q2
    have hw2l : w2 < b.parent.length := by
      rcases hwl with ⟨hww, _⟩ | ⟨hww, _⟩
      · rw [hww]
        exact hspec1.2.1 hq1l
      · rw [hww]
        exact hspec2.2.1 hq2l
    have hl2l : l2 < b.parent.length := by
      rcases hwl with ⟨_, hll⟩ | ⟨_, hll⟩
      · rw [hll]
        exact hspec2.2.1 hq2l
      · rw [hll]
        exact hspec1.2.1 hq1l
    have hw2r : IsRoot b.parent w2 := by
      rcases hwl with ⟨hww, _⟩ | ⟨hww, _⟩
      · rw [hww]
        exact hspec1.1
      · rw [hww]
        exact hspec2.1
    have hl2r : IsRoot b.parent l2 := by
      rcases hwl with ⟨_, hll⟩ | ⟨_, hll⟩
      · rw [hll]
        exact hspec2.1
      · rw [hll]
        exact hspec1.1
    have hne : w2 ≠ l2 := by
      rcases hwl with ⟨hww, hll⟩ | ⟨hww, hll⟩
      · rw [hww, hll]
        exact hfind
      · rw [hww, hll]
        exact fun he => hfind he.symm
    have hfs : ∀ z, uf_find r.1.parent z =
        if uf_find b.parent z = l2 then w2 else uf_find b.parent z := by
      rw [hpar]
      exact uf_find_set hwf hw2r hl2r hw2l hl2l hne
    have hm : ∀ p, p ∈ board_edges r.1 ↔ p ∈ board_edges b ∨ p = (q1, q2) := by
      rw [board_edges_eq, board_edges_eq, hcells, List.length_set]
      refine filterMap_range_update hi ?_ ?_ ?_
      · unfold board_edge_at
        dsimp only
        rw [if_pos hunk]
      · unfold board_edge_at
        dsimp only
        rw [hcells, getD_set_self b.cells i _ default hi]
        have hvne : ¬ ({ b.cells.getD i default with value := value }).value = UNKNOWN := by
          dsimp only
          rcases hv with rfl | rfl
          · decide
          · decide
        rw [if_neg hvne]
        rw [hq1, hq2]
        unfold Board.vertex_index
        dsimp only
        rw [hw2]
      · intro j hji
        unfold board_edge_at
        dsimp only
        rw [hcells, getD_set_other b.cells _ default (fun he => hji he.symm)]
        unfold Board.vertex_index
        rw [hw2]
    have hge : egraph (board_edges r.1) = egraph (board_edges b) ⊔ SimpleGraph.edge q1 q2 :=
      egraph_insert_eq hm
    have hreach : ∀ p q, (egraph (board_edges r.1)).Reachable p q →
        uf_find r.1.parent p = uf_find r.1.parent q := by
      intro p q hr2
      rw [hge] at hr2
      rw [hfs p, hfs q]
      rcases reachable_sup_edge_iff hr2 with h1 | ⟨h1, h2⟩ | ⟨h1, h2⟩
      · rw [hrs p q h1]
      · have e1 := hrs p q1 h1
        have e2 := hrs q2 q h2
        rcases hwl with ⟨hww, hll⟩ | ⟨hww, hll⟩
        · rw [e1, ← e2, ← hww, ← hll]
          rw [if_neg hne, if_pos rfl]
        · rw [e1, ← e2, ← hww, ← hll]
          rw [if_pos rfl, if_neg hne]
      · have e1 := hrs p q2 h1
        have e2 := hrs q1 q h2
        rcases hwl with ⟨hww, hll⟩ | ⟨hww, hll⟩
        · rw [e1, ← e2, ← hww, ← hll]
          rw [if_pos rfl, if_neg hne]
        · rw [e1, ← e2, ← hww, ← hll]
          rw [if_neg hne, if_pos rfl]
    refine ⟨⟨?_, ?_⟩, ?_, ?_, hreach, ?_⟩
    · rw [hcells, List.length_set, hw2, hh2, hclen]
    · intro j hj
      rw [hcells, List.length_set] at hj
      obtain ⟨hxj, hyj, hxwj, hyhj⟩ := hco j hj
      by_cases hji : j = i
      · subst hji
        rw [hcells, getD_set_self b.cells j _ default hj, hw2, hh2]
        exact ⟨hxj, hyj, hxwj, hyhj⟩
      · rw [hcells, getD_set_other b.cells _ default (fun he => hji he.symm), hw2, hh2]
        exact ⟨hxj, hyj, hxwj, hyhj⟩
    · rw [hpar, List.length_set, hw2, hh2]
      exact hlen
    · rw [hpar]
      exact ufwf_set hwf hw2r hl2r hw2l hl2l hne
    · rw [hge]
      refine isAcyclic_sup_edge hac ?_ ?_
      · intro hre
        exact hfind (hrs q1 q2 hre)
      · intro he
        exact hfind (by rw [he])
  · rcases place_result h with ⟨hr, _⟩ | ⟨hr2, _⟩
    · have : r.1 = b := by rw [hr]
      rw [this]
      exact hinv
    · exact absurd hr2 hp

/-- Steps that do not touch cells, parent or dimensions preserve the
acyclicity invariant. -/
theorem acyclicInv_frame {b b2 : Board} (hc : b2.cells = b.cells) (hpp : b2.parent = b.parent)
    (hw : b2.width = b.width) (hh : b2.height = b.height)
    (hinv : AcyclicInv b) : AcyclicInv b2 := by
  obtain ⟨⟨hclen, hco⟩, hlen, hwf, hrs, hac⟩ := hinv
  have hedges : board_edges b2 = board_edges b := board_edges_congr hc hw
  refine ⟨⟨?_, ?_⟩, ?_, ?_, ?_, ?_⟩
  · rw [hc, hw, hh]
    exact hclen
  · intro j hj
    rw [hc] at hj
    rw [hc, hw, hh]
    exact hco j hj
  · rw [hpp, hw, hh]
    exact hlen
  · rw [hpp]
    exact hwf
  · intro p q hr
    rw [hedges] at hr
    rw [hpp]
    exact hrs p q hr
  · rw [hedges]
    exact hac

/-- Every board step preserves the acyclicity invariant. -/
theorem acyclicInv_step {b b2 : Board} (hstep : BoardStep b b2) (hinv : AcyclicInv b) :
    AcyclicInv b2 := by
  cases hstep with
  | place hi hv h => exact acyclicInv_place hi hv h hinv
  | mark_equivalent h =>
    obtain ⟨hw, hh, _, _, _, _⟩ := sameStatic_mark h
    exact acyclicInv_frame (mark_cells h) (mark_parent h) hw hh hinv
  | vbitmap_clear cell bits =>
    obtain ⟨hw, hh, _, _, _, _⟩ := sameStatic_vbitmap_clear b cell bits
    exact acyclicInv_frame (vbitmap_clear_cells b cell bits)
      (vbitmap_clear_parent b cell bits) hw hh hinv

/-- A board whose cells are all unknown has no diagonal edges. -/
theorem board_edges_all_unknown {b : Board} (h : ∀ c ∈ b.cells, c.value = UNKNOWN) :
    board_edges b = [] := by
  rw [board_edges_eq, List.filterMap_eq_nil_iff]
  intro j hj
  rw [List.mem_range] at hj
  unfold board_edge_at
  dsimp only
  rw [if_pos]
  have hg : b.cells.getD j default = b.cells[j] := by
    simp [List.getD_eq_getElem?_getD, List.getElem?_eq_getElem hj]
  rw [hg]
  exact h _ (List.getElem_mem hj)

/-- `getD` over a mapped range. -/
theorem getD_range_map {α : Type} (f : Nat → α) {n j : Nat} (d : α) (hj : j < n) :
    ((List.range n).map f).getD j d = f j := by
  simp [List.getD_eq_getElem?_getD, List.getElem?_map, List.getElem?_range hj]

/-- Any board with all-unknown cells and an identity parent array satisfies
the acyclicity invariant. -/
theorem acyclicInv_of_parts {b : Board} (hcells : ∀ c ∈ b.cells, c.value = UNKNOWN)
    (hpar : b.parent = List.range ((b.width + 1) * (b.height + 1)))
    (hcoh : CellsCoherent b) : AcyclicInv b := by
  have hedges := board_edges_all_unknown hcells
  have hrange := ufwf_range ((b.width + 1) * (b.height + 1))
  refine ⟨hcoh, by rw [hpar, List.length_range], by rw [hpar]; exact hrange.1, ?_, ?_⟩
  · intro p q hr
    rw [hedges, egraph_nil] at hr
    rw [(SimpleGraph.reachable_bot.mp hr : p = q)]
  · rw [hedges, egraph_nil]
    exact SimpleGraph.isAcyclic_bot

/-- A freshly constructed board satisfies the acyclicity invariant: identity
union-find, no edges. -/
theorem acyclicInv_init {width height : Nat} {givens : List Char} {ks : Option (List Char)}
    {b : Board} (h : Board.init width height givens ks = .ok b) : AcyclicInv b := by
  unfold Board.init at h
  dsimp only at h
  split at h
  · cases h
  · cases h
    refine acyclicInv_of_parts ?_ rfl ⟨by simp, ?_⟩
    · intro c hc
      rw [List.mem_map] at hc
      obtain ⟨j, _, rfl⟩ := hc
      rfl
    · intro j hj
      simp only [List.length_map, List.length_range] at hj
      dsimp only
      rw [getD_range_map _ default hj]
      have hwpos : 0 < width := by
        rcases Nat.eq_zero_or_pos width with h0 | h0
        · rw [h0] at hj
          simp at hj
        · exact h0
      refine ⟨rfl, rfl, Nat.mod_lt j hwpos, ?_⟩
      exact Nat.div_lt_of_lt_mul (by omega)

/-- C3: acyclicity is an invariant.  (1) Every `place_value` that completes
with a placement performed a successful union: the two endpoint corners of
the placed diagonal had distinct UF_c roots.  (2) On every board reachable
from a constructed board by completed mutation steps — in particular every
SOLVED output — the diagonal graph on corners is acyclic (a forest). -/
theorem c3_acyclicity_invariant :
    (∀ (b : Board) (cell : Cell) (value : Nat) (r : Board × Bool),
      b.place_value cell value = .ok r → r.2 = true →
      b.find (if value = SLASH then b.vertex_index cell.x (cell.y + 1)
          else b.vertex_index cell.x cell.y) ≠
        b.find (if value = SLASH then b.vertex_index (cell.x + 1) cell.y
          else b.vertex_index (cell.x + 1) (cell.y + 1))) ∧
    (∀ (width height : Nat) (givens : List Char) (ks : Option (List Char)) (b0 b : Board),
      Board.init width height givens ks = .ok b0 → BoardReachable b0 b →
      (egraph (board_edges b)).IsAcyclic) := by
  constructor
  · intro b cell value r h hp
    exact (place_update_char h hp).2.2.1
  · intro width height givens ks b0 b hinit hreach
    have hinv : AcyclicInv b := by
      induction hreach with
      | refl => exact acyclicInv_init hinit
      | tail _ hstep ih => exact acyclicInv_step hstep ih
    exact hinv.2.2.2.2

/-- Concrete instance of `c3_acyclicity_invariant` on the 1×1 board: the
placement's endpoints had distinct roots, and the resulting board's diagonal
graph is acyclic. -/
theorem c3_acyclicity_invariant_witness :
    (demo_board_1.place_value (demo_board_1.cells.getD 0 default) SLASH =
        .ok (demo_board_1p, true) ∧
      demo_board_1.find (if SLASH = SLASH then
          demo_board_1.vertex_index (demo_board_1.cells.getD 0 default).x
            ((demo_board_1.cells.getD 0 default).y + 1)
        else demo_board_1.vertex_index (demo_board_1.cells.getD 0 default).x
          (demo_board_1.cells.getD 0 default).y) ≠
        demo_board_1.find (if SLASH = SLASH then
            demo_board_1.vertex_index ((demo_board_1.cells.getD 0 default).x + 1)
              (demo_board_1.cells.getD 0 default).y
          else demo_board_1.vertex_index ((demo_board_1.cells.getD 0 default).x + 1)
            ((demo_board_1.cells.getD 0 default).y + 1))) ∧
    (Board.init 1 1 ("d".toList) none = .ok demo_board_1 ∧
      BoardReachable demo_board_1 demo_board_1p ∧
      (egraph (board_edges demo_board_1p)).IsAcyclic) := by
  have hplace : demo_board_1.place_value (demo_board_1.cells.getD 0 default) SLASH =
      .ok (demo_board_1p, true) := by rfl
  have hreach : BoardReachable demo_board_1 demo_board_1p :=
    Relation.ReflTransGen.single (BoardStep.place (by decide) (Or.inl rfl) hplace)
  refine ⟨⟨hplace, c3_acyclicity_invariant.1 demo_board_1
      (demo_board_1.cells.getD 0 default) SLASH (demo_board_1p, true) hplace rfl⟩,
    ⟨by rfl, hreach,
      c3_acyclicity_invariant.2 1 1 ("d".toList) none demo_board_1 demo_board_1p
        (by rfl) hreach⟩⟩

/-- Generic invariant step shared by board placements and the generator:
adding edge `(e1, e2)` between classes with distinct roots and recording the
union keeps the union-find well-formed and dominating reachability, and the
graph acyclic. -/
theorem edge_union_inv {parent : List Nat} {es es2 : List (Nat × Nat)} {e1 e2 w2 l : Nat}
    (hwf : UFWf parent)
    (hrs : ∀ p q, (egraph es).Reachable p q → uf_find parent p = uf_find parent q)
    (hac : (egraph es).IsAcyclic)
    (hne : uf_find parent e1 ≠ uf_find parent e2)
    (hwl : (w2 = uf_find parent e1 ∧ l = uf_find parent e2) ∨
      (w2 = uf_find parent e2 ∧ l = uf_find parent e1))
    (he1 : e1 < parent.length) (he2 : e2 < parent.length)
    (hm : ∀ p, p ∈ es2 ↔ p ∈ es ∨ p = (e1, e2)) :
    UFWf (parent.set l w2) ∧
    (∀ p q, (egraph es2).Reachable p q →
      uf_find (parent.set l w2) p = uf_find (parent.set l w2) q) ∧
    (egraph es2).IsAcyclic := by
  have hs1 := uf_find_spec hwf e1
  have hs2 := uf_find_spec hwf e2
  have hw2r : IsRoot parent w2 := by
    rcases hwl with ⟨hww, _⟩ | ⟨hww, _⟩
    · rw [hww]
      exact hs1.1
    · rw [hww]
      exact hs2.1
  have hl2r : IsRoot parent l := by
    rcases hwl with ⟨_, hll⟩ | ⟨_, hll⟩
    · rw [hll]
      exact hs2.1
    · rw [hll]
      exact hs1.1
  have hw2l : w2 < parent.length := by
    rcases hwl with ⟨hww, _⟩ | ⟨hww, _⟩
    · rw [hww]
      exact hs1.2.1 he1
    · rw [hww]
      exact hs2.2.1 he2
  have hl2l : l < parent.length := by
    rcases hwl with ⟨_, hll⟩ | ⟨_, hll⟩
    · rw [hll]
      exact hs2.2.1 he2
    · rw [hll]
      exact hs1.2.1 he1
  have hnewl : w2 ≠ l := by
    rcases hwl with ⟨hww, hll⟩ | ⟨hww, hll⟩
    · rw [hww, hll]
      exact hne
    · rw [hww, hll]
      exact fun he => hne he.symm
  have hfs := uf_find_set hwf hw2r hl2r hw2l hl2l hnewl
  have hge : egraph es2 = egraph es ⊔ SimpleGraph.edge e1 e2 := egraph_insert_eq hm
  refine ⟨ufwf_set hwf hw2r hl2r hw2l hl2l hnewl, ?_, ?_⟩
  · intro p q hr2
    rw [hge] at hr2
    rw [hfs p, hfs q]
    rcases reachable_sup_edge_iff hr2 with h1 | ⟨h1, h2⟩ | ⟨h1, h2⟩
    · rw [hrs p q h1]
    · have hx1 := hrs p e1 h1
      have hx2 := hrs e2 q h2
      rcases hwl with ⟨hww, hll⟩ | ⟨hww, hll⟩
      · rw [hx1, ← hx2, ← hww, ← hll]
        rw [if_neg hnewl, if_pos rfl]
      · rw [hx1, ← hx2, ← hww, ← hll]
        rw [if_pos rfl, if_neg hnewl]
    · have hx1 := hrs p e2 h1
      have hx2 := hrs e1 q h2
      rcases hwl with ⟨hww, hll⟩ | ⟨hww, hll⟩
      · rw [hx1, ← hx2, ← hww, ← hll]
        rw [if_pos rfl, if_neg hnewl]
      · rw [hx1, ← hx2, ← hww, ← hll]
        rw [if_neg hnewl, if_pos rfl]
  · rw [hge]
    refine isAcyclic_sup_edge hac ?_ ?_
    · intro hre
      exact hne (hrs e1 e2 hre)
    · intro he
      exact hne (by rw [he])

/-- The highest corner index of cell `c` in the generator's vertex grid (its
bottom-right corner `(x+1, y+1)`). -/
def gen_thrc (w c : Nat) : Nat := (c / w + 1) * (w + 1) + c % w + 1

/-- All parent edges lie strictly below `m`. -/
def EdgeBelow (parent : List Nat) (m : Nat) : Prop :=
  ∀ k, parent.getD k k ≠ k → k < m ∧ parent.getD k k < m

/-- Upper bound on the edges present when the generator reaches cell `i`. -/
def gen_ebnd (w : Nat) : Nat → Nat
  | 0 => 0
  | c + 1 => gen_thrc w c + 1

/-- `gen_thrc` is strictly monotone in the cell index. -/
theorem gen_thrc_mono {w : Nat} (hw : 0 < w) {c1 c2 : Nat} (h : c1 < c2) :
    gen_thrc w c1 < gen_thrc w c2 := by
  unfold gen_thrc
  have hq : c1 / w ≤ c2 / w := Nat.div_le_div_right (le_of_lt h)
  have hr1 : c1 % w < w := Nat.mod_lt _ hw
  have hr2 : c2 % w < w := Nat.mod_lt _ hw
  rcases Nat.lt_or_ge (c1 / w) (c2 / w) with hlt | hge
  · have hstep : (c1 / w + 2) * (w + 1) ≤ (c2 / w + 1) * (w + 1) :=
      Nat.mul_le_mul_right _ (by omega)
    have hx1 : (c1 / w + 2) * (w + 1) = (c1 / w + 1) * (w + 1) + (w + 1) := by ring
    omega
  · have heq : c1 / w = c2 / w := le_antisymm hq hge
    have h1 := Nat.div_add_mod c1 w
    have h2 := Nat.div_add_mod c2 w
    rw [heq] at h1 ⊢
    omega

/-- All parent edges below a bound stay below any larger bound, and the
endpoints of a cell's diagonal are at most its bottom-right corner. -/
theorem gen_endpoints_le (w c v : Nat) (hw : 0 < w) :
    (gen_endpoints w c v).1 ≤ gen_thrc w c ∧ (gen_endpoints w c v).2 ≤ gen_thrc w c := by
  unfold gen_endpoints gen_vertex_index gen_thrc
  have hr : c % w < w := Nat.mod_lt _ hw
  have hx1 : (c / w + 1) * (w + 1) = (c / w) * (w + 1) + (w + 1) := by ring
  split
  · exact ⟨by dsimp only; omega, by dsimp only; omega⟩
  · exact ⟨by dsimp only; omega, by dsimp only; omega⟩

/-- The two endpoints of a cell's diagonal are distinct (the vertex rows or
columns differ). -/
theorem gen_endpoints_ne (w c v : Nat) (hw : 0 < w) :
    (gen_endpoints w c v).1 ≠ (gen_endpoints w c v).2 := by
  unfold gen_endpoints gen_vertex_index
  have hr : c % w < w := Nat.mod_lt _ hw
  have hx1 : (c / w + 1) * (w + 1) = (c / w) * (w + 1) + (w + 1) := by ring
  split
  · dsimp only
    intro he
    omega
  · dsimp only
    intro he
    omega

/-- Both endpoints fit in the vertex array. -/
theorem gen_endpoints_lt (w h c v : Nat) (hw : 0 < w) (hc : c < w * h) :
    (gen_endpoints w c v).1 < (w + 1) * (h + 1) ∧
      (gen_endpoints w c v).2 < (w + 1) * (h + 1) := by
  have hy : c / w < h := Nat.div_lt_of_lt_mul (by omega)
  have hr : c % w < w := Nat.mod_lt _ hw
  have hx1 : (c / w + 1) * (w + 1) = (c / w) * (w + 1) + (w + 1) := by ring
  have hmul : (c / w + 1) * (w + 1) ≤ h * (w + 1) := Nat.mul_le_mul_right _ (by omega)
  have hx2 : (w + 1) * (h + 1) = h * (w + 1) + (w + 1) := by ring
  unfold gen_endpoints gen_vertex_index
  split
  · exact ⟨by dsimp only; omega, by dsimp only; omega⟩
  · exact ⟨by dsimp only; omega, by dsimp only; omega⟩

/-- The bottom-right corner of the current cell is below the vertex count. -/
theorem gen_thrc_lt (w h c : Nat) (hw : 0 < w) (hc : c < w * h) :
    gen_thrc w c < (w + 1) * (h + 1) := by
  have hy : c / w < h := Nat.div_lt_of_lt_mul (by omega)
  have hr : c % w < w := Nat.mod_lt _ hw
  have hmul : (c / w + 1) * (w + 1) ≤ h * (w + 1) := Nat.mul_le_mul_right _ (by omega)
  have hx2 : (w + 1) * (h + 1) = h * (w + 1) + (w + 1) := by ring
  unfold gen_thrc
  omega

/-- The BACKSLASH far endpoint of cell `c` is exactly its bottom-right
corner. -/
theorem gen_endpoints_backslash_far (w c : Nat) :
    (gen_endpoints w c BACKSLASH).2 = gen_thrc w c := by
  unfold gen_endpoints gen_vertex_index gen_thrc
  rw [if_neg (by decide)]
  dsimp only
  omega

/-- The near endpoint of a BACKSLASH is strictly below the far corner. -/
theorem gen_endpoints_backslash_near (w c : Nat) :
    (gen_endpoints w c BACKSLASH).1 < gen_thrc w c := by
  unfold gen_endpoints gen_vertex_index gen_thrc
  rw [if_neg (by decide)]
  dsimp only
  have hx1 : (c / w + 1) * (w + 1) = (c / w) * (w + 1) + (w + 1) := by ring
  omega

/-- The edge bound is at most the current cell's far corner. -/
theorem gen_ebnd_le_thrc {w : Nat} (hw : 0 < w) (i : Nat) : gen_ebnd w i ≤ gen_thrc w i := by
  cases i with
  | zero => exact Nat.zero_le _
  | succ c => exact gen_thrc_mono hw (Nat.lt_succ_self c)

/-- On a well-formed parent array with all edges below `m`, every root is the
node itself or below `m`. -/
theorem uf_find_bound {parent : List Nat} (hwf : UFWf parent) {m : Nat}
    (heb : EdgeBelow parent m) (z : Nat) :
    uf_find parent z = z ∨ uf_find parent z < m := by
  rcases (uf_find_spec hwf z).2.2.cases_tail with he | ⟨c, _, hstep⟩
  · exact Or.inl he
  · obtain ⟨hpc, hcne⟩ := hstep
    have hnr : parent.getD c c ≠ c := by
      rw [hpc]
      exact fun he2 => hcne he2.symm
    have := (heb c hnr).2
    rw [hpc] at this
    exact Or.inr this

/-- The generator's invariant when it reaches cell `i`: a well-formed vertex
union-find whose edges involve only corners of earlier cells, a solution
array assigned exactly below `i`, and an acyclic diagonal graph dominated by
the union-find. -/
def GenInv (w h i : Nat) (parent sol : List Nat) : Prop :=
  UFWf parent ∧ parent.length = (w + 1) * (h + 1) ∧ EdgeBelow parent (gen_ebnd w i) ∧
  sol.length = w * h ∧
  (∀ j, i ≤ j → sol.getD j 0 = UNKNOWN) ∧
  (∀ j, j < i → sol.getD j 0 = SLASH ∨ sol.getD j 0 = BACKSLASH) ∧
  (∀ p q, (egraph (gen_solution_edges w sol)).Reachable p q →
    uf_find parent p = uf_find parent q) ∧
  (egraph (gen_solution_edges w sol)).IsAcyclic

/-- Characterization of the generator's union on distinct roots. -/
theorem gen_union_char (rank : List Nat) {parent : List Nat} {x y : Nat}
    (hne : uf_find parent x ≠ uf_find parent y) :
    ∃ w2 l, ((w2 = uf_find parent x ∧ l = uf_find parent y) ∨
      (w2 = uf_find parent y ∧ l = uf_find parent x)) ∧
      (gen_union parent rank x y).1 = parent.set l w2 := by
  unfold gen_union
  dsimp only
  rw [if_neg hne]
  by_cases hrk : rank.getD (uf_find parent x) 0 < rank.getD (uf_find parent y) 0
  · rw [if_pos hrk]
    exact ⟨uf_find parent y, uf_find parent x, Or.inr ⟨rfl, rfl⟩, rfl⟩
  · rw [if_neg hrk]
    exact ⟨uf_find parent x, uf_find parent y, Or.inl ⟨rfl, rfl⟩, rfl⟩

/-- The BACKSLASH orientation never closes a loop in row-major generation:
its far corner is still isolated. -/
theorem gen_backslash_free {w h i : Nat} {parent : List Nat} (hw : 0 < w) (hi : i < w * h)
    (hwf : UFWf parent) (hlen : parent.length = (w + 1) * (h + 1))
    (heb : EdgeBelow parent (gen_ebnd w i)) :
    gen_would_form_loop w parent i BACKSLASH = false := by
  unfold gen_would_form_loop
  dsimp only
  rw [decide_eq_false_iff_not]
  intro heq
  have hfar_ge : gen_ebnd w i ≤ gen_thrc w i := gen_ebnd_le_thrc hw i
  have hroot : IsRoot parent (gen_thrc w i) := by
    by_contra hnr
    have := (heb _ hnr).1
    omega
  have honly : ∀ k, uf_find parent k = gen_thrc w i → k = gen_thrc w i := by
    refine uf_find_only_self hwf hroot ?_
    intro k hk
    by_cases hkr : parent.getD k k = k
    · rw [← hk]
      exact hkr.symm
    · have := (heb k hkr).2
      rw [hk] at this
      omega
  rw [gen_endpoints_backslash_far] at heq
  rw [uf_find_root hroot] at heq
  have := honly _ heq
  have hnear := gen_endpoints_backslash_near w i
  omega

/-- Placing a non-looping orientation at cell `i` re-establishes the
generator invariant at cell `i + 1`. -/
theorem genInv_step {w h i : Nat} {parent rank sol : List Nat} {value : Nat}
    (hw : 0 < w) (hi : i < w * h) (hv : value = SLASH ∨ value = BACKSLASH)
    (hnl : gen_would_form_loop w parent i value = false)
    (hinv : GenInv w h i parent sol) :
    GenInv w h (i + 1) (gen_place w parent rank i value).1 (sol.set i value) := by
  obtain ⟨hwf, hlen, heb, hslen, hunk, hkn, hrs, hac⟩ := hinv
  have hne : uf_find parent (gen_endpoints w i value).1 ≠
      uf_find parent (gen_endpoints w i value).2 := by
    unfold gen_would_form_loop at hnl
    dsimp only at hnl
    rw [decide_eq_false_iff_not] at hnl
    exact hnl
  obtain ⟨w2, l, hwl, hpar⟩ := gen_union_char rank hne
  have hplace : (gen_place w parent rank i value).1 = parent.set l w2 := hpar
  have hep := gen_endpoints_lt w h i value hw hi
  have he1 : (gen_endpoints w i value).1 < parent.length := by
    rw [hlen]
    exact hep.1
  have he2 : (gen_endpoints w i value).2 < parent.length := by
    rw [hlen]
    exact hep.2
  have hm : ∀ p, p ∈ gen_solution_edges w (sol.set i value) ↔
      p ∈ gen_solution_edges w sol ∨
        p = ((gen_endpoints w i value).1, (gen_endpoints w i value).2) := by
    unfold gen_solution_edges
    rw [List.length_set]
    have hisl : i < sol.length := by
      rw [hslen]
      exact hi
    refine filterMap_range_update hisl ?_ ?_ ?_
    · rw [if_pos (hunk i (le_refl i))]
    · rw [getD_set_self sol i value 0 hisl]
      rw [if_neg ?_]
      rcases hv with rfl | rfl
      · decide
      · decide
    · intro j hji
      rw [getD_set_other sol value 0 (fun he => hji he.symm)]
  have hmain := edge_union_inv hwf hrs hac hne hwl he1 he2 hm
  have hbnd : ∀ z, z ≤ gen_thrc w i → uf_find parent z ≤ gen_thrc w i := by
    intro z hz
    rcases uf_find_bound hwf heb z with he | hlt
    · rw [he]
      exact hz
    · have := gen_ebnd_le_thrc hw i
      omega
  have hele := gen_endpoints_le w i value hw
  have hw2le : w2 ≤ gen_thrc w i := by
    rcases hwl with ⟨hww, _⟩ | ⟨hww, _⟩
    · rw [hww]
      exact hbnd _ hele.1
    · rw [hww]
      exact hbnd _ hele.2
  have hlle : l ≤ gen_thrc w i := by
    rcases hwl with ⟨_, hll⟩ | ⟨_, hll⟩
    · rw [hll]
      exact hbnd _ hele.2
    · rw [hll]
      exact hbnd _ hele.1
  have hll2 : l < parent.length := by
    rcases hwl with ⟨_, hll⟩ | ⟨_, hll⟩
    · rw [hll]
      exact (uf_find_spec hwf _).2.1 he2
    · rw [hll]
      exact (uf_find_spec hwf _).2.1 he1
  refine ⟨hplace ▸ hmain.1, ?_, ?_, ?_, ?_, ?_, ?_, hmain.2.2⟩
  · rw [hplace, List.length_set]
    exact hlen
  · rw [hplace]
    intro k hk
    show k < gen_thrc w i + 1 ∧ _ < gen_thrc w i + 1
    by_cases hkl : k = l
    · subst hkl
      rw [getD_set_self parent k w2 k hll2] at hk ⊢
      exact ⟨by omega, by omega⟩
    · have hne2 : l ≠ k := fun he => hkl he.symm
      rw [getD_set_other parent w2 k hne2] at hk ⊢
      obtain ⟨h1, h2⟩ := heb k hk
      have := gen_ebnd_le_thrc hw i
      exact ⟨by omega, by omega⟩
  · rw [List.length_set]
    exact hslen
  · intro j hj
    have hji : i ≠ j := by omega
    rw [getD_set_other sol value 0 hji]
    exact hunk j (by omega)
  · intro j hj
    by_cases hji : j = i
    · subst hji
      rw [getD_set_self sol j value 0 (by rw [hslen]; exact hi)]
      exact hv
    · have hne2 : i ≠ j := fun he => hji he.symm
      rw [getD_set_other sol value 0 hne2]
      exact hkn j (by omega)
  · rw [hplace]
    exact hmain.2.1

/-- The generator invariant holds at the start. -/
theorem genInv_init (w h : Nat) :
    GenInv w h 0 (List.range ((w + 1) * (h + 1))) (List.replicate (w * h) UNKNOWN) := by
  have hrange := ufwf_range ((w + 1) * (h + 1))
  have hedges : gen_solution_edges w (List.replicate (w * h) UNKNOWN) = [] := by
    unfold gen_solution_edges
    rw [List.filterMap_eq_nil_iff]
    intro j hj
    rw [if_pos]
    by_cases hjl : j < (List.replicate (w * h) UNKNOWN).length
    · rw [List.getD_eq_getElem?_getD, List.getElem?_eq_getElem hjl]
      simp [List.getElem_replicate]
    · rw [getD_oob _ _ _ (Nat.le_of_not_lt hjl)]
      rfl
  refine ⟨hrange.1, by rw [List.length_range], ?_, by rw [List.length_replicate], ?_, ?_, ?_, ?_⟩
  · intro k hk
    exact absurd (getD_range _ k) hk
  · intro j hj
    by_cases hjl : j < (List.replicate (w * h) UNKNOWN).length
    · rw [List.getD_eq_getElem?_getD, List.getElem?_eq_getElem hjl]
      simp [List.getElem_replicate]
    · rw [getD_oob _ _ _ (Nat.le_of_not_lt hjl)]
      rfl
  · intro j hj
    omega
  · intro p q hr
    rw [hedges, egraph_nil] at hr
    rw [(SimpleGraph.reachable_bot.mp hr : p = q)]
  · rw [hedges, egraph_nil]
    exact SimpleGraph.isAcyclic_bot

/-- The generator's backtracking loop, started at cell `i` with enough fuel
for the remaining cells, returns a full acyclic assignment (it never
backtracks: the BACKSLASH orientation is always available). -/
theorem gen_loop_completes (w h : Nat) (hw : 0 < w) :
    ∀ (n i : Nat), i + n = w * h →
    ∀ (parent rank sol : List Nat) (rng : List Bool)
      (stack : List (Nat × List Nat × List Nat)),
      GenInv w h i parent sol →
      ∃ sol2, generate_random_solution_loop w h (n + 1) ((i, parent, rank) :: stack) sol rng =
          some sol2 ∧
        sol2.length = w * h ∧
        (∀ j, j < w * h → sol2.getD j 0 = SLASH ∨ sol2.getD j 0 = BACKSLASH) ∧
        (egraph (gen_solution_edges w sol2)).IsAcyclic := by
  intro n
  induction n with
  | zero =>
    intro i hin parent rank sol rng stack hinv
    simp only [generate_random_solution_loop]
    rw [if_pos (by omega : i = w * h)]
    obtain ⟨_, _, _, hslen, _, hkn, _, hac⟩ := hinv
    exact ⟨sol, rfl, hslen, fun j hj => hkn j (by omega), hac⟩
  | succ n ih =>
    intro i hin parent rank sol rng stack hinv
    have hi : i < w * h := by omega
    have hbs : gen_would_form_loop w parent i BACKSLASH = false :=
      gen_backslash_free hw hi hinv.1 hinv.2.1 hinv.2.2.1
    simp only [generate_random_solution_loop]
    rw [if_neg (by omega : ¬ i = w * h)]
    split
    · rename_i value hfind
      have hvp := List.find?_some hfind
      have hvmem := List.mem_of_find?_eq_some hfind
      have hnl : gen_would_form_loop w parent i value = false := by
        simp only [decide_eq_true_eq] at hvp
        rw [Bool.not_eq_true] at hvp
        exact hvp
      have hvv : value = SLASH ∨ value = BACKSLASH := by
        by_cases hrh : rng.headD false = true
        · rw [if_pos hrh] at hvmem
          simp only [List.mem_cons, List.not_mem_nil, or_false] at hvmem
          exact hvmem.symm
        · rw [if_neg hrh] at hvmem
          simp only [List.mem_cons, List.not_mem_nil, or_false] at hvmem
          exact hvmem
      exact ih (i + 1) (by omega) (gen_place w parent rank i value).1
        (gen_place w parent rank i value).2.1 (sol.set i value) rng.tail stack
        (genInv_step hw hi hvv hnl hinv)
    · rename_i hfind
      exfalso
      rw [List.find?_eq_none] at hfind
      have hbmem : BACKSLASH ∈ (if rng.headD false then [BACKSLASH, SLASH]
          else [SLASH, BACKSLASH]) := by
        split <;> simp
      have hcontra := hfind _ hbmem
      apply hcontra
      rw [hbs]
      decide

/-- C5: random acyclic full-assignment generation always completes.  For
every width and height at least 1, every random choice stream, and fuel
covering the W·H cells, `generate_random_solution` returns a full assignment
(never `none`): every cell carries an orientation, and the diagonal graph on
the corner lattice is acyclic — in row-major order at least one orientation
(in particular BACKSLASH, whose far corner is still untouched) never closes a
cycle. -/
theorem c5_generator_completes (width height : Nat) (hw : 1 ≤ width) (hh : 1 ≤ height)
    (rng : List Bool) :
    ∃ sol, generate_random_solution width height rng (width * height + 1) = some sol ∧
      sol.length = width * height ∧
      (∀ j, j < width * height → sol.getD j 0 = SLASH ∨ sol.getD j 0 = BACKSLASH) ∧
      (egraph (gen_solution_edges width sol)).IsAcyclic := by
  unfold generate_random_solution
  dsimp only
  exact gen_loop_completes width height hw (width * height) 0 (by omega)
    (List.range ((width + 1) * (height + 1)))
    (List.replicate ((width + 1) * (height + 1)) 0)
    (List.replicate (width * height) UNKNOWN) rng [] (genInv_init width height)

/-- Concrete instance of `c5_generator_completes` on the 1×1 grid with an
empty random stream. -/
theorem c5_generator_completes_witness :
    1 ≤ 1 ∧
    ∃ sol, generate_random_solution 1 1 [] (1 * 1 + 1) = some sol ∧
      sol.length = 1 * 1 ∧
      (∀ j, j < 1 * 1 → sol.getD j 0 = SLASH ∨ sol.getD j 0 = BACKSLASH) ∧
      (egraph (gen_solution_edges 1 sol)).IsAcyclic :=
  ⟨le_refl 1, c5_generator_completes 1 1 (le_refl 1) (le_refl 1) []⟩

/-- `_decr_exits` leaves the border flags unchanged. -/
theorem decr_border (b : Board) (vx vy : Int) : (b.decr_exits vx vy).border = b.border := by
  unfold Board.decr_exits
  split
  · rfl
  · split <;> rfl

/-- `set_equivalence_class_value` leaves exits and border unchanged. -/
theorem secv_exits_border (b : Board) (cell : Cell) (value : Nat) :
    (b.set_equivalence_class_value cell value).exits = b.exits ∧
    (b.set_equivalence_class_value cell value).border = b.border :=
  ⟨rfl, rfl⟩

/-- C6: exit/border bookkeeping.  (1) A union of two classes with distinct
roots reports success and writes `exits(rx)+exits(ry)−2` and
`border(rx) ∨ border(ry)` at the surviving root.  (2) `_decr_exits` leaves a
clued corner's class untouched and decrements an unclued corner's class
exits by exactly 1 (at its root).  (3) A progressing placement performs
exactly this: its exits are those of the union result after decrementing the
two non-endpoint corners of the cell, and its border flags are the union
result's. -/
theorem c6_exits_border_bookkeeping :
    (∀ (b : Board) (x y : Nat), b.find x ≠ b.find y →
      (b.union x y).2 = true ∧
      ∃ w2, (w2 = b.find x ∨ w2 = b.find y) ∧
        (b.union x y).1.exits = b.exits.set w2
          (b.exits.getD (b.find x) 0 + b.exits.getD (b.find y) 0 - 2) ∧
        (b.union x y).1.border = b.border.set w2
          (b.border.getD (b.find x) false || b.border.getD (b.find y) false)) ∧
    (∀ (b : Board) (vx vy : Int) (v : Vertex), b.get_vertex vx vy = some v →
      (v.clue ≠ none → b.decr_exits vx vy = b) ∧
      (v.clue = none → (b.decr_exits vx vy).exits = b.exits.set
        (uf_find b.parent (b.vertex_index vx.toNat vy.toNat))
        (b.exits.getD (uf_find b.parent (b.vertex_index vx.toNat vy.toNat)) 0 - 1))) ∧
    (∀ (b : Board) (cell : Cell) (value : Nat) (r : Board × Bool),
      b.place_value cell value = .ok r → r.2 = true →
      ∃ b1, b.union (if value = SLASH then b.vertex_index cell.x (cell.y + 1)
          else b.vertex_index cell.x cell.y)
          (if value = SLASH then b.vertex_index (cell.x + 1) cell.y
            else b.vertex_index (cell.x + 1) (cell.y + 1)) = (b1, true) ∧
        r.1.exits = ((b1.decr_exits
            (if value = SLASH then ((cell.x : Int), (cell.y : Int))
              else ((cell.x : Int) + 1, (cell.y : Int))).1
            (if value = SLASH then ((cell.x : Int), (cell.y : Int))
              else ((cell.x : Int) + 1, (cell.y : Int))).2).decr_exits
            (if value = SLASH then ((cell.x : Int) + 1, (cell.y : Int) + 1)
              else ((cell.x : Int), (cell.y : Int) + 1)).1
            (if value = SLASH then ((cell.x : Int) + 1, (cell.y : Int) + 1)
              else ((cell.x : Int), (cell.y : Int) + 1)).2).exits ∧
        r.1.border = ((b1.decr_exits
            (if value = SLASH then ((cell.x : Int), (cell.y : Int))
              else ((cell.x : Int) + 1, (cell.y : Int))).1
            (if value = SLASH then ((cell.x : Int), (cell.y : Int))
              else ((cell.x : Int) + 1, (cell.y : Int))).2).decr_exits
            (if value = SLASH then ((cell.x : Int) + 1, (cell.y : Int) + 1)
              else ((cell.x : Int), (cell.y : Int) + 1)).1
            (if value = SLASH then ((cell.x : Int) + 1, (cell.y : Int) + 1)
              else ((cell.x : Int), (cell.y : Int) + 1)).2).border ∧
        r.1.border = b1.border) := by
  refine ⟨?_, ?_, ?_⟩
  · intro b x y hne
    unfold Board.union
    dsimp only
    rw [if_neg hne]
    refine ⟨rfl, ?_⟩
    by_cases hrk : b.rank.getD (b.find x) 0 < b.rank.getD (b.find y) 0
    · rw [if_pos hrk]
      exact ⟨b.find y, Or.inr rfl, rfl, rfl⟩
    · rw [if_neg hrk]
      exact ⟨b.find x, Or.inl rfl, rfl, rfl⟩
  · intro b vx vy v hv
    unfold Board.decr_exits
    rw [hv]
    dsimp only
    constructor
    · intro hclue
      rw [if_pos hclue]
    · intro hclue
      rw [if_neg (by rw [hclue]; exact fun hc => hc rfl)]
  · intro b cell value r h hp
    unfold Board.place_value at h
    simp only [Bind.bind, Except.bind, pure, Except.pure] at h
    split at h
    · cases h
      cases hp
    · split at h
      · simp [throw, throwThe, MonadExceptOf.throw] at h
      · rename_i b1 hu
        split at h
        · simp [throw, throwThe, MonadExceptOf.throw] at h
        · rename_i new_cell hsv
          cases h
          refine ⟨b1, hu, ?_, ?_, ?_⟩
          · dsimp only
            rw [(secv_exits_border _ _ _).1]
          · dsimp only
            rw [(secv_exits_border _ _ _).2]
          · dsimp only
            rw [(secv_exits_border _ _ _).2]
            dsimp only
            rw [decr_border, decr_border]

/-- Concrete instance of `c6_exits_border_bookkeeping`: on the unclued 1×1
board, uniting the classes of corners 0 and 1 merges 4+4−2 = 6 exits onto the
winner and keeps the border flag. -/
theorem c6_exits_border_bookkeeping_witness :
    demo_board_1.find 0 ≠ demo_board_1.find 1 ∧
    ((demo_board_1.union 0 1).2 = true ∧
      ∃ w2, (w2 = demo_board_1.find 0 ∨ w2 = demo_board_1.find 1) ∧
        (demo_board_1.union 0 1).1.exits = demo_board_1.exits.set w2
          (demo_board_1.exits.getD (demo_board_1.find 0) 0 +
            demo_board_1.exits.getD (demo_board_1.find 1) 0 - 2) ∧
        (demo_board_1.union 0 1).1.border = demo_board_1.border.set w2
          (demo_board_1.border.getD (demo_board_1.find 0) false ||
            demo_board_1.border.getD (demo_board_1.find 1) false)) :=
  ⟨by decide, c6_exits_border_bookkeeping.1 demo_board_1 0 1 (by decide)⟩

/-! ### The clue-count bridge: `count_touches` versus `compute_vertex_clues` -/

/-- `getD` on the left part of an append. -/
theorem getD_append_left {α : Type} (l1 l2 : List α) (i : Nat) (d : α) (h : i < l1.length) :
    (l1 ++ l2).getD i d = l1.getD i d := by
  simp [List.getD_eq_getElem?_getD, List.getElem?_append_left h]

/-- `getD` past the left part of an append. -/
theorem getD_append_skip {α : Type} (l1 l2 : List α) (i : Nat) (d : α) :
    (l1 ++ l2).getD (l1.length + i) d = l2.getD i d := by
  simp [List.getD_eq_getElem?_getD, List.getElem?_append_right (Nat.le_add_right _ _),
    Nat.add_sub_cancel_left]

/-- Row-major indexing into a flattened grid of mapped ranges. -/
theorem flatten_grid_getD {α : Type} (n : Nat) (d : α) :
    ∀ (m : Nat) (f : Nat → Nat → α) (r c : Nat), r < m → c < n →
      (((List.range m).map (fun i => (List.range n).map (f i))).flatten).getD (r * n + c) d
        = f r c := by
  intro m
  induction m with
  | zero =>
    intro f r c hr hc
    exact absurd hr (Nat.not_lt_zero r)
  | succ m ih =>
    intro f r c hr hc
    rw [List.range_succ_eq_map, List.map_cons, List.flatten_cons]
    cases r with
    | zero =>
      rw [Nat.zero_mul, Nat.zero_add]
      rw [getD_append_left _ _ c d (by simpa using hc)]
      exact getD_range_map (f 0) d hc
    | succ r2 =>
      have hlen1 : ((List.range n).map (f 0)).length = n := by simp
      have hskip := getD_append_skip ((List.range n).map (f 0))
        (((List.range m).map Nat.succ).map (fun i => (List.range n).map (f i))).flatten
        (r2 * n + c) d
      rw [hlen1] at hskip
      have hidx : r2.succ * n + c = n + (r2 * n + c) := by
        rw [Nat.succ_mul]
        omega
      rw [hidx, hskip, List.map_map]
      exact ih (fun i => f (i + 1)) r2 c (by omega) hc

/-- Inversion of a successful `get_cell`: the coordinates were in range and
the cell is the row-major entry. -/
theorem get_cell_inv {b : Board} {x y : Int} {c : Cell} (h : b.get_cell x y = some c) :
    0 ≤ x ∧ x < b.width ∧ 0 ≤ y ∧ y < b.height ∧
    c = b.cells.getD (y.toNat * b.width + x.toNat) default := by
  unfold Board.get_cell at h
  split at h
  · rename_i hcond
    injection h with h
    exact ⟨hcond.1, hcond.2.1, hcond.2.2.1, hcond.2.2.2, h.symm⟩
  · cases h

/-- Inversion of a failing `get_cell`. -/
theorem get_cell_none {b : Board} {x y : Int} (h : b.get_cell x y = none) :
    ¬ (0 ≤ x ∧ x < b.width ∧ 0 ≤ y ∧ y < b.height) := by
  unfold Board.get_cell at h
  split at h
  · cases h
  · rename_i hcond
    exact hcond

/-- Row-major cell indices are in range. -/
theorem cell_idx_lt {b : Board} {x y : Int} (hlen : b.cells.length = b.width * b.height)
    (h0x : 0 ≤ x) (hxw : x < b.width) (h0y : 0 ≤ y) (hyh : y < b.height) :
    y.toNat * b.width + x.toNat < b.cells.length := by
  obtain ⟨h2, hh2⟩ : ∃ h2, b.height = h2 + 1 := ⟨b.height - 1, by omega⟩
  have hyn : y.toNat ≤ h2 := by omega
  have hxn : x.toNat < b.width := by omega
  have hm : y.toNat * b.width ≤ h2 * b.width := Nat.mul_le_mul_right _ hyn
  have hx2 : b.width * (h2 + 1) = h2 * b.width + b.width := by ring
  rw [hlen, hh2]
  omega

/-- Every adjacent-cell entry of a vertex is a live, indexed cell. -/
theorem adjacent_cell_index {b : Board} {v : Vertex} {t : Cell × Bool × Bool}
    (hlen : b.cells.length = b.width * b.height)
    (ht : t ∈ b.get_adjacent_cells_for_vertex v) :
    ∃ j, j < b.cells.length ∧ t.1 = b.cells.getD j default := by
  unfold Board.get_adjacent_cells_for_vertex at ht
  simp only [List.mem_append] at ht
  rcases ht with ((h1 | h1) | h1) | h1 <;>
  · split at h1
    · rename_i cc hc
      obtain ⟨h0x, hxw, h0y, hyh, hcc⟩ := get_cell_inv hc
      simp only [List.mem_cons, List.not_mem_nil, or_false] at h1
      subst h1
      exact ⟨_, cell_idx_lt hlen h0x hxw h0y hyh, hcc⟩
    · simp at h1

/-- The `count_touches` fold over decided cells counts the touching
orientations and leaves no unknowns. -/
theorem count_touches_foldl_decided :
    ∀ (l : List (Cell × Bool × Bool)) (a1 a2 : Nat),
      (∀ t ∈ l, t.1.value ≠ UNKNOWN) →
      l.foldl (fun acc t =>
        let (cell, slash_touches, backslash_touches) := t
        if cell.value = UNKNOWN then (acc.1, acc.2 + 1)
        else if cell.value = SLASH ∧ slash_touches then (acc.1 + 1, acc.2)
        else if cell.value = BACKSLASH ∧ backslash_touches then (acc.1 + 1, acc.2)
        else acc) (a1, a2) =
      (a1 + (l.map (fun t =>
        if t.1.value = SLASH ∧ t.2.1 = true then (1 : Nat)
        else if t.1.value = BACKSLASH ∧ t.2.2 = true then 1 else 0)).sum, a2) := by
  intro l
  induction l with
  | nil =>
    intro a1 a2 _
    simp
  | cons t ts ih =>
    intro a1 a2 hdec
    rw [List.foldl_cons, List.map_cons, List.sum_cons]
    obtain ⟨cc, st, bt⟩ := t
    have hne := hdec (cc, st, bt) (List.mem_cons_self _ _)
    dsimp only at hne ⊢
    rw [if_neg hne]
    by_cases h1 : cc.value = SLASH ∧ st = true
    · rw [if_pos h1, if_pos h1]
      rw [ih _ _ (fun t2 ht2 => hdec t2 (List.mem_cons_of_mem _ ht2))]
      simp only [Prod.mk.injEq]
      exact ⟨by omega, trivial⟩
    · rw [if_neg h1, if_neg h1]
      by_cases h2 : cc.value = BACKSLASH ∧ bt = true
      · rw [if_pos h2, if_pos h2]
        rw [ih _ _ (fun t2 ht2 => hdec t2 (List.mem_cons_of_mem _ ht2))]
        simp only [Prod.mk.injEq]
        exact ⟨by omega, trivial⟩
      · rw [if_neg h2, if_neg h2]
        rw [ih _ _ (fun t2 ht2 => hdec t2 (List.mem_cons_of_mem _ ht2))]
        simp only [Prod.mk.injEq]
        exact ⟨by omega, trivial⟩

/-- Sum of touch indicators over one optional adjacent-cell slot. -/
theorem slot_sum (b : Board) (x y : Int) (st bt : Bool) :
    ((match b.get_cell x y with
      | some c => [(c, st, bt)]
      | none => ([] : List (Cell × Bool × Bool))).map (fun (t : Cell × Bool × Bool) =>
        if t.1.value = SLASH ∧ t.2.1 = true then (1 : Nat)
        else if t.1.value = BACKSLASH ∧ t.2.2 = true then 1 else 0)).sum =
    (match b.get_cell x y with
    | some c => if c.value = SLASH ∧ st = true then (1 : Nat)
        else if c.value = BACKSLASH ∧ bt = true then 1 else 0
    | none => 0) := by
  cases b.get_cell x y <;> simp

/-- The first component of `count_touches` at an in-grid vertex of a fully
decided board is the four-corner touch formula of the cell array (the same
expression `compute_vertex_clues` evaluates on the solution list). -/
theorem count_touches_formula {b : Board} (vx vy : Nat) (c : Option Nat)
    (hvx : vx ≤ b.width) (hvy : vy ≤ b.height)
    (hlen : b.cells.length = b.width * b.height)
    (hdec : ∀ j, j < b.cells.length → (b.cells.getD j default).value ≠ UNKNOWN) :
    (b.count_touches ⟨vx, vy, c⟩).1 =
      (if vx > 0 ∧ vy > 0 ∧
          (b.cells.getD ((vy - 1) * b.width + (vx - 1)) default).value = BACKSLASH
        then 1 else 0) +
      (if vx < b.width ∧ vy > 0 ∧
          (b.cells.getD ((vy - 1) * b.width + vx) default).value = SLASH
        then 1 else 0) +
      (if vx > 0 ∧ vy < b.height ∧
          (b.cells.getD (vy * b.width + (vx - 1)) default).value = SLASH
        then 1 else 0) +
      (if vx < b.width ∧ vy < b.height ∧
          (b.cells.getD (vy * b.width + vx) default).value = BACKSLASH
        then 1 else 0) := by
  have hmem : ∀ t ∈ b.get_adjacent_cells_for_vertex ⟨vx, vy, c⟩, t.1.value ≠ UNKNOWN := by
    intro t ht
    obtain ⟨j, hj, hjc⟩ := adjacent_cell_index hlen ht
    rw [hjc]
    exact hdec j hj
  unfold Board.count_touches
  rw [count_touches_foldl_decided _ 0 0 hmem]
  dsimp only
  rw [Nat.zero_add]
  unfold Board.get_adjacent_cells_for_vertex
  dsimp only
  rw [List.map_append, List.map_append, List.map_append,
    List.sum_append, List.sum_append, List.sum_append]
  rw [slot_sum, slot_sum, slot_sum, slot_sum]
  have hm1 : (match b.get_cell ((vx : Int) - 1) ((vy : Int) - 1) with
      | some cc => if cc.value = SLASH ∧ false = true then (1 : Nat)
          else if cc.value = BACKSLASH ∧ true = true then 1 else 0
      | none => 0) =
      (if vx > 0 ∧ vy > 0 ∧
          (b.cells.getD ((vy - 1) * b.width + (vx - 1)) default).value = BACKSLASH
        then 1 else 0) := by
    cases hc : b.get_cell ((vx : Int) - 1) ((vy : Int) - 1) with
    | none =>
      have hcond := get_cell_none hc
      rw [if_neg]
      intro ⟨hvx0, hvy0, _⟩
      exact hcond ⟨by omega, by omega, by omega, by omega⟩
    | some cc =>
      obtain ⟨h0x, hxw, h0y, hyh, hcc⟩ := get_cell_inv hc
      have hvx0 : 0 < vx := by omega
      have hvy0 : 0 < vy := by omega
      have hxt : ((vx : Int) - 1).toNat = vx - 1 := by omega
      have hyt : ((vy : Int) - 1).toNat = vy - 1 := by omega
      rw [hxt, hyt] at hcc
      subst hcc
      dsimp only
      rw [if_neg (by simp)]
      by_cases hval : (b.cells.getD ((vy - 1) * b.width + (vx - 1)) default).value = BACKSLASH
      · rw [if_pos ⟨hval, rfl⟩, if_pos ⟨hvx0, hvy0, hval⟩]
      · rw [if_neg (fun hh => hval hh.1), if_neg (fun hh => hval hh.2.2)]
  have hm2 : (match b.get_cell (vx : Int) ((vy : Int) - 1) with
      | some cc => if cc.value = SLASH ∧ true = true then (1 : Nat)
          else if cc.value = BACKSLASH ∧ false = true then 1 else 0
      | none => 0) =
      (if vx < b.width ∧ vy > 0 ∧
          (b.cells.getD ((vy - 1) * b.width + vx) default).value = SLASH
        then 1 else 0) := by
    cases hc : b.get_cell (vx : Int) ((vy : Int) - 1) with
    | none =>
      have hcond := get_cell_none hc
      rw [if_neg]
      intro ⟨hvxw, hvy0, _⟩
      exact hcond ⟨by omega, by omega, by omega, by omega⟩
    | some cc =>
      obtain ⟨h0x, hxw, h0y, hyh, hcc⟩ := get_cell_inv hc
      have hvxw : vx < b.width := by omega
      have hvy0 : 0 < vy := by omega
      have hxt : ((vx : Int)).toNat = vx := by omega
      have hyt : ((vy : Int) - 1).toNat = vy - 1 := by omega
      rw [hxt, hyt] at hcc
      subst hcc
      dsimp only
      by_cases hval : (b.cells.getD ((vy - 1) * b.width + vx) default).value = SLASH
      · rw [if_pos ⟨hval, rfl⟩, if_pos ⟨hvxw, hvy0, hval⟩]
      · rw [if_neg (fun hh => hval hh.1), if_neg (by simp),
          if_neg (fun hh => hval hh.2.2)]
  have hm3 : (match b.get_cell ((vx : Int) - 1) (vy : Int) with
      | some cc => if cc.value = SLASH ∧ true = true then (1 : Nat)
          else if cc.value = BACKSLASH ∧ false = true then 1 else 0
      | none => 0) =
      (if vx > 0 ∧ vy < b.height ∧
          (b.cells.getD (vy * b.width + (vx - 1)) default).value = SLASH
        then 1 else 0) := by
    cases hc : b.get_cell ((vx : Int) - 1) (vy : Int) with
    | none =>
      have hcond := get_cell_none hc
      rw [if_neg]
      intro ⟨hvx0, hvyh, _⟩
      exact hcond ⟨by omega, by omega, by omega, by omega⟩
    | some cc =>
      obtain ⟨h0x, hxw, h0y, hyh, hcc⟩ := get_cell_inv hc
      have hvx0 : 0 < vx := by omega
      have hvyh : vy < b.height := by omega
      have hxt : ((vx : Int) - 1).toNat = vx - 1 := by omega
      have hyt : ((vy : Int)).toNat = vy := by omega
      rw [hxt, hyt] at hcc
      subst hcc
      dsimp only
      by_cases hval : (b.cells.getD (vy * b.width + (vx - 1)) default).value = SLASH
      · rw [if_pos ⟨hval, rfl⟩, if_pos ⟨hvx0, hvyh, hval⟩]
      · rw [if_neg (fun hh => hval hh.1), if_neg (by simp),
          if_neg (fun hh => hval hh.2.2)]
  have hm4 : (match b.get_cell (vx : Int) (vy : Int) with
      | some cc => if cc.value = SLASH ∧ false = true then (1 : Nat)
          else if cc.value = BACKSLASH ∧ true = true then 1 else 0
      | none => 0) =
      (if vx < b.width ∧ vy < b.height ∧
          (b.cells.getD (vy * b.width + vx) default).value = BACKSLASH
        then 1 else 0) := by
    cases hc : b.get_cell (vx : Int) (vy : Int) with
    | none =>
      have hcond := get_cell_none hc
      rw [if_neg]
      intro ⟨hvxw, hvyh, _⟩
      exact hcond ⟨by omega, by omega, by omega, by omega⟩
    | some cc =>
      obtain ⟨h0x, hxw, h0y, hyh, hcc⟩ := get_cell_inv hc
      have hvxw : vx < b.width := by omega
      have hvyh : vy < b.height := by omega
      have hxt : ((vx : Int)).toNat = vx := by omega
      have hyt : ((vy : Int)).toNat = vy := by omega
      rw [hxt, hyt] at hcc
      subst hcc
      dsimp only
      rw [if_neg (by simp)]
      by_cases hval : (b.cells.getD (vy * b.width + vx) default).value = BACKSLASH
      · rw [if_pos ⟨hval, rfl⟩, if_pos ⟨hvxw, hvyh, hval⟩]
      · rw [if_neg (fun hh => hval hh.1), if_neg (fun hh => hval hh.2.2)]
  rw [hm1, hm2, hm3, hm4]

/-- An in-range `getD` is a member. -/
theorem getD_mem {α : Type} [Inhabited α] (l : List α) {j : Nat} (hj : j < l.length) :
    l.getD j default ∈ l := by
  have hg : l.getD j default = l[j] := by
    simp [List.getD_eq_getElem?_getD, List.getElem?_eq_getElem hj]
  rw [hg]
  exact List.getElem_mem hj

/-- Reading the rendered solution string back as values recovers the cell
values of a fully decided board. -/
theorem string_values_getD {b : Board}
    (hcells : ∀ cc ∈ b.cells, cc.value = SLASH ∨ cc.value = BACKSLASH)
    {j : Nat} (hj : j < b.cells.length) :
    (string_to_values (b.to_solution_string)).getD j 0 = (b.cells.getD j default).value := by
  unfold string_to_values Board.to_solution_string
  rw [List.map_map]
  simp only [List.getD_eq_getElem?_getD, List.getElem?_map, List.getElem?_eq_getElem hj]
  simp only [Option.map_some', Option.getD_some, Function.comp]
  rcases hcells _ (List.getElem_mem hj) with hv | hv
  · simp only [hv]
    decide
  · simp only [hv]
    decide

/-- The vertices of a constructed board carry exactly the decoded givens,
row-major. -/
theorem init_vertices {width height : Nat} {givens : List Char} {ks : Option (List Char)}
    {b : Board} (h : Board.init width height givens ks = .ok b) :
    b.vertices.length = (width + 1) * (height + 1) ∧
    ∀ k, k < (width + 1) * (height + 1) →
      b.vertices.getD k default =
        ⟨k % (width + 1), k / (width + 1), (decode_givens givens).getD k none⟩ := by
  unfold Board.init at h
  dsimp only at h
  split at h
  · cases h
  · cases h
    refine ⟨by simp, ?_⟩
    intro k hk
    dsimp only
    rw [getD_range_map _ default hk]

/-- Row-major cell indices are below the cell count. -/
theorem row_major_lt {x y w h : Nat} (hx : x < w) (hy : y < h) : y * w + x < w * h := by
  obtain ⟨h2, rfl⟩ : ∃ h2, h = h2 + 1 := ⟨h - 1, by omega⟩
  have hm : y * w ≤ h2 * w := Nat.mul_le_mul_right _ (by omega)
  have hx2 : w * (h2 + 1) = h2 * w + w := by ring
  omega

/-- C1: whenever solver_PR returns status "solved", the returned solution
string is complete and correct — it has one character per cell of the W×H
grid, every character is an orientation ('/' or a backslash, never '.'), and
every corner that the input clue string declares clued is touched by exactly
its clue many diagonals of the returned assignment (touch counts computed
from the returned string itself, clues from the decoded givens). -/
theorem c1_solved_complete_and_correct (givens : List Char) (width height : Nat)
    (ks : Option (List Char)) (fg : Bool) (mt : Nat) (sol : List Char) (work tier : Nat)
    (h : solve_PR givens width height ks fg mt = .ok ("solved", sol, work, tier)) :
    sol.length = width * height ∧ (∀ ch ∈ sol, ch = '/' ∨ ch = '\x5c') ∧
    ∀ k clue, k < (width + 1) * (height + 1) →
      (decode_givens givens).getD k none = some clue →
      (compute_vertex_clues width height (string_to_values sol)).getD k 0 = clue := by
  unfold solve_PR at h
  split at h
  · cases h
  · rename_i board hinit
    dsimp only at h
    set r3 := solve_PR_loop (RULES_PR.filter
      (fun r => r.2.2.1 ≤ if fg = true then min mt 2 else mt)) 1000 board 0 0 with hr3
    injection h with h
    injection h with hstat hrest
    injection hrest with hsol hrest2
    obtain ⟨hiw, hih, hilen, hio3⟩ := init_ok_fields hinit
    obtain ⟨hvl, hvk⟩ := init_vertices hinit
    have hloop : solve_PR_loop (RULES_PR.filter
        (fun r => r.2.2.1 ≤ if fg = true then min mt 2 else mt)) 1000 board 0 0 =
        ("solved", r3.2.1, r3.2.2.1, r3.2.2.2) := by
      rw [← hr3, ← hstat]
    obtain ⟨hvs, hss, ho3⟩ := solve_PR_loop_solved _ 1000 board 0 0 _ _ _ hloop
    obtain ⟨hcells, hclues⟩ := is_valid_solution_props hvs (ho3 hio3)
    obtain ⟨hw2, hh2, hvv2, hk2, hlen2, hfields2⟩ := hss
    have hBlen : r3.2.1.cells.length = width * height := by
      rw [hlen2, hilen]
    refine ⟨?_, ?_, ?_⟩
    · rw [← hsol]
      unfold Board.to_solution_string
      rw [List.length_map, hBlen]
    · intro ch hch
      rw [← hsol] at hch
      unfold Board.to_solution_string at hch
      rw [List.mem_map] at hch
      obtain ⟨cc, hc, rfl⟩ := hch
      rcases hcells cc hc with hval | hval
      · left
        rw [hval]
        rfl
      · right
        rw [hval]
        rfl
    · intro k clue hk hdec2
      have hvmem : r3.2.1.vertices.getD k default ∈ r3.2.1.vertices := by
        apply getD_mem
        rw [hvv2, hvl]
        exact hk
      have hvval : r3.2.1.vertices.getD k default =
          ⟨k % (width + 1), k / (width + 1), (decode_givens givens).getD k none⟩ := by
        rw [hvv2]
        exact hvk k hk
      have hclue_eq : (r3.2.1.vertices.getD k default).clue = some clue := by
        rw [hvval]
        exact hdec2
      have hct0 := hclues _ hvmem clue hclue_eq
      rw [hvval] at hct0
      have hdecided : ∀ j, j < r3.2.1.cells.length →
          (r3.2.1.cells.getD j default).value ≠ UNKNOWN := by
        intro j hj
        rcases hcells _ (getD_mem _ hj) with hv | hv <;> rw [hv] <;> decide
      have hflen : r3.2.1.cells.length = r3.2.1.width * r3.2.1.height := by
        rw [hBlen, hw2, hiw, hh2, hih]
      have hmlt : k % (width + 1) < width + 1 := Nat.mod_lt k (by omega)
      have hdlt : k / (width + 1) < height + 1 :=
        Nat.div_lt_of_lt_mul (Nat.mul_comm (width + 1) (height + 1) ▸ hk)
      have hvx : k % (width + 1) ≤ r3.2.1.width := by
        rw [hw2, hiw]
        omega
      have hvy : k / (width + 1) ≤ r3.2.1.height := by
        rw [hh2, hih]
        omega
      have hformula := count_touches_formula (k % (width + 1)) (k / (width + 1))
        ((decode_givens givens).getD k none) hvx hvy hflen hdecided
      rw [hw2, hiw, hh2, hih] at hformula
      have hkeq : k = (k / (width + 1)) * (width + 1) + (k % (width + 1)) := by
        have hdm := Nat.div_add_mod k (width + 1)
        rw [Nat.mul_comm]
        omega
      have hflat : (compute_vertex_clues width height (string_to_values sol)).getD k 0 =
          (if k % (width + 1) > 0 ∧ k / (width + 1) > 0 ∧
              (string_to_values sol).getD
                ((k / (width + 1) - 1) * width + (k % (width + 1) - 1)) 0 = BACKSLASH
            then 1 else 0) +
          (if k % (width + 1) < width ∧ k / (width + 1) > 0 ∧
              (string_to_values sol).getD
                ((k / (width + 1) - 1) * width + k % (width + 1)) 0 = SLASH
            then 1 else 0) +
          (if k % (width + 1) > 0 ∧ k / (width + 1) < height ∧
              (string_to_values sol).getD
                (k / (width + 1) * width + (k % (width + 1) - 1)) 0 = SLASH
            then 1 else 0) +
          (if k % (width + 1) < width ∧ k / (width + 1) < height ∧
              (string_to_values sol).getD
                (k / (width + 1) * width + k % (width + 1)) 0 = BACKSLASH
            then 1 else 0) := by
        unfold compute_vertex_clues
        conv_lhs => rw [hkeq]
        exact flatten_grid_getD (width + 1) 0 (height + 1) _ (k / (width + 1))
          (k % (width + 1)) hdlt hmlt
      have ht1 : (if k % (width + 1) > 0 ∧ k / (width + 1) > 0 ∧
              (string_to_values sol).getD
                ((k / (width + 1) - 1) * width + (k % (width + 1) - 1)) 0 = BACKSLASH
            then (1 : Nat) else 0) =
          (if k % (width + 1) > 0 ∧ k / (width + 1) > 0 ∧
              (r3.2.1.cells.getD
                ((k / (width + 1) - 1) * width + (k % (width + 1) - 1)) default).value =
                BACKSLASH
            then 1 else 0) := by
        by_cases hcnd : k % (width + 1) > 0 ∧ k / (width + 1) > 0
        · have hidx : (k / (width + 1) - 1) * width + (k % (width + 1) - 1) <
              r3.2.1.cells.length := by
            rw [hBlen]
            exact row_major_lt (by omega) (by omega)
          rw [← hsol, string_values_getD hcells hidx]
        · rw [if_neg (fun hh => hcnd ⟨hh.1, hh.2.1⟩), if_neg (fun hh => hcnd ⟨hh.1, hh.2.1⟩)]
      have ht2 : (if k % (width + 1) < width ∧ k / (width + 1) > 0 ∧
              (string_to_values sol).getD
                ((k / (width + 1) - 1) * width + k % (width + 1)) 0 = SLASH
            then (1 : Nat) else 0) =
          (if k % (width + 1) < width ∧ k / (width + 1) > 0 ∧
              (r3.2.1.cells.getD
                ((k / (width + 1) - 1) * width + k % (width + 1)) default).value = SLASH
            then 1 else 0) := by
        by_cases hcnd : k % (width + 1) < width ∧ k / (width + 1) > 0
        · have hidx : (k / (width + 1) - 1) * width + k % (width + 1) <
              r3.2.1.cells.length := by
            rw [hBlen]
            exact row_major_lt (by omega) (by omega)
          rw [← hsol, string_values_getD hcells hidx]
        · rw [if_neg (fun hh => hcnd ⟨hh.1, hh.2.1⟩), if_neg (fun hh => hcnd ⟨hh.1, hh.2.1⟩)]
      have ht3 : (if k % (width + 1) > 0 ∧ k / (width + 1) < height ∧
              (string_to_values sol).getD
                (k / (width + 1) * width + (k % (width + 1) - 1)) 0 = SLASH
            then (1 : Nat) else 0) =
          (if k % (width + 1) > 0 ∧ k / (width + 1) < height ∧
              (r3.2.1.cells.getD
                (k / (width + 1) * width + (k % (width + 1) - 1)) default).value = SLASH
            then 1 else 0) := by
        by_cases hcnd : k % (width + 1) > 0 ∧ k / (width + 1) < height
        · have hidx : k / (width + 1) * width + (k % (width + 1) - 1) <
              r3.2.1.cells.length := by
            rw [hBlen]
            exact row_major_lt (by omega) (by omega)
          rw [← hsol, string_values_getD hcells hidx]
        · rw [if_neg (fun hh => hcnd ⟨hh.1, hh.2.1⟩), if_neg (fun hh => hcnd ⟨hh.1, hh.2.1⟩)]
      have ht4 : (if k % (width + 1) < width ∧ k / (width + 1) < height ∧
              (string_to_values sol).getD
                (k / (width + 1) * width + k % (width + 1)) 0 = BACKSLASH
            then (1 : Nat) else 0) =
          (if k % (width + 1) < width ∧ k / (width + 1) < height ∧
              (r3.2.1.cells.getD
                (k / (width + 1) * width + k % (width + 1)) default).value = BACKSLASH
            then 1 else 0) := by
        by_cases hcnd : k % (width + 1) < width ∧ k / (width + 1) < height
        · have hidx : k / (width + 1) * width + k % (width + 1) <
              r3.2.1.cells.length := by
            rw [hBlen]
            exact row_major_lt (by omega) (by omega)
          rw [← hsol, string_values_getD hcells hidx]
        · rw [if_neg (fun hh => hcnd ⟨hh.1, hh.2.1⟩), if_neg (fun hh => hcnd ⟨hh.1, hh.2.1⟩)]
      rw [hflat, ht1, ht2, ht3, ht4, ← hformula]
      exact hct0

/-- Concrete instance of `c1_solved_complete_and_correct`: the 2×2 centre-4
puzzle "d4d" is solved by the rules alone, and the returned string is a
complete assignment satisfying the decoded clue. -/
theorem c1_solved_complete_and_correct_witness :
    solve_PR ("d4d".toList) 2 2 none false 3 =
      .ok ("solved", "\x5c//\x5c".toList, 2, 1) ∧
    (("\x5c//\x5c".toList : List Char).length = 2 * 2 ∧
      (∀ ch ∈ ("\x5c//\x5c".toList : List Char), ch = '/' ∨ ch = '\x5c') ∧
      ∀ k clue, k < (2 + 1) * (2 + 1) →
        (decode_givens ("d4d".toList)).getD k none = some clue →
        (compute_vertex_clues 2 2 (string_to_values ("\x5c//\x5c".toList))).getD k 0 =
          clue) :=
  ⟨by rfl,
    c1_solved_complete_and_correct ("d4d".toList) 2 2 none false 3
      ("\x5c//\x5c".toList) 2 1 (by rfl)⟩
